import Mathlib

/-!
# Search server: indexing and ranking core

A shallow embedding of `src/search-server/main.cpp` and the properties proved about it.

Conventions of the embedding.

* `std::string` is a list of characters (`Str`); `std::vector` is a `List`, `push_back`
  appends at the end.
* `std::set<K>` is a strictly ascending list of keys, `std::map<K, V>` a list of key/value
  pairs strictly ascending in the key; iterating a container walks the list front to back.
* `double` is an arbitrary linearly ordered field `R` (exact arithmetic) and the library
  function `log` is a parameter `ln : R → R`; the real numbers with `Real.log` are one instance.
* `int` values are integers: ids, ratings and counters are taken as they are, and the sum and
  the size conversion of `ComputeAverageRating`, the one place that adds caller-supplied
  values, wrap to 32 bits.
* `std::map::at` on a missing key throws `std::out_of_range`: the functions that call it
  return an `Option`, `none` standing for the exception.
* `std::sort` is library code and is not part of the embedding: `FindTopDocuments` takes the
  sorting function as a parameter `sort`, and the properties are proved for every function
  that does what the C++ standard asks of `std::sort` (`StdSort`): it returns a rearrangement
  of its input, which is in the order of the comparison whenever the comparison is a strict
  weak ordering on the elements. The order in which it leaves elements that the comparison
  does not separate is not fixed. For a comparison that is not a strict weak ordering the
  standard promises nothing; the parameter is then still taken to return a rearrangement.
  The insertion sort `insertionSort` is one such function, and no more than that.
-/

set_option linter.unusedSectionVars false
set_option linter.unusedVariables false

/-- The C++ `std::string`. -/
abbrev Str := List Char

/-! ## Ordered containers -/

/-- The `std::set::insert`: the key is placed at its position in the ascending list, a key
already present is left alone. -/
def setInsert {K : Type} [LinearOrder K] (k : K) : List K → List K
  | [] => [k]
  | x :: s => if k < x then k :: x :: s else if k = x then x :: s else x :: setInsert k s

/-- The lookup `std::map::find`: the value stored under `k`, if any. -/
def mapFind {K V : Type} [DecidableEq K] (m : List (K × V)) (k : K) : Option V :=
  match m with
  | [] => none
  | (k', v) :: m => if k = k' then some v else mapFind m k

/-- The count `std::map::count(k)` as a truth value. -/
def mapContains {K V : Type} [DecidableEq K] (m : List (K × V)) (k : K) : Bool :=
  (mapFind m k).isSome

/-- Replaces the value under `k` by `f (some old)`, or inserts `f none` at the position of `k`
when the key is missing. `m[k] += x` is `mapUpdate k (fun o => o.getD 0 + x) m` and
`m.emplace(k, v)` is `mapUpdate k (fun o => o.getD v) m`. -/
def mapUpdate {K V : Type} [LinearOrder K] (k : K) (f : Option V → V) :
    List (K × V) → List (K × V)
  | [] => [(k, f none)]
  | (k', v) :: m =>
    if k < k' then (k, f none) :: (k', v) :: m
    else if k = k' then (k', f (some v)) :: m
    else (k', v) :: mapUpdate k f m

/-- The removal `std::map::erase(k)`. -/
def mapErase {K V : Type} [DecidableEq K] (k : K) : List (K × V) → List (K × V)
  | [] => []
  | (k', v) :: m => if k = k' then m else (k', v) :: mapErase k m

/-! ## Sorting -/

/-- One step of insertion sort: `a` goes in front of the first element that is not strictly
before it under `less`. -/
def insertByLess {α : Type} (less : α → α → Bool) (a : α) : List α → List α
  | [] => [a]
  | b :: l => if less b a then b :: insertByLess less a l else a :: b :: l

/-- An insertion sort. It is one of the functions that may stand for the library call
`std::sort(first, last, comp)`; the library's own algorithm is another, and the two may leave
elements that the comparison does not separate in different orders. -/
def insertionSort {α : Type} (less : α → α → Bool) : List α → List α
  | [] => []
  | a :: l => insertByLess less a (insertionSort less l)

/-- The type of the library call `std::sort(first, last, comp)` on a vector of `α`: from the
comparison and the elements to the rearranged elements. -/
abbrev SortFn (α : Type) := (α → α → Bool) → List α → List α

/-! ## The program -/

/-- The constant `MAX_RESULT_DOCUMENT_COUNT`. -/
def MAX_RESULT_DOCUMENT_COUNT : Nat := 5

/-- The body of the loop of `SplitIntoWords`; the state is `(words, word)`. -/
def splitStep (st : List Str × Str) (c : Char) : List Str × Str :=
  if c = ' ' then
    if st.2 ≠ [] then (st.1 ++ [st.2], []) else st
  else (st.1, st.2 ++ [c])

/-- The function `SplitIntoWords`. -/
def SplitIntoWords (text : Str) : List Str :=
  let st := text.foldl splitStep ([], [])
  if st.2 ≠ [] then st.1 ++ [st.2] else st.1

/-- The type `struct Document`. -/
structure Document (R : Type) where
  id : Int
  relevance : R
  rating : Int

/-- The type `enum class DocumentStatus`. -/
inductive DocumentStatus where
  | ACTUAL
  | IRRELEVANT
  | BANNED
  | REMOVED
  deriving DecidableEq, Repr

/-- The type `SearchServer::Query`. -/
structure Query where
  plus_words : List Str
  minus_words : List Str
  deriving DecidableEq, Repr

/-- The type `SearchServer::DocumentData`. -/
structure DocumentData where
  rating : Int
  status : DocumentStatus
  deriving DecidableEq, Repr

/-- The data members of `class SearchServer`. -/
structure SearchServer (R : Type) where
  word_to_document_freqs_ : List (Str × List (Int × R))
  documents_ : List (Int × DocumentData)
  document_count_ : Int
  stop_words_ : List Str

/-- The value of a 32-bit `int` after an arithmetic result `x` wraps around. -/
def wrapInt (x : Int) : Int := (x + 2147483648) % 4294967296 - 2147483648

namespace SearchServer

variable {R : Type}

/-- A default-constructed `SearchServer`. -/
def empty : SearchServer R :=
  { word_to_document_freqs_ := [], documents_ := [], document_count_ := 0, stop_words_ := [] }

/-- The method `SetStopWords`. -/
def SetStopWords (s : SearchServer R) (text : Str) : SearchServer R :=
  { s with
    stop_words_ :=
      (SplitIntoWords text).foldl (fun stop word => setInsert word stop) s.stop_words_ }

/-- The method `IsStopWord`. -/
def IsStopWord (s : SearchServer R) (word : Str) : Bool :=
  decide (word ∈ s.stop_words_)

/-- The method `ComputeAverageRating`: `accumulate` adds in `int`, the quotient truncates
toward zero. -/
def ComputeAverageRating (ratings : List Int) : Int :=
  if ratings.isEmpty then 0
  else
    let rating_sum := ratings.foldl (fun acc x => wrapInt (acc + x)) 0
    Int.tdiv rating_sum (wrapInt (ratings.length : Int))

/-- The method `SplitIntoWordsNoStop`. -/
def SplitIntoWordsNoStop (s : SearchServer R) (text : Str) : List Str :=
  (SplitIntoWords text).filter (fun word => !s.IsStopWord word)

/-- The body of the loop of `ParseQuery`: a word that starts with `-` loses that character
and, unless the rest is a stop word, enters the minus-words; the word, stripped or not, then
enters the plus-words. -/
def parseWord (s : SearchServer R) (query : Query) (word : Str) : Query :=
  if word.head? = some '-' then
    let word := word.drop 1
    let query :=
      if !s.IsStopWord word then { query with minus_words := setInsert word query.minus_words }
      else query
    { query with plus_words := setInsert word query.plus_words }
  else { query with plus_words := setInsert word query.plus_words }

/-- The method `ParseQuery`. -/
def ParseQuery (s : SearchServer R) (text : Str) : Query :=
  (s.SplitIntoWordsNoStop text).foldl (parseWord s) { plus_words := [], minus_words := [] }

/-- The method `GetDocumentCount`. -/
def GetDocumentCount (s : SearchServer R) : Int := (s.documents_.length : Int)

variable [LinearOrderedField R]

/-- The body of the loop of `AddDocument`:
`word_to_document_freqs_[word][document_id] += freq`. -/
def indexWord (document_id : Int) (freq : R) (m : List (Str × List (Int × R))) (word : Str) :
    List (Str × List (Int × R)) :=
  mapUpdate word (fun o => mapUpdate document_id (fun o' => o'.getD 0 + freq) (o.getD [])) m

/-- The method `AddDocument`. With no word left the quotient `1.0 / 0` is never used: the
loop over the words does not run. -/
def AddDocument (s : SearchServer R) (document_id : Int) (document : Str)
    (status : DocumentStatus) (ratings : List Int) : SearchServer R :=
  let words := s.SplitIntoWordsNoStop document
  let freq : R := 1 / (words.length : R)
  { s with
    word_to_document_freqs_ := words.foldl (indexWord document_id freq) s.word_to_document_freqs_
    documents_ :=
      mapUpdate document_id
        (fun o => o.getD { rating := ComputeAverageRating ratings, status := status })
        s.documents_
    document_count_ := s.document_count_ + 1 }

/-- The method `ComputeIDF`. -/
def ComputeIDF (ln : R → R) (s : SearchServer R) (found_in_docs : Int) : R :=
  ln ((s.document_count_ : R) / (found_in_docs : R))

/-- The loop of `FindAllDocuments` over the postings of one plus-word. -/
def accumulateWord (s : SearchServer R) (predicate : Int → DocumentStatus → Int → Bool)
    (IDF : R) (tempFreq : List (Int × R)) (document_to_relevance : List (Int × R)) :
    Option (List (Int × R)) :=
  tempFreq.foldlM
    (fun rel p => do
      let data ← mapFind s.documents_ p.1
      pure (if predicate p.1 data.status data.rating then
          mapUpdate p.1 (fun o => o.getD 0 + IDF * p.2) rel
        else rel))
    document_to_relevance

/-- The body of the first loop of `FindAllDocuments`: the plus-word `word` adds its share to
the relevance of the documents of its postings that the predicate accepts. -/
def scoreWord (ln : R → R) (s : SearchServer R)
    (predicate : Int → DocumentStatus → Int → Bool) (document_to_relevance : List (Int × R))
    (word : Str) : Option (List (Int × R)) :=
  match mapFind s.word_to_document_freqs_ word with
  | none => pure document_to_relevance
  | some tempFreq =>
    accumulateWord s predicate (ComputeIDF ln s (tempFreq.length : Int)) tempFreq
      document_to_relevance

/-- The body of the second loop of `FindAllDocuments`: the documents of the postings of the
minus-word `word` are erased. -/
def eraseWord (s : SearchServer R) (document_to_relevance : List (Int × R)) (word : Str) :
    List (Int × R) :=
  match mapFind s.word_to_document_freqs_ word with
  | none => document_to_relevance
  | some postings => postings.foldl (fun rel p => mapErase p.1 rel) document_to_relevance

/-- The body of the last loop of `FindAllDocuments`. -/
def makeDocument (s : SearchServer R) (p : Int × R) : Option (Document R) := do
  let data ← mapFind s.documents_ p.1
  pure { id := p.1, relevance := p.2, rating := data.rating }

/-- The method `FindAllDocuments`. -/
def FindAllDocuments (ln : R → R) (s : SearchServer R) (query_words : Query)
    (predicate : Int → DocumentStatus → Int → Bool) : Option (List (Document R)) := do
  let scored ← query_words.plus_words.foldlM (scoreWord ln s predicate) []
  let document_to_relevance := query_words.minus_words.foldl (eraseWord s) scored
  document_to_relevance.mapM (makeDocument s)

/-- The comparison passed to `sort` in `FindTopDocuments`. -/
def documentLess (lhs rhs : Document R) : Bool :=
  if |lhs.relevance - rhs.relevance| < 1 / 1000000 then decide (lhs.rating > rhs.rating)
  else decide (lhs.relevance > rhs.relevance)

/-- The method `FindTopDocuments` taking a predicate. The library call
`sort(matched_documents.begin(), matched_documents.end(), comp)` is the parameter `sort`. -/
def FindTopDocuments (sort : SortFn (Document R)) (ln : R → R) (s : SearchServer R)
    (raw_query : Str) (predicate : Int → DocumentStatus → Int → Bool) :
    Option (List (Document R)) := do
  let query_words := s.ParseQuery raw_query
  let matched_documents ← FindAllDocuments ln s query_words predicate
  let matched_documents := sort documentLess matched_documents
  pure (if matched_documents.length > MAX_RESULT_DOCUMENT_COUNT then
      matched_documents.take MAX_RESULT_DOCUMENT_COUNT
    else matched_documents)

/-- The method `FindTopDocuments` taking a status. -/
def FindTopDocumentsByStatus (sort : SortFn (Document R)) (ln : R → R) (s : SearchServer R)
    (raw_query : Str) (status : DocumentStatus) : Option (List (Document R)) :=
  FindTopDocuments sort ln s raw_query (fun _ new_status _ => decide (new_status = status))

/-- The method `FindTopDocuments` called with the query alone: the status defaults to
`DocumentStatus::ACTUAL`. -/
def FindTopDocumentsDefault (sort : SortFn (Document R)) (ln : R → R) (s : SearchServer R)
    (raw_query : Str) : Option (List (Document R)) :=
  FindTopDocumentsByStatus sort ln s raw_query DocumentStatus.ACTUAL

/-- The test made on a query word in both loops of `MatchDocument`: the word is a key of
`word_to_document_freqs_` and its postings hold `document_id`. -/
def wordHits (s : SearchServer R) (document_id : Int) (word : Str) : Bool :=
  match mapFind s.word_to_document_freqs_ word with
  | none => false
  | some postings => mapContains postings document_id

/-- The method `MatchDocument`. The second loop clears the matched words and stops at the
first minus-word that hits the document. -/
def MatchDocument (s : SearchServer R) (raw_query : Str) (document_id : Int) :
    Option (List Str × DocumentStatus) := do
  let query_words := s.ParseQuery raw_query
  let matched_words := query_words.plus_words.filter (wordHits s document_id)
  let matched_words :=
    if query_words.minus_words.any (wordHits s document_id) then [] else matched_words
  let data ← mapFind s.documents_ document_id
  pure (matched_words, data.status)

end SearchServer

/-! ## Runs of the server -/

/-- A call of one of the two mutating methods. -/
inductive Call where
  | setStopWords (text : Str)
  | addDocument (document_id : Int) (document : Str) (status : DocumentStatus)
      (ratings : List Int)

/-- The state after one call. -/
def Call.apply {R : Type} [LinearOrderedField R] (s : SearchServer R) : Call → SearchServer R
  | Call.setStopWords text => s.SetStopWords text
  | Call.addDocument document_id document status ratings =>
    s.AddDocument document_id document status ratings

/-- The state after a sequence of calls, from the state `s`. -/
def runFrom {R : Type} [LinearOrderedField R] (s : SearchServer R) (calls : List Call) :
    SearchServer R :=
  calls.foldl Call.apply s

/-- The state a fresh server reaches by a sequence of calls. -/
def run {R : Type} [LinearOrderedField R] (calls : List Call) : SearchServer R :=
  runFrom SearchServer.empty calls

/-- The ids passed to `AddDocument`, in call order. -/
def addedIds : List Call → List Int
  | [] => []
  | Call.setStopWords _ :: calls => addedIds calls
  | Call.addDocument document_id _ _ _ :: calls => document_id :: addedIds calls

/-! ## Notions used to state the properties -/

/-- The keys of a map are in strictly ascending order, as `std::map` keeps them. -/
def KeysSorted {K V : Type} [LT K] (m : List (K × V)) : Prop :=
  (m.map Prod.fst).Pairwise (· < ·)

/-- The value stored in a term-to-postings map for the term `t` and the document `d`. -/
def lookup2 {R : Type} (m : List (Str × List (Int × R))) (t : Str) (d : Int) : Option R :=
  (mapFind m t).bind (fun postings => mapFind postings d)

/-- The posting of the term `t` for the document `d`: the term frequency stored in
`word_to_document_freqs_`, if there is one. -/
def SearchServer.posting {R : Type} (s : SearchServer R) (t : Str) (d : Int) : Option R :=
  lookup2 s.word_to_document_freqs_ t d

/-- The number of documents that have a posting for the term `t`. -/
def SearchServer.df {R : Type} (s : SearchServer R) (t : Str) : Nat :=
  ((mapFind s.word_to_document_freqs_ t).getD []).length

/-- The keys of both levels of a term-to-postings map are ascending. -/
def IndexSorted {R : Type} (m : List (Str × List (Int × R))) : Prop :=
  KeysSorted m ∧ ∀ t postings, mapFind m t = some postings → KeysSorted postings

/-- What every state of a running server satisfies: the maps are ascending in their keys and
every document id of a posting has metadata. -/
structure SearchServer.WF {R : Type} (s : SearchServer R) : Prop where
  index : IndexSorted s.word_to_document_freqs_
  documents : KeysSorted s.documents_
  known : ∀ t d, (s.posting t d).isSome = true → (mapFind s.documents_ d).isSome = true

/-- The value of `predicate(d, status(d), rating(d))` on the metadata stored for `d`; false
for an id without metadata. -/
def SearchServer.accepts {R : Type} (s : SearchServer R)
    (predicate : Int → DocumentStatus → Int → Bool) (d : Int) : Bool :=
  match mapFind s.documents_ d with
  | some data => predicate d data.status data.rating
  | none => false

/-- The ids of the documents that match a parsed query, in ascending order: the documents
with metadata that the predicate accepts, for which some plus-word has a posting and no
minus-word has one. -/
def SearchServer.matchingIds {R : Type} (s : SearchServer R) (q : Query)
    (predicate : Int → DocumentStatus → Int → Bool) : List Int :=
  (s.documents_.map Prod.fst).filter (fun d =>
    s.accepts predicate d && q.plus_words.any (fun t => (s.posting t d).isSome) &&
      !q.minus_words.any (fun t => (s.posting t d).isSome))

/-- The share of the term `t` in the relevance of the document `d`: the IDF of `t` times the
term frequency stored for `d`, and zero without a posting. -/
def SearchServer.termScore {R : Type} [LinearOrderedField R] (ln : R → R) (s : SearchServer R)
    (d : Int) (t : Str) : R :=
  match s.posting t d with
  | some tf => SearchServer.ComputeIDF ln s (s.df t : Int) * tf
  | none => 0

/-- The rating stored for the document `d`. -/
def SearchServer.ratingOf {R : Type} (s : SearchServer R) (d : Int) : Int :=
  match mapFind s.documents_ d with
  | some data => data.rating
  | none => 0

/-- The `Document` built from an entry of the relevance map, with the rating stored for its
id. -/
def SearchServer.asDocument {R : Type} (s : SearchServer R) (p : Int × R) : Document R :=
  { id := p.1, relevance := p.2, rating := s.ratingOf p.1 }

/-- Every partial sum `acc + r₁ + ... + rₖ` of the ratings lies in the range of a 32-bit
`int`: the additions of `accumulate` do not overflow. -/
def sumsInRange : Int → List Int → Bool
  | _, [] => true
  | acc, x :: xs =>
    decide (-2147483648 ≤ acc + x) && decide (acc + x < 2147483648) && sumsInRange (acc + x) xs

/-- The order of a result list by relevance and rating: for every two positions `i < j`, when
the two relevances differ by at least `1e-6` the document at `i` has the greater relevance,
and when they differ by less the document at `i` has a rating at least that of the document
at `j`. -/
def RankedOrder {R : Type} [LinearOrderedField R] (l : List (Document R)) : Prop :=
  ∀ (i j : Nat) (hij : i < j) (hj : j < l.length),
    (1 / 1000000 ≤ |(l.get ⟨i, hij.trans hj⟩).relevance - (l.get ⟨j, hj⟩).relevance| →
      (l.get ⟨i, hij.trans hj⟩).relevance > (l.get ⟨j, hj⟩).relevance) ∧
    (|(l.get ⟨i, hij.trans hj⟩).relevance - (l.get ⟨j, hj⟩).relevance| < 1 / 1000000 →
      (l.get ⟨i, hij.trans hj⟩).rating ≥ (l.get ⟨j, hj⟩).rating)

/-- The text made of `n` copies of the word `w`, each followed by one space, and then
`rest`. -/
def repeatWord (w : Str) : Nat → Str → Str
  | 0, rest => rest
  | n + 1, rest => w ++ ' ' :: repeatWord w n rest

/-- The words of a text as the tokenizer is described: the text is split at every space and
the empty pieces are discarded. -/
def splitAtSpaces (text : Str) : List Str :=
  (text.splitOn ' ').filter (fun piece => !piece.isEmpty)

/-- The calls that set up the stop words first and add the documents afterwards: one
`SetStopWords` call per text of `stops`, then one `AddDocument` call per entry of `adds`. -/
def setupThenAdd (stops : List Str) (adds : List (Int × Str × DocumentStatus × List Int)) :
    List Call :=
  stops.map Call.setStopWords ++
    adds.map (fun a => Call.addDocument a.1 a.2.1 a.2.2.1 a.2.2.2)

/-- No stop word is a key of the term-to-postings map. -/
def NoStopKey {R : Type} (s : SearchServer R) : Prop :=
  ∀ w, s.IsStopWord w = true → mapFind s.word_to_document_freqs_ w = none

/-- A comparison `less` is a strict weak ordering on the elements that satisfy `S`: it is
irreflexive and transitive there, and so is the relation of being incomparable (neither
element is before the other) transitive. -/
def StrictWeakOrderingOn {α : Type} (less : α → α → Bool) (S : α → Prop) : Prop :=
  (∀ a, S a → less a a = false) ∧
  (∀ a b c, S a → S b → S c → less a b = true → less b c = true → less a c = true) ∧
  (∀ a b c, S a → S b → S c → less a b = false → less b a = false → less b c = false →
    less c b = false → less a c = false ∧ less c a = false)

/-- What the C++ standard asks of `std::sort(first, last, comp)`: the elements are rearranged,
and when `comp` is a strict weak ordering on them no element is ordered by `comp` before an
element that stands earlier in the result. Nothing is said of the order of elements that
`comp` does not separate. When `comp` is not a strict weak ordering the standard promises
nothing; the function is taken to return a rearrangement all the same. -/
def StdSort {α : Type} (sort : SortFn α) : Prop :=
  ∀ (less : α → α → Bool) (l : List α),
    (sort less l).Perm l ∧
    (StrictWeakOrderingOn less (fun a => a ∈ l) →
      (sort less l).Pairwise (fun a b => less b a = false))

/-- Among the Documents that satisfy `S` there is no chain of near ties that the ratings do
not put in order: whenever `x` and `z` have relevances at least `1e-6` apart, `x` the lower
one, and both are within `1e-6` of the relevance of `y`, the rating of `z` is greater than
that of `y` or the rating of `y` is greater than that of `x`. -/
def NoTieChainOn {R : Type} [LinearOrderedField R] (S : Document R → Prop) : Prop :=
  ∀ x y z, S x → S y → S z → |x.relevance - y.relevance| < 1 / 1000000 →
    |y.relevance - z.relevance| < 1 / 1000000 →
    ¬ |x.relevance - z.relevance| < 1 / 1000000 → x.relevance < z.relevance →
    z.rating > y.rating ∨ y.rating > x.rating

/-- The relation of two Documents having relevances that differ by less than `1e-6` is
transitive on the Documents that satisfy `S`. -/
def NearTiesTransitiveOn {R : Type} [LinearOrderedField R] (S : Document R → Prop) : Prop :=
  ∀ a b c, S a → S b → S c → |a.relevance - b.relevance| < 1 / 1000000 →
    |b.relevance - c.relevance| < 1 / 1000000 → |a.relevance - c.relevance| < 1 / 1000000

/-! ## Inputs of the tests of `main.cpp` -/

/-- The calls of the test `MinusWordsAreNotParsed`. -/
def minusWordsCalls : List Call :=
  [Call.addDocument 1 "cat the city".toList DocumentStatus.ACTUAL [1, 2, 3],
   Call.addDocument 2 " white cat in box".toList DocumentStatus.ACTUAL [2, 3, 8],
   Call.addDocument 3 "dog sleep in box".toList DocumentStatus.ACTUAL [-6, 3, 0]]

/-- The calls of the tests `TestRating` and `OversimplifiedRelevanceCalculation`. -/
def ratingCalls : List Call :=
  [Call.addDocument 10 "rat in the box".toList DocumentStatus.ACTUAL [1, 2, 3],
   Call.addDocument 20 "white cat in box".toList DocumentStatus.ACTUAL [2, 3, 7],
   Call.addDocument 30 "dog sleep in box".toList DocumentStatus.ACTUAL [-6, 3, 0]]

/-- The calls of the test `DocumentPredicateIsIgnored`. -/
def statusCalls : List Call :=
  [Call.addDocument 10 "rat in the box".toList DocumentStatus.ACTUAL [1, 2, 3],
   Call.addDocument 20 "white cat in box".toList DocumentStatus.IRRELEVANT [2, 3, 7],
   Call.addDocument 30 "dog sleep in box".toList DocumentStatus.BANNED [-6, 3, 0]]

/-- The calls of the test `MatchDocumentAlwaysReturnActualStatus`. -/
def matchCalls : List Call :=
  [Call.addDocument 1 "cat the city".toList DocumentStatus.BANNED [1, 2, 3],
   Call.addDocument 2 " white cat in box".toList DocumentStatus.IRRELEVANT [2, 3, 8],
   Call.addDocument 3 "dog sleep in box".toList DocumentStatus.ACTUAL [-6, 3, 0],
   Call.addDocument 4 "hello world".toList DocumentStatus.ACTUAL [-6, 3, 0]]

/-- Four documents, three of them a million words long: document 1 holds the word `x` once,
document 2 three times and document 3 five times, among copies of the word `a`; document 4 is
the single word `y`. -/
def nearTieCalls : List Call :=
  [Call.addDocument 1 (repeatWord ['a'] 999999 (repeatWord ['x'] 1 [])) DocumentStatus.ACTUAL [3],
   Call.addDocument 2 (repeatWord ['a'] 999997 (repeatWord ['x'] 3 [])) DocumentStatus.ACTUAL [2],
   Call.addDocument 3 (repeatWord ['a'] 999995 (repeatWord ['x'] 5 [])) DocumentStatus.ACTUAL [1],
   Call.addDocument 4 ['y'] DocumentStatus.ACTUAL []]

/-- Seven documents that all hold the word `box` and nothing else in common, with the ratings
1 to 7 in an order that is not the order of the ids. -/
def capCalls : List Call :=
  [Call.addDocument 1 "box a".toList DocumentStatus.ACTUAL [3],
   Call.addDocument 2 "box b".toList DocumentStatus.ACTUAL [7],
   Call.addDocument 3 "box c".toList DocumentStatus.ACTUAL [1],
   Call.addDocument 4 "box d".toList DocumentStatus.ACTUAL [5],
   Call.addDocument 5 "box e".toList DocumentStatus.ACTUAL [2],
   Call.addDocument 6 "box f".toList DocumentStatus.ACTUAL [6],
   Call.addDocument 7 "box g".toList DocumentStatus.ACTUAL [4]]

/-- The calls of the second part of the test `TestExcludeStopWordsFromAddedDocumentContent`. -/
def stopWordsCalls : List Call :=
  [Call.setStopWords "in the".toList,
   Call.addDocument 42 "cat in the city".toList DocumentStatus.ACTUAL [1, 2, 3]]

/-! ## Facts about the ordered containers -/

section Containers

variable {K V : Type}

theorem mem_setInsert [LinearOrder K] (k x : K) (s : List K) :
    x ∈ setInsert k s ↔ x = k ∨ x ∈ s := by
  induction s with
  | nil => simp [setInsert]
  | cons y s ih =>
    unfold setInsert
    split_ifs with h1 h2
    · simp
    · subst h2
      simp only [List.mem_cons]
      tauto
    · simp only [List.mem_cons, ih]
      tauto

theorem setInsert_sorted [LinearOrder K] (k : K) (s : List K)
    (hs : s.Pairwise (· < ·)) : (setInsert k s).Pairwise (· < ·) := by
  induction s with
  | nil => simp [setInsert]
  | cons y s ih =>
    obtain ⟨hy, hs'⟩ := List.pairwise_cons.mp hs
    unfold setInsert
    split_ifs with h1 h2
    · refine List.pairwise_cons.mpr ⟨?_, hs⟩
      intro a ha
      rcases List.mem_cons.mp ha with rfl | ha
      · exact h1
      · exact lt_trans h1 (hy a ha)
    · exact hs
    · refine List.pairwise_cons.mpr ⟨?_, ih hs'⟩
      intro a ha
      rcases (mem_setInsert k a s).mp ha with rfl | ha
      · exact lt_of_le_of_ne (not_lt.mp h1) (Ne.symm h2)
      · exact hy a ha

theorem setInsert_of_mem [LinearOrder K] (k : K) (s : List K)
    (hs : s.Pairwise (· < ·)) (hk : k ∈ s) : setInsert k s = s := by
  induction s with
  | nil => simp at hk
  | cons y s ih =>
    obtain ⟨hy, hs'⟩ := List.pairwise_cons.mp hs
    unfold setInsert
    rcases List.mem_cons.mp hk with rfl | hk'
    · simp
    · have hlt : y < k := hy k hk'
      rw [if_neg (not_lt.mpr hlt.le), if_neg (ne_of_gt hlt), ih hs' hk']

theorem setInsert_perm [LinearOrder K] (k : K) (s : List K) (hk : k ∉ s) :
    (setInsert k s).Perm (k :: s) := by
  induction s with
  | nil => exact List.Perm.refl _
  | cons y s ih =>
    unfold setInsert
    have hne : k ≠ y := fun h => hk (h ▸ List.mem_cons_self _ _)
    have hk' : k ∉ s := fun h => hk (List.mem_cons_of_mem _ h)
    split_ifs with h1
    · exact List.Perm.refl _
    · exact (List.Perm.cons y (ih hk')).trans (List.Perm.swap k y s)

theorem foldl_setInsert_sorted [LinearOrder K] (ws s : List K)
    (hs : s.Pairwise (· < ·)) :
    (ws.foldl (fun acc w => setInsert w acc) s).Pairwise (· < ·) := by
  induction ws generalizing s with
  | nil => simpa using hs
  | cons w ws ih => exact ih _ (setInsert_sorted w s hs)

theorem mem_foldl_setInsert [LinearOrder K] (ws s : List K) (x : K) :
    x ∈ ws.foldl (fun acc w => setInsert w acc) s ↔ x ∈ ws ∨ x ∈ s := by
  induction ws generalizing s with
  | nil => simp
  | cons w ws ih =>
    simp only [List.foldl_cons, ih, mem_setInsert, List.mem_cons]
    tauto

theorem mapUpdate_keys [LinearOrder K] (k : K) (f : Option V → V) (m : List (K × V)) :
    (mapUpdate k f m).map Prod.fst = setInsert k (m.map Prod.fst) := by
  induction m with
  | nil => rfl
  | cons p m ih =>
    obtain ⟨k', v⟩ := p
    simp only [mapUpdate, List.map_cons, setInsert]
    split_ifs <;> simp [ih]

theorem mapUpdate_sorted [LinearOrder K] (k : K) (f : Option V → V) (m : List (K × V))
    (hm : KeysSorted m) : KeysSorted (mapUpdate k f m) := by
  unfold KeysSorted at *
  rw [mapUpdate_keys]
  exact setInsert_sorted k _ hm

theorem mapFind_isSome_iff [DecidableEq K] (m : List (K × V)) (k : K) :
    (mapFind m k).isSome = true ↔ k ∈ m.map Prod.fst := by
  induction m with
  | nil => simp [mapFind]
  | cons p m ih =>
    obtain ⟨k', v⟩ := p
    unfold mapFind
    by_cases h : k = k'
    · simp [h]
    · simp [h, ih]

theorem mapFind_eq_none_iff [DecidableEq K] (m : List (K × V)) (k : K) :
    mapFind m k = none ↔ k ∉ m.map Prod.fst := by
  rw [← mapFind_isSome_iff]
  cases mapFind m k <;> simp

theorem mapFind_mem [DecidableEq K] (m : List (K × V)) (k : K) (v : V)
    (h : mapFind m k = some v) : (k, v) ∈ m := by
  induction m with
  | nil => simp [mapFind] at h
  | cons p m ih =>
    obtain ⟨k', v'⟩ := p
    unfold mapFind at h
    by_cases hk : k = k'
    · simp only [hk, if_true, Option.some.injEq] at h
      simp [hk, h]
    · simp only [hk, if_false] at h
      exact List.mem_cons_of_mem _ (ih h)

theorem mapFind_of_mem [LinearOrder K] [DecidableEq K] (m : List (K × V)) (hm : KeysSorted m) (k : K) (v : V)
    (h : (k, v) ∈ m) : mapFind m k = some v := by
  induction m with
  | nil => simp at h
  | cons p m ih =>
    obtain ⟨k', v'⟩ := p
    unfold KeysSorted at hm
    simp only [List.map_cons] at hm
    obtain ⟨hk', hm'⟩ := List.pairwise_cons.mp hm
    unfold mapFind
    rcases List.mem_cons.mp h with heq | hmem
    · simp only [Prod.mk.injEq] at heq
      simp [heq.1, heq.2]
    · have hlt : k' < k := hk' k (List.mem_map.mpr ⟨(k, v), hmem, rfl⟩)
      rw [if_neg (ne_of_gt hlt)]
      exact ih hm' hmem

theorem mapFind_mapUpdate [LinearOrder K] [DecidableEq K] (k : K) (f : Option V → V) (m : List (K × V))
    (hm : KeysSorted m) (k' : K) :
    mapFind (mapUpdate k f m) k' = if k' = k then some (f (mapFind m k)) else mapFind m k' := by
  induction m with
  | nil =>
    by_cases h : k' = k <;> simp [mapUpdate, mapFind, h]
  | cons p m ih =>
    obtain ⟨k₀, v₀⟩ := p
    unfold KeysSorted at hm
    simp only [List.map_cons] at hm
    obtain ⟨hk₀, hm'⟩ := List.pairwise_cons.mp hm
    have ih' := ih hm'
    unfold mapUpdate
    by_cases h1 : k < k₀
    · rw [if_pos h1]
      by_cases h3 : k' = k
      · subst h3
        have hnone : mapFind m k' = none := by
          rw [mapFind_eq_none_iff]
          intro hmem
          exact lt_asymm h1 (hk₀ _ hmem)
        simp [mapFind, ne_of_lt h1, hnone]
      · simp [mapFind, h3]
    · rw [if_neg h1]
      by_cases h2 : k = k₀
      · subst h2
        by_cases h4 : k' = k <;> simp [mapFind, h4]
      · rw [if_neg h2]
        by_cases h5 : k' = k
        · subst h5
          simp only [if_true] at ih'
          simp [mapFind, h2, ih']
        · simp only [h5, if_false] at ih'
          simp only [mapFind, ih', h5, if_false]

theorem mapErase_keys_sublist [DecidableEq K] (k : K) (m : List (K × V)) :
    (mapErase k m).Sublist m := by
  induction m with
  | nil => exact List.Sublist.refl _
  | cons p m ih =>
    obtain ⟨k', v⟩ := p
    unfold mapErase
    split_ifs
    · exact List.sublist_cons_self _ _
    · exact ih.cons₂ _

theorem mapErase_sorted [LinearOrder K] [DecidableEq K] (k : K) (m : List (K × V)) (hm : KeysSorted m) :
    KeysSorted (mapErase k m) :=
  List.Pairwise.sublist ((mapErase_keys_sublist k m).map Prod.fst) hm

theorem mapFind_mapErase [LinearOrder K] [DecidableEq K] (k : K) (m : List (K × V)) (hm : KeysSorted m)
    (k' : K) : mapFind (mapErase k m) k' = if k' = k then none else mapFind m k' := by
  induction m with
  | nil => simp [mapErase, mapFind]
  | cons p m ih =>
    obtain ⟨k₀, v₀⟩ := p
    unfold KeysSorted at hm
    simp only [List.map_cons] at hm
    obtain ⟨hk₀, hm'⟩ := List.pairwise_cons.mp hm
    unfold mapErase
    split_ifs with h1 h2 h3
    · subst h1
      subst h2
      rw [mapFind_eq_none_iff]
      intro hmem
      exact lt_irrefl _ (hk₀ _ hmem)
    · subst h1
      simp [mapFind, h2]
    · subst h3
      have ih' := ih hm'
      simp only [if_true] at ih'
      simp [mapFind, h1, ih']
    · have ih' := ih hm'
      simp only [h3, if_false] at ih'
      simp only [mapFind, ih']

end Containers

/-! ## Facts about indexing -/

section Indexing

variable {R : Type} [LinearOrderedField R]

open SearchServer

theorem mapFind_indexWord (document_id : Int) (freq : R) (m : List (Str × List (Int × R)))
    (hm : KeysSorted m) (word t : Str) :
    mapFind (indexWord document_id freq m word) t =
      if t = word then
        some (mapUpdate document_id (fun o' => o'.getD 0 + freq) ((mapFind m word).getD []))
      else mapFind m t := by
  unfold indexWord
  rw [mapFind_mapUpdate _ _ _ hm]

theorem indexWord_sorted (document_id : Int) (freq : R) (m : List (Str × List (Int × R)))
    (hm : IndexSorted m) (word : Str) : IndexSorted (indexWord document_id freq m word) := by
  refine ⟨mapUpdate_sorted _ _ _ hm.1, ?_⟩
  intro t postings hfind
  rw [mapFind_indexWord _ _ _ hm.1] at hfind
  split_ifs at hfind with h
  · simp only [Option.some.injEq] at hfind
    subst hfind
    apply mapUpdate_sorted
    cases hw : mapFind m word with
    | none => simp [KeysSorted]
    | some P => exact hm.2 word P hw
  · exact hm.2 t postings hfind

theorem lookup2_indexWord (document_id : Int) (freq : R) (m : List (Str × List (Int × R)))
    (hm : IndexSorted m) (word t : Str) (d : Int) :
    lookup2 (indexWord document_id freq m word) t d =
      if t = word ∧ d = document_id then some ((lookup2 m t d).getD 0 + freq)
      else lookup2 m t d := by
  unfold lookup2
  rw [mapFind_indexWord _ _ _ hm.1]
  by_cases ht : t = word
  · subst ht
    have hP : KeysSorted ((mapFind m t).getD []) := by
      cases hw : mapFind m t with
      | none => simp [KeysSorted]
      | some P => exact hm.2 t P hw
    simp only [if_true, Option.some_bind, true_and]
    rw [mapFind_mapUpdate _ _ _ hP]
    by_cases hd : d = document_id
    · subst hd
      cases hw : mapFind m t <;> simp [mapFind]
    · cases hw : mapFind m t <;> simp [hd, mapFind]
  · simp [ht]

theorem foldl_indexWord_sorted (document_id : Int) (freq : R) (words : List Str)
    (m : List (Str × List (Int × R))) (hm : IndexSorted m) :
    IndexSorted (words.foldl (indexWord document_id freq) m) := by
  induction words generalizing m with
  | nil => exact hm
  | cons w words ih => exact ih _ (indexWord_sorted _ _ _ hm w)

theorem lookup2_foldl_indexWord (document_id : Int) (freq : R) (words : List Str)
    (m : List (Str × List (Int × R))) (hm : IndexSorted m) (t : Str) (d : Int) :
    lookup2 (words.foldl (indexWord document_id freq) m) t d =
      if d = document_id ∧ t ∈ words then
        some ((lookup2 m t d).getD 0 + (words.count t : R) * freq)
      else lookup2 m t d := by
  induction words generalizing m with
  | nil => simp
  | cons w words ih =>
    rw [List.foldl_cons, ih _ (indexWord_sorted _ _ _ hm w), lookup2_indexWord _ _ _ hm]
    by_cases hd : d = document_id
    · by_cases htw : t = w
      · subst htw
        by_cases hmem : t ∈ words
        · simp only [hd, hmem, and_self, if_true, true_and, Option.getD_some,
            List.mem_cons, or_true, List.count_cons_self, Option.some.injEq]
          push_cast
          ring
        · have hc : List.count t words = 0 := List.count_eq_zero.mpr hmem
          simp [hd, hmem, hc]
      · have hne : (w == t) = false := by simpa using fun h => htw h.symm
        by_cases hmem : t ∈ words
        · simp [hd, htw, hmem, List.count_cons, hne]
        · simp [hd, htw, hmem]
    · simp [hd]

end Indexing

/-! ## Facts about the states of a running server -/

section States

variable {R : Type} [LinearOrderedField R]

open SearchServer

theorem posting_AddDocument (s : SearchServer R) (hs : s.WF) (document_id : Int)
    (document : Str) (status : DocumentStatus) (ratings : List Int) (t : Str) (d : Int) :
    (s.AddDocument document_id document status ratings).posting t d =
      if d = document_id ∧ t ∈ s.SplitIntoWordsNoStop document then
        some ((s.posting t d).getD 0 +
          ((s.SplitIntoWordsNoStop document).count t : R) *
            (1 / ((s.SplitIntoWordsNoStop document).length : R)))
      else s.posting t d := by
  unfold SearchServer.posting SearchServer.AddDocument
  exact lookup2_foldl_indexWord _ _ _ _ hs.index t d

theorem documents_AddDocument (s : SearchServer R) (hs : s.WF) (document_id : Int)
    (document : Str) (status : DocumentStatus) (ratings : List Int) (d : Int) :
    mapFind (s.AddDocument document_id document status ratings).documents_ d =
      if d = document_id then
        some ((mapFind s.documents_ document_id).getD
          { rating := ComputeAverageRating ratings, status := status })
      else mapFind s.documents_ d := by
  unfold SearchServer.AddDocument
  exact mapFind_mapUpdate _ _ _ hs.documents d

theorem WF_empty : (SearchServer.empty : SearchServer R).WF := by
  refine ⟨⟨?_, ?_⟩, ?_, ?_⟩
  · simp [SearchServer.empty, KeysSorted]
  · intro t postings h
    simp [SearchServer.empty, mapFind] at h
  · simp [SearchServer.empty, KeysSorted]
  · intro t d h
    simp [SearchServer.posting, lookup2, SearchServer.empty, mapFind] at h

theorem WF_SetStopWords (s : SearchServer R) (hs : s.WF) (text : Str) :
    (s.SetStopWords text).WF :=
  ⟨hs.index, hs.documents, hs.known⟩

theorem WF_AddDocument (s : SearchServer R) (hs : s.WF) (document_id : Int)
    (document : Str) (status : DocumentStatus) (ratings : List Int) :
    (s.AddDocument document_id document status ratings).WF := by
  refine ⟨?_, ?_, ?_⟩
  · exact foldl_indexWord_sorted _ _ _ _ hs.index
  · exact mapUpdate_sorted _ _ _ hs.documents
  · intro t d h
    rw [documents_AddDocument s hs]
    rw [posting_AddDocument s hs] at h
    by_cases hd : d = document_id
    · simp [hd]
    · simp only [hd, false_and, if_false] at h ⊢
      exact hs.known t d h

theorem WF_apply (s : SearchServer R) (hs : s.WF) (c : Call) : (Call.apply s c).WF := by
  cases c with
  | setStopWords text => exact WF_SetStopWords s hs text
  | addDocument document_id document status ratings =>
    exact WF_AddDocument s hs document_id document status ratings

theorem WF_runFrom (s : SearchServer R) (hs : s.WF) (calls : List Call) :
    (runFrom s calls).WF := by
  induction calls generalizing s with
  | nil => exact hs
  | cons c calls ih => exact ih _ (WF_apply s hs c)

theorem WF_run (calls : List Call) : (run calls : SearchServer R).WF :=
  WF_runFrom _ WF_empty calls

theorem runFrom_append (s : SearchServer R) (xs ys : List Call) :
    runFrom s (xs ++ ys) = runFrom (runFrom s xs) ys := by
  simp [runFrom, List.foldl_append]

theorem run_append (xs ys : List Call) :
    (run (xs ++ ys) : SearchServer R) = runFrom (run xs) ys :=
  runFrom_append _ xs ys

/-- A posting, once stored, stays: later calls never remove it. -/
theorem posting_isSome_apply (s : SearchServer R) (hs : s.WF) (c : Call) (t : Str) (d : Int)
    (h : (s.posting t d).isSome = true) : ((Call.apply s c).posting t d).isSome = true := by
  cases c with
  | setStopWords text => exact h
  | addDocument document_id document status ratings =>
    show ((s.AddDocument document_id document status ratings).posting t d).isSome = true
    rw [posting_AddDocument s hs]
    split_ifs
    · rfl
    · exact h

theorem posting_isSome_runFrom (s : SearchServer R) (hs : s.WF) (calls : List Call) (t : Str)
    (d : Int) (h : (s.posting t d).isSome = true) :
    ((runFrom s calls).posting t d).isSome = true := by
  induction calls generalizing s with
  | nil => exact h
  | cons c calls ih => exact ih _ (WF_apply s hs c) (posting_isSome_apply s hs c t d h)

/-- Metadata, once stored, stays the same: `emplace` never overwrites. -/
theorem documents_apply_of_some (s : SearchServer R) (hs : s.WF) (c : Call) (d : Int)
    (data : DocumentData) (h : mapFind s.documents_ d = some data) :
    mapFind (Call.apply s c).documents_ d = some data := by
  cases c with
  | setStopWords text => exact h
  | addDocument document_id document status ratings =>
    show mapFind (s.AddDocument document_id document status ratings).documents_ d = some data
    rw [documents_AddDocument s hs]
    split_ifs with hd
    · subst hd
      simp [h]
    · exact h

theorem documents_runFrom_of_some (s : SearchServer R) (hs : s.WF) (calls : List Call)
    (d : Int) (data : DocumentData) (h : mapFind s.documents_ d = some data) :
    mapFind (runFrom s calls).documents_ d = some data := by
  induction calls generalizing s with
  | nil => exact h
  | cons c calls ih => exact ih _ (WF_apply s hs c) (documents_apply_of_some s hs c d data h)

/-- The metadata of a reached state comes from an `AddDocument` call with that id. -/
theorem documents_runFrom_origin (s : SearchServer R) (hs : s.WF) (calls : List Call)
    (d : Int) (data : DocumentData) (h : mapFind (runFrom s calls).documents_ d = some data) :
    mapFind s.documents_ d = some data ∨
      ∃ document status ratings, Call.addDocument d document status ratings ∈ calls ∧
        data = { rating := ComputeAverageRating ratings, status := status } := by
  induction calls generalizing s with
  | nil => exact Or.inl h
  | cons c calls ih =>
    rcases ih _ (WF_apply s hs c) h with h1 | ⟨document, status, ratings, hmem, hdata⟩
    · cases c with
      | setStopWords text => exact Or.inl h1
      | addDocument document_id document status ratings =>
        change mapFind (s.AddDocument document_id document status ratings).documents_ d =
          some data at h1
        rw [documents_AddDocument s hs] at h1
        split_ifs at h1 with hd
        · subst hd
          cases hold : mapFind s.documents_ d with
          | none =>
            right
            refine ⟨document, status, ratings, List.mem_cons_self _ _, ?_⟩
            simpa [hold] using h1.symm
          | some old =>
            left
            simpa [hold] using h1
        · exact Or.inl h1
    · exact Or.inr ⟨document, status, ratings, List.mem_cons_of_mem _ hmem, hdata⟩

theorem documents_run_origin (calls : List Call) (d : Int) (data : DocumentData)
    (h : mapFind (run calls : SearchServer R).documents_ d = some data) :
    ∃ document status ratings, Call.addDocument d document status ratings ∈ calls ∧
      data = { rating := ComputeAverageRating ratings, status := status } := by
  rcases documents_runFrom_origin _ WF_empty calls d data h with h1 | h2
  · simp [SearchServer.empty, mapFind] at h1
  · exact h2

end States

/-! ## Facts about `FindAllDocuments` -/

section Candidates

variable {R : Type} [LinearOrderedField R]

open SearchServer

theorem wordHits_eq (s : SearchServer R) (d : Int) (t : Str) :
    wordHits s d t = (s.posting t d).isSome := by
  unfold wordHits SearchServer.posting lookup2 mapContains
  cases mapFind s.word_to_document_freqs_ t <;> simp

theorem accepts_isSome (s : SearchServer R) (predicate : Int → DocumentStatus → Int → Bool)
    (d : Int) (h : s.accepts predicate d = true) : (mapFind s.documents_ d).isSome = true := by
  unfold SearchServer.accepts at h
  cases hd : mapFind s.documents_ d with
  | none => simp [hd] at h
  | some data => rfl

theorem accumulateWord_spec (s : SearchServer R)
    (predicate : Int → DocumentStatus → Int → Bool) (IDF : R) (tempFreq : List (Int × R))
    (hP : KeysSorted tempFreq)
    (hknown : ∀ d, (mapFind tempFreq d).isSome = true → (mapFind s.documents_ d).isSome = true)
    (rel : List (Int × R)) (hrel : KeysSorted rel) :
    ∃ rel', accumulateWord s predicate IDF tempFreq rel = some rel' ∧ KeysSorted rel' ∧
      ∀ d, mapFind rel' d =
        if (mapFind tempFreq d).isSome = true ∧ s.accepts predicate d = true then
          some ((mapFind rel d).getD 0 + IDF * (mapFind tempFreq d).getD 0)
        else mapFind rel d := by
  induction tempFreq generalizing rel with
  | nil =>
    exact ⟨rel, rfl, hrel, fun d => by simp [mapFind]⟩
  | cons p P ih =>
    obtain ⟨d₀, tf₀⟩ := p
    have hP' : KeysSorted P := (List.pairwise_cons.mp hP).2
    have hlt : ∀ a ∈ P.map Prod.fst, d₀ < a := (List.pairwise_cons.mp hP).1
    have hnone : mapFind P d₀ = none := by
      rw [mapFind_eq_none_iff]
      intro hmem
      exact lt_irrefl _ (hlt _ hmem)
    have hknown' : ∀ d, (mapFind P d).isSome = true → (mapFind s.documents_ d).isSome = true := by
      intro d hd
      apply hknown
      unfold mapFind
      split_ifs
      · rfl
      · exact hd
    have hd₀ : (mapFind s.documents_ d₀).isSome = true := by
      apply hknown
      simp [mapFind]
    obtain ⟨data, hdata⟩ := Option.isSome_iff_exists.mp hd₀
    have hacc : s.accepts predicate d₀ = predicate d₀ data.status data.rating := by
      simp [SearchServer.accepts, hdata]
    by_cases hpred : predicate d₀ data.status data.rating = true
    · obtain ⟨rel', hrun, hsorted, hfind⟩ :=
        ih hP' hknown' (mapUpdate d₀ (fun o => o.getD 0 + IDF * tf₀) rel)
          (mapUpdate_sorted _ _ _ hrel)
      refine ⟨rel', ?_, hsorted, ?_⟩
      · simp only [accumulateWord, List.foldlM_cons, hdata, Option.bind_eq_bind,
          Option.some_bind, hpred, if_true, Option.pure_def] at hrun ⊢
        exact hrun
      · intro d
        rw [hfind d, mapFind_mapUpdate _ _ _ hrel]
        by_cases hd : d = d₀
        · subst hd
          simp [mapFind, hnone, hacc, hpred]
        · simp [mapFind, hd]
    · obtain ⟨rel', hrun, hsorted, hfind⟩ := ih hP' hknown' rel hrel
      refine ⟨rel', ?_, hsorted, ?_⟩
      · simp only [accumulateWord, List.foldlM_cons, hdata, Option.bind_eq_bind,
          Option.some_bind, hpred, Option.pure_def] at hrun ⊢
        exact hrun
      · intro d
        rw [hfind d]
        by_cases hd : d = d₀
        · subst hd
          simp [mapFind, hnone, hacc, hpred]
        · simp [mapFind, hd]

theorem termScore_of_none (ln : R → R) (s : SearchServer R) (d : Int) (t : Str)
    (h : s.posting t d = none) : s.termScore ln d t = 0 := by
  simp [SearchServer.termScore, h]

theorem termScore_sum_of_not_any (ln : R → R) (s : SearchServer R) (d : Int) (ts : List Str)
    (h : ts.any (fun t => (s.posting t d).isSome) = false) :
    (ts.map (s.termScore ln d)).sum = 0 := by
  induction ts with
  | nil => rfl
  | cons t ts ih =>
    simp only [List.any_cons, Bool.or_eq_false_iff] at h
    have ht : s.posting t d = none := by
      cases hp : s.posting t d with
      | none => rfl
      | some v => simp [hp] at h
    simp [termScore_of_none ln s d t ht, ih h.2]

theorem scoreWord_spec (ln : R → R) (s : SearchServer R) (hs : s.WF)
    (predicate : Int → DocumentStatus → Int → Bool) (rel : List (Int × R))
    (hrel : KeysSorted rel) (w : Str) :
    ∃ rel', scoreWord ln s predicate rel w = some rel' ∧ KeysSorted rel' ∧
      ∀ d, mapFind rel' d =
        if (s.posting w d).isSome = true ∧ s.accepts predicate d = true then
          some ((mapFind rel d).getD 0 + s.termScore ln d w)
        else mapFind rel d := by
  cases hw : mapFind s.word_to_document_freqs_ w with
  | none =>
    refine ⟨rel, by simp [scoreWord, hw], hrel, ?_⟩
    intro d
    simp [SearchServer.posting, lookup2, hw]
  | some P =>
    have hpost : ∀ d, s.posting w d = mapFind P d := by
      intro d
      simp [SearchServer.posting, lookup2, hw]
    have hdf : s.df w = P.length := by simp [SearchServer.df, hw]
    obtain ⟨rel', hrun, hsorted, hfind⟩ :=
      accumulateWord_spec s predicate (ComputeIDF ln s (P.length : Int)) P
        (hs.index.2 w P hw) (fun d hd => hs.known w d (by rw [hpost d]; exact hd)) rel hrel
    refine ⟨rel', by simp [scoreWord, hw, hrun], hsorted, ?_⟩
    intro d
    rw [hfind d, hpost d]
    cases hPd : mapFind P d with
    | none => simp
    | some tf =>
      have hts : s.termScore ln d w = ComputeIDF ln s (P.length : Int) * tf := by
        simp [SearchServer.termScore, hpost d, hPd, hdf]
      simp [hts]

theorem plusLoop_spec (ln : R → R) (s : SearchServer R) (hs : s.WF)
    (predicate : Int → DocumentStatus → Int → Bool) (plus : List Str) (rel : List (Int × R))
    (hrel : KeysSorted rel) :
    ∃ rel', plus.foldlM (scoreWord ln s predicate) rel = some rel' ∧ KeysSorted rel' ∧
      ∀ d, mapFind rel' d =
        if s.accepts predicate d = true ∧
            plus.any (fun t => (s.posting t d).isSome) = true then
          some ((mapFind rel d).getD 0 + (plus.map (s.termScore ln d)).sum)
        else mapFind rel d := by
  induction plus generalizing rel with
  | nil => exact ⟨rel, rfl, hrel, fun d => by simp⟩
  | cons w plus ih =>
    obtain ⟨rel₁, hrun₁, hsorted₁, hfind₁⟩ := scoreWord_spec ln s hs predicate rel hrel w
    obtain ⟨rel', hrun, hsorted, hfind⟩ := ih rel₁ hsorted₁
    refine ⟨rel', ?_, hsorted, ?_⟩
    · simp only [List.foldlM_cons, hrun₁, Option.bind_eq_bind, Option.some_bind]
      exact hrun
    · intro d
      rw [hfind d, hfind₁ d]
      by_cases hacc : s.accepts predicate d = true
      · cases hp : s.posting w d with
        | none =>
          simp [hacc, hp, termScore_of_none ln s d w hp]
        | some tf =>
          by_cases hany : plus.any (fun t => (s.posting t d).isSome) = true
          · simp only [hacc, hany, hp, and_self, if_true, Option.isSome_some, Option.getD_some,
              List.any_cons, Bool.true_or, List.map_cons, List.sum_cons, Option.some.injEq]
            ring
          · have hany' := Bool.eq_false_iff.mpr hany
            have hsum := termScore_sum_of_not_any ln s d plus hany'
            simp only [hacc, hany', hp, and_self, if_true, Option.isSome_some,
              List.any_cons, Bool.true_or, List.map_cons, List.sum_cons, hsum, and_false,
              Bool.false_eq_true, if_false, add_zero, and_true]
      · simp [hacc]

theorem erasePostings_spec (P : List (Int × R)) (rel : List (Int × R)) (hrel : KeysSorted rel) :
    KeysSorted (P.foldl (fun rel p => mapErase p.1 rel) rel) ∧
      ∀ d, mapFind (P.foldl (fun rel p => mapErase p.1 rel) rel) d =
        if (mapFind P d).isSome = true then none else mapFind rel d := by
  induction P generalizing rel with
  | nil => exact ⟨hrel, fun d => by simp [mapFind]⟩
  | cons p P ih =>
    obtain ⟨d₀, tf₀⟩ := p
    obtain ⟨hsorted, hfind⟩ := ih (mapErase d₀ rel) (mapErase_sorted _ _ hrel)
    refine ⟨hsorted, ?_⟩
    intro d
    rw [List.foldl_cons, hfind d, mapFind_mapErase _ _ hrel]
    by_cases hd : d = d₀
    · simp [mapFind, hd]
    · simp [mapFind, hd]

theorem eraseWord_spec (s : SearchServer R) (rel : List (Int × R)) (hrel : KeysSorted rel)
    (w : Str) :
    KeysSorted (eraseWord s rel w) ∧
      ∀ d, mapFind (eraseWord s rel w) d =
        if (s.posting w d).isSome = true then none else mapFind rel d := by
  cases hw : mapFind s.word_to_document_freqs_ w with
  | none =>
    simp [eraseWord, hw, hrel, SearchServer.posting, lookup2]
  | some P =>
    have h := erasePostings_spec P rel hrel
    simpa [eraseWord, hw, SearchServer.posting, lookup2] using h

theorem minusLoop_spec (s : SearchServer R) (minus : List Str) (rel : List (Int × R))
    (hrel : KeysSorted rel) :
    KeysSorted (minus.foldl (eraseWord s) rel) ∧
      ∀ d, mapFind (minus.foldl (eraseWord s) rel) d =
        if minus.any (fun t => (s.posting t d).isSome) = true then none
        else mapFind rel d := by
  induction minus generalizing rel with
  | nil => exact ⟨hrel, fun d => by simp⟩
  | cons w minus ih =>
    obtain ⟨hsorted₁, hfind₁⟩ := eraseWord_spec s rel hrel w
    obtain ⟨hsorted, hfind⟩ := ih (eraseWord s rel w) hsorted₁
    refine ⟨hsorted, ?_⟩
    intro d
    rw [List.foldl_cons, hfind d, hfind₁ d]
    cases hp : (s.posting w d).isSome <;> simp [hp]

theorem mapM_makeDocument (s : SearchServer R) (rel : List (Int × R))
    (h : ∀ p ∈ rel, (mapFind s.documents_ p.1).isSome = true) :
    rel.mapM (makeDocument s) =
      some (rel.map s.asDocument) := by
  induction rel with
  | nil => rfl
  | cons p rel ih =>
    obtain ⟨data, hdata⟩ := Option.isSome_iff_exists.mp (h p (List.mem_cons_self _ _))
    have ih' := ih (fun q hq => h q (List.mem_cons_of_mem _ hq))
    rw [List.mapM_cons, ih']
    simp [makeDocument, hdata, SearchServer.ratingOf, SearchServer.asDocument]

/-- The candidates of `FindAllDocuments` in a well-formed state: the call returns, the list is
the final relevance map with the stored ratings attached, and the map holds exactly the
accepted documents that a plus-word hits and no minus-word hits, each with the sum of the
shares of the plus-words. -/
theorem FindAllDocuments_spec (ln : R → R) (s : SearchServer R) (hs : s.WF) (q : Query)
    (predicate : Int → DocumentStatus → Int → Bool) :
    ∃ rel : List (Int × R),
      FindAllDocuments ln s q predicate =
        some (rel.map s.asDocument) ∧
      KeysSorted rel ∧
      ∀ d, mapFind rel d =
        if s.accepts predicate d = true ∧
            q.plus_words.any (fun t => (s.posting t d).isSome) = true ∧
            q.minus_words.any (fun t => (s.posting t d).isSome) = false then
          some ((q.plus_words.map (s.termScore ln d)).sum)
        else none := by
  obtain ⟨scored, hrun, hsorted, hfind⟩ :=
    plusLoop_spec ln s hs predicate q.plus_words [] (by simp [KeysSorted])
  obtain ⟨hsorted₂, hfind₂⟩ := minusLoop_spec s q.minus_words scored hsorted
  have hfinal : ∀ d, mapFind (q.minus_words.foldl (eraseWord s) scored) d =
      if s.accepts predicate d = true ∧
          q.plus_words.any (fun t => (s.posting t d).isSome) = true ∧
          q.minus_words.any (fun t => (s.posting t d).isSome) = false then
        some ((q.plus_words.map (s.termScore ln d)).sum)
      else none := by
    intro d
    rw [hfind₂ d, hfind d]
    cases hm : q.minus_words.any (fun t => (s.posting t d).isSome)
    · by_cases hc : s.accepts predicate d = true ∧
          q.plus_words.any (fun t => (s.posting t d).isSome) = true
      · simp [hc, mapFind]
      · simp only [Bool.false_eq_true, if_false, hc, mapFind]
        rw [if_neg]
        simpa using hc
    · simp
  refine ⟨q.minus_words.foldl (eraseWord s) scored, ?_, hsorted₂, hfinal⟩
  have hmeta : ∀ p ∈ q.minus_words.foldl (eraseWord s) scored,
      (mapFind s.documents_ p.1).isSome = true := by
    intro p hp
    have h1 := mapFind_of_mem _ hsorted₂ p.1 p.2 hp
    rw [hfinal p.1] at h1
    split_ifs at h1 with hc
    exact accepts_isSome s predicate p.1 hc.1
  simp only [FindAllDocuments, hrun, Option.bind_eq_bind, Option.some_bind]
  exact mapM_makeDocument s _ hmeta

end Candidates

/-! ## Facts about sorting and `FindTopDocuments` -/

section Sorting

variable {α : Type}

theorem insertByLess_perm (less : α → α → Bool) (a : α) (l : List α) :
    (insertByLess less a l).Perm (a :: l) := by
  induction l with
  | nil => exact List.Perm.refl _
  | cons b l ih =>
    unfold insertByLess
    split_ifs
    · exact (List.Perm.cons b ih).trans (List.Perm.swap a b l)
    · exact List.Perm.refl _

theorem insertionSort_perm (less : α → α → Bool) (l : List α) : (insertionSort less l).Perm l := by
  induction l with
  | nil => exact List.Perm.refl _
  | cons a l ih =>
    unfold insertionSort
    exact (insertByLess_perm less a _).trans (List.Perm.cons a ih)

theorem insertByLess_pairwise (less : α → α → Bool) (S : α → Prop)
    (hasymm : ∀ a b, S a → S b → less a b = true → less b a = false)
    (htrans : ∀ a b c, S a → S b → S c → less b a = false → less c b = false →
      less c a = false)
    (a : α) (l : List α) (ha : S a) (hl : ∀ x ∈ l, S x)
    (hsorted : l.Pairwise (fun x y => less y x = false)) :
    (insertByLess less a l).Pairwise (fun x y => less y x = false) := by
  induction l with
  | nil => simp [insertByLess]
  | cons b l ih =>
    obtain ⟨hb, hl'⟩ := List.pairwise_cons.mp hsorted
    unfold insertByLess
    by_cases h : less b a = true
    · rw [if_pos h]
      refine List.pairwise_cons.mpr ⟨?_, ih (fun x hx => hl x (List.mem_cons_of_mem _ hx)) hl'⟩
      intro x hx
      rcases List.mem_cons.mp ((insertByLess_perm less a l).subset hx) with rfl | hx'
      · exact hasymm _ _ (hl b (List.mem_cons_self _ _)) ha h
      · exact hb x hx'
    · rw [if_neg h]
      have h' : less b a = false := by simpa using h
      refine List.pairwise_cons.mpr ⟨?_, hsorted⟩
      intro x hx
      rcases List.mem_cons.mp hx with rfl | hx'
      · exact h'
      · exact htrans a b x ha (hl b (List.mem_cons_self _ _))
          (hl x (List.mem_cons_of_mem _ hx')) h' (hb x hx')

theorem insertionSort_pairwise (less : α → α → Bool) (S : α → Prop)
    (hasymm : ∀ a b, S a → S b → less a b = true → less b a = false)
    (htrans : ∀ a b c, S a → S b → S c → less b a = false → less c b = false →
      less c a = false)
    (l : List α) (hl : ∀ x ∈ l, S x) :
    (insertionSort less l).Pairwise (fun x y => less y x = false) := by
  induction l with
  | nil => simp [insertionSort]
  | cons a l ih =>
    unfold insertionSort
    have hl' : ∀ x ∈ l, S x := fun x hx => hl x (List.mem_cons_of_mem _ hx)
    exact insertByLess_pairwise less S hasymm htrans a _ (hl a (List.mem_cons_self _ _))
      (fun x hx => hl' x ((insertionSort_perm less l).subset hx)) (ih hl')

/-- A strict weak ordering is asymmetric. -/
theorem StrictWeakOrderingOn_asymm (less : α → α → Bool) (S : α → Prop)
    (h : StrictWeakOrderingOn less S) (a b : α) (ha : S a) (hb : S b)
    (hab : less a b = true) : less b a = false := by
  cases hba : less b a with
  | false => rfl
  | true =>
    have haa := h.2.1 a b a ha hb ha hab hba
    rw [h.1 a ha] at haa
    exact Bool.noConfusion haa

/-- In a strict weak ordering, when `a` is not after `b` and `b` is not after `c`, `a` is not
after `c`. -/
theorem StrictWeakOrderingOn_negTrans (less : α → α → Bool) (S : α → Prop)
    (h : StrictWeakOrderingOn less S) (a b c : α) (ha : S a) (hb : S b) (hc : S c)
    (hba : less b a = false) (hcb : less c b = false) : less c a = false := by
  cases hca : less c a with
  | false => rfl
  | true =>
    exfalso
    cases hab : less a b with
    | true =>
      have := h.2.1 c a b hc ha hb hca hab
      rw [hcb] at this
      exact Bool.noConfusion this
    | false =>
      cases hbc : less b c with
      | true =>
        have := h.2.1 b c a hb hc ha hbc hca
        rw [hba] at this
        exact Bool.noConfusion this
      | false =>
        have := (h.2.2 a b c ha hb hc hab hba hbc hcb).2
        rw [hca] at this
        exact Bool.noConfusion this

/-- The insertion sort does what the standard asks of `std::sort`. -/
theorem insertionSort_StdSort : StdSort (insertionSort : SortFn α) := by
  intro less l
  refine ⟨insertionSort_perm less l, ?_⟩
  intro h
  exact insertionSort_pairwise less (fun a => a ∈ l)
    (StrictWeakOrderingOn_asymm less _ h)
    (fun a b c ha hb hc => StrictWeakOrderingOn_negTrans less _ h a b c ha hb hc)
    l (fun x hx => hx)

theorem take_sort_subset (sort : SortFn α) (hsort : StdSort sort) (less : α → α → Bool)
    (n : Nat) (l : List α) : (sort less l).take n ⊆ l :=
  fun _ hx => (hsort less l).1.subset ((List.take_sublist n _).subset hx)

theorem sort_nil (sort : SortFn α) (hsort : StdSort sort) (less : α → α → Bool) :
    sort less [] = [] :=
  List.Perm.eq_nil (hsort less []).1

theorem sort_singleton (sort : SortFn α) (hsort : StdSort sort) (less : α → α → Bool)
    (a : α) : sort less [a] = [a] :=
  List.perm_singleton.mp (hsort less [a]).1

/-- The result of the sort is fixed when the comparison is a strict weak ordering on the
elements and separates every two of them: it is the one arrangement in which every element
is before all later ones. -/
theorem sort_eq_of_strict (sort : SortFn α) (hsort : StdSort sort) (less : α → α → Bool)
    (l t : List α) (hswo : StrictWeakOrderingOn less (fun a => a ∈ l)) (hperm : t.Perm l)
    (hstrict : t.Pairwise (fun a b => less a b = true)) : sort less l = t := by
  obtain ⟨hp, hs⟩ := hsort less l
  have hs' := hs hswo
  have hmem_t : ∀ a, a ∈ t → a ∈ l := fun a ha => hperm.subset ha
  have hnodup_t : t.Nodup := by
    refine List.Pairwise.imp_of_mem ?_ hstrict
    intro a b ha hb hab heq
    subst heq
    rw [hswo.1 a (hmem_t a ha)] at hab
    exact Bool.noConfusion hab
  have hnodup : (sort less l).Nodup := (hp.trans hperm.symm).nodup_iff.mpr hnodup_t
  have hcmp : ∀ a ∈ t, ∀ b ∈ t, a ≠ b → (less a b = true ∨ less b a = true) := by
    apply List.Pairwise.forall (R := fun a b => less a b = true ∨ less b a = true)
    · intro a b h
      exact h.symm
    · exact hstrict.imp (fun h => Or.inl h)
  have hmem_s : ∀ a, a ∈ sort less l → a ∈ t := fun a ha => hperm.symm.subset (hp.subset ha)
  have hsorted : (sort less l).Pairwise
      (fun a b => (a ∈ l ∧ b ∈ l) ∧ less a b = true) := by
    have h1 := hs'.and hnodup
    refine List.Pairwise.imp_of_mem ?_ h1
    intro a b ha hb hab
    refine ⟨⟨hp.subset ha, hp.subset hb⟩, ?_⟩
    rcases hcmp a (hmem_s a ha) b (hmem_s b hb) hab.2 with h | h
    · exact h
    · rw [hab.1] at h
      exact Bool.noConfusion h
  have hsorted_t : t.Pairwise (fun a b => (a ∈ l ∧ b ∈ l) ∧ less a b = true) := by
    refine List.Pairwise.imp_of_mem ?_ hstrict
    intro a b ha hb hab
    exact ⟨⟨hmem_t a ha, hmem_t b hb⟩, hab⟩
  haveI : IsAntisymm α (fun a b => (a ∈ l ∧ b ∈ l) ∧ less a b = true) :=
    ⟨fun a b h1 h2 => by
      have := StrictWeakOrderingOn_asymm less _ hswo a b h1.1.1 h1.1.2 h1.2
      rw [h2.2] at this
      exact Bool.noConfusion this⟩
  exact List.eq_of_perm_of_sorted (hp.trans hperm.symm) hsorted hsorted_t

/-- A comparison that puts no element of a set before another is a strict weak ordering on
it. -/
theorem StrictWeakOrderingOn_of_no_pair (less : α → α → Bool) (S : α → Prop)
    (h : ∀ a b, S a → S b → less a b = false) : StrictWeakOrderingOn less S := by
  refine ⟨fun a ha => h a a ha ha, ?_, ?_⟩
  · intro a b c ha hb hc hab
    rw [h a b ha hb] at hab
    exact Bool.noConfusion hab
  · intro a b c ha hb hc _ _ _ _
    exact ⟨h a c ha hc, h c a hc ha⟩

/-- The contract `StdSort` fixes no order when the comparison is irreflexive and not a strict
weak ordering on the elements: some function that meets the contract returns them with an
element in front of one that the comparison puts before it. -/
theorem exists_sort_unsorted (less : α → α → Bool) (hirr : ∀ a, less a a = false)
    (l : List α) (h : ¬ StrictWeakOrderingOn less (fun a => a ∈ l)) :
    ∃ sort : SortFn α, StdSort sort ∧
      ∃ a b rest, sort less l = b :: a :: rest ∧ less a b = true := by
  classical
  have hpair : ∃ a b, a ∈ l ∧ b ∈ l ∧ less a b = true := by
    by_contra hno
    apply h
    apply StrictWeakOrderingOn_of_no_pair
    intro a b ha hb
    cases hab : less a b with
    | false => rfl
    | true => exact absurd ⟨a, b, ha, hb, hab⟩ hno
  obtain ⟨a, b, ha, hb, hab⟩ := hpair
  have hne : a ≠ b := by
    intro e
    rw [e, hirr b] at hab
    exact Bool.noConfusion hab
  have hperm : (b :: a :: (l.erase b).erase a).Perm l :=
    ((List.perm_cons_erase hb).trans
      ((List.perm_cons_erase ((List.mem_erase_of_ne hne).mpr ha)).cons b)).symm
  refine ⟨fun less' l' => if less' = less ∧ l' = l then b :: a :: (l.erase b).erase a
    else insertionSort less' l', ?_, a, b, (l.erase b).erase a, ?_, hab⟩
  · intro less' l'
    by_cases hc : less' = less ∧ l' = l
    · obtain ⟨h1, h2⟩ := hc
      subst h1 h2
      simp only [and_self, if_true]
      exact ⟨hperm, fun hs => absurd hs h⟩
    · simp only [hc, if_false]
      exact insertionSort_StdSort less' l'
  · simp

end Sorting

/-! ## Facts about `ParseQuery` -/

section Parsing

variable {R : Type}

open SearchServer

theorem parseWord_sorted (s : SearchServer R) (q : Query) (word : Str)
    (hp : q.plus_words.Pairwise (· < ·)) (hm : q.minus_words.Pairwise (· < ·)) :
    (parseWord s q word).plus_words.Pairwise (· < ·) ∧
      (parseWord s q word).minus_words.Pairwise (· < ·) := by
  by_cases h1 : word.head? = some '-'
  · cases h2 : s.IsStopWord (word.drop 1)
    · simp only [parseWord, h1, h2, if_true, Bool.not_false]
      exact ⟨setInsert_sorted _ _ hp, setInsert_sorted _ _ hm⟩
    · simp only [parseWord, h1, h2, if_true, Bool.not_true, Bool.false_eq_true, if_false]
      exact ⟨setInsert_sorted _ _ hp, hm⟩
  · simp only [parseWord, h1, if_false]
    exact ⟨setInsert_sorted _ _ hp, hm⟩

theorem foldl_parseWord_sorted (s : SearchServer R) (words : List Str) (q : Query)
    (hp : q.plus_words.Pairwise (· < ·)) (hm : q.minus_words.Pairwise (· < ·)) :
    (words.foldl (parseWord s) q).plus_words.Pairwise (· < ·) ∧
      (words.foldl (parseWord s) q).minus_words.Pairwise (· < ·) := by
  induction words generalizing q with
  | nil => exact ⟨hp, hm⟩
  | cons w words ih =>
    obtain ⟨h1, h2⟩ := parseWord_sorted s q w hp hm
    exact ih _ h1 h2

theorem ParseQuery_sorted (s : SearchServer R) (text : Str) :
    (s.ParseQuery text).plus_words.Pairwise (· < ·) ∧
      (s.ParseQuery text).minus_words.Pairwise (· < ·) :=
  foldl_parseWord_sorted s _ _ List.Pairwise.nil List.Pairwise.nil

theorem mem_minus_parseWord (s : SearchServer R) (q : Query) (word x : Str) :
    x ∈ (parseWord s q word).minus_words ↔
      x ∈ q.minus_words ∨
        (word.head? = some '-' ∧ s.IsStopWord (word.drop 1) = false ∧ x = word.drop 1) := by
  by_cases h1 : word.head? = some '-'
  · cases h2 : s.IsStopWord (word.drop 1)
    · simp only [parseWord, h1, h2, if_true, Bool.not_false, mem_setInsert, true_and]
      tauto
    · simp only [parseWord, h1, h2, if_true, Bool.not_true, Bool.false_eq_true, if_false,
        true_and, false_and, or_false, Bool.true_eq_false]
  · simp only [parseWord, h1, if_false, false_and, or_false]

theorem mem_minus_foldl_parseWord (s : SearchServer R) (words : List Str) (q : Query)
    (x : Str) :
    x ∈ (words.foldl (parseWord s) q).minus_words ↔
      x ∈ q.minus_words ∨
        ∃ word ∈ words, word.head? = some '-' ∧ s.IsStopWord (word.drop 1) = false ∧
          x = word.drop 1 := by
  induction words generalizing q with
  | nil => simp
  | cons w words ih =>
    rw [List.foldl_cons, ih, mem_minus_parseWord]
    simp only [List.mem_cons, exists_eq_or_imp]
    tauto

theorem mem_plus_parseWord (s : SearchServer R) (q : Query) (word x : Str) :
    x ∈ (parseWord s q word).plus_words ↔
      x ∈ q.plus_words ∨ x = (if word.head? = some '-' then word.drop 1 else word) := by
  by_cases h1 : word.head? = some '-'
  · cases h2 : s.IsStopWord (word.drop 1)
    · simp only [parseWord, h1, h2, if_true, Bool.not_false, mem_setInsert]
      tauto
    · simp only [parseWord, h1, h2, if_true, Bool.not_true, Bool.false_eq_true, if_false,
        mem_setInsert]
      tauto
  · simp only [parseWord, h1, if_false, mem_setInsert]
    tauto

theorem mem_plus_foldl_parseWord (s : SearchServer R) (words : List Str) (q : Query)
    (x : Str) :
    x ∈ (words.foldl (parseWord s) q).plus_words ↔
      x ∈ q.plus_words ∨
        ∃ word ∈ words, x = (if word.head? = some '-' then word.drop 1 else word) := by
  induction words generalizing q with
  | nil => simp
  | cons w words ih =>
    rw [List.foldl_cons, ih, mem_plus_parseWord]
    simp only [List.mem_cons, exists_eq_or_imp]
    tauto

/-- The minus-words of a parsed query: the words left after a leading `-` is removed from a
token that is not a stop word, when what is left is not a stop word either. -/
theorem mem_minus_ParseQuery (s : SearchServer R) (text x : Str) :
    x ∈ (s.ParseQuery text).minus_words ↔
      ∃ word ∈ s.SplitIntoWordsNoStop text, word.head? = some '-' ∧
        s.IsStopWord (word.drop 1) = false ∧ x = word.drop 1 := by
  unfold SearchServer.ParseQuery
  rw [mem_minus_foldl_parseWord]
  simp

theorem mem_plus_ParseQuery (s : SearchServer R) (text x : Str) :
    x ∈ (s.ParseQuery text).plus_words ↔
      ∃ word ∈ s.SplitIntoWordsNoStop text,
        x = (if word.head? = some '-' then word.drop 1 else word) := by
  unfold SearchServer.ParseQuery
  rw [mem_plus_foldl_parseWord]
  simp

end Parsing

/-! ## Facts about `FindTopDocuments` -/

section Top

variable {R : Type} [LinearOrderedField R]

open SearchServer

theorem FindTopDocuments_eq (sort : SortFn (Document R)) (ln : R → R) (s : SearchServer R)
    (raw_query : Str) (predicate : Int → DocumentStatus → Int → Bool) :
    s.FindTopDocuments sort ln raw_query predicate =
      (FindAllDocuments ln s (s.ParseQuery raw_query) predicate).map
        (fun cands => (sort documentLess cands).take MAX_RESULT_DOCUMENT_COUNT) := by
  unfold SearchServer.FindTopDocuments
  cases hall : FindAllDocuments ln s (s.ParseQuery raw_query) predicate with
  | none => simp [hall]
  | some cands =>
    simp only [hall, Option.bind_eq_bind, Option.some_bind, Option.pure_def, Option.map_some',
      Option.some.injEq]
    split_ifs with h
    · rfl
    · exact (List.take_of_length_le (not_lt.mp h)).symm

/-- In a well-formed state `FindTopDocuments` returns, and what it returns is the sorted and
truncated list of the candidates described by `FindAllDocuments_spec`. -/
theorem FindTopDocuments_spec (sort : SortFn (Document R)) (ln : R → R) (s : SearchServer R)
    (hs : s.WF) (raw_query : Str) (predicate : Int → DocumentStatus → Int → Bool) :
    ∃ rel : List (Int × R),
      s.FindTopDocuments sort ln raw_query predicate =
        some ((sort documentLess (rel.map s.asDocument)).take MAX_RESULT_DOCUMENT_COUNT) ∧
      KeysSorted rel ∧
      ∀ d, mapFind rel d =
        if s.accepts predicate d = true ∧
            (s.ParseQuery raw_query).plus_words.any (fun t => (s.posting t d).isSome) = true ∧
            (s.ParseQuery raw_query).minus_words.any (fun t => (s.posting t d).isSome) = false
        then some (((s.ParseQuery raw_query).plus_words.map (s.termScore ln d)).sum)
        else none := by
  obtain ⟨rel, hall, hsorted, hfind⟩ :=
    FindAllDocuments_spec ln s hs (s.ParseQuery raw_query) predicate
  exact ⟨rel, by rw [FindTopDocuments_eq, hall]; rfl, hsorted, hfind⟩

/-- What `FindTopDocuments` returns when `FindAllDocuments` has one candidate, seen through a
function `f` of the Documents such as the id or the rating: the sort has nothing to
arrange. -/
theorem FindTopDocuments_map_of_one {β : Type} (sort : SortFn (Document R))
    (hsort : StdSort sort) (f : Document R → β) (ln : R → R) (s : SearchServer R)
    (raw_query : Str) (predicate : Int → DocumentStatus → Int → Bool) (x : β)
    (h : (FindAllDocuments ln s (s.ParseQuery raw_query) predicate).map
      (fun l => l.map f) = some [x]) :
    (s.FindTopDocuments sort ln raw_query predicate).map (fun l => l.map f) = some [x] := by
  rw [FindTopDocuments_eq]
  cases hall : FindAllDocuments ln s (s.ParseQuery raw_query) predicate with
  | none => rw [hall] at h; simp at h
  | some cands =>
    rw [hall] at h
    simp only [Option.map_some', Option.some.injEq] at h ⊢
    match cands, h with
    | [a], h =>
      rw [sort_singleton sort hsort]
      simpa [MAX_RESULT_DOCUMENT_COUNT] using h
    | [], h => simp at h
    | _ :: _ :: _, h => simp at h

theorem FindTopDocuments_of_none (sort : SortFn (Document R)) (hsort : StdSort sort)
    (ln : R → R) (s : SearchServer R) (raw_query : Str)
    (predicate : Int → DocumentStatus → Int → Bool)
    (h : FindAllDocuments ln s (s.ParseQuery raw_query) predicate = some []) :
    s.FindTopDocuments sort ln raw_query predicate = some [] := by
  rw [FindTopDocuments_eq, h, Option.map_some', sort_nil sort hsort]
  rfl

end Top

/-! ## Facts about the comparison of the sort -/

section Order

variable {R : Type} [LinearOrderedField R]

open SearchServer

theorem documentLess_asymm (a b : Document R) (h : documentLess a b = true) :
    documentLess b a = false := by
  unfold SearchServer.documentLess at *
  rw [abs_sub_comm b.relevance a.relevance]
  split_ifs at h ⊢ with hc
  · simp only [decide_eq_true_eq, decide_eq_false_iff_not] at h ⊢
    omega
  · simp only [decide_eq_true_eq, decide_eq_false_iff_not] at h ⊢
    exact not_lt.mpr h.le

theorem documentLess_irrefl (a : Document R) : documentLess a a = false := by
  cases h : documentLess a a with
  | false => rfl
  | true => exact h.symm.trans (documentLess_asymm a a h)

/-- The comparison puts `a` before `b` when the relevances differ by less than `1e-6` and the
rating of `a` is the greater one, or when they differ by at least `1e-6` and the relevance of
`a` is the greater one. -/
theorem documentLess_true_iff (a b : Document R) :
    documentLess a b = true ↔
      (|a.relevance - b.relevance| < 1 / 1000000 ∧ a.rating > b.rating) ∨
      (¬ |a.relevance - b.relevance| < 1 / 1000000 ∧ a.relevance > b.relevance) := by
  unfold SearchServer.documentLess
  by_cases hc : |a.relevance - b.relevance| < 1 / 1000000
  · rw [if_pos hc, decide_eq_true_eq]
    constructor
    · intro h
      exact Or.inl ⟨hc, h⟩
    · rintro (⟨_, h⟩ | ⟨h', _⟩)
      · exact h
      · exact absurd hc h'
  · rw [if_neg hc, decide_eq_true_eq]
    constructor
    · intro h
      exact Or.inr ⟨hc, h⟩
    · rintro (⟨h', _⟩ | ⟨_, h⟩)
      · exact absurd h' hc
      · exact h

theorem documentLess_eq_false_iff (a b : Document R) :
    documentLess a b = false ↔
      (|a.relevance - b.relevance| < 1 / 1000000 ∧ a.rating ≤ b.rating) ∨
      (¬ |a.relevance - b.relevance| < 1 / 1000000 ∧ a.relevance ≤ b.relevance) := by
  unfold SearchServer.documentLess
  by_cases hc : |a.relevance - b.relevance| < 1 / 1000000
  · rw [if_pos hc, decide_eq_false_iff_not, not_lt]
    constructor
    · intro h
      exact Or.inl ⟨hc, h⟩
    · rintro (⟨_, h⟩ | ⟨h', _⟩)
      · exact h
      · exact absurd hc h'
  · rw [if_neg hc, decide_eq_false_iff_not, not_lt]
    constructor
    · intro h
      exact Or.inr ⟨hc, h⟩
    · rintro (⟨h', _⟩ | ⟨_, h⟩)
      · exact absurd h' hc
      · exact h

/-- Two Documents that the comparison does not separate have relevances within `1e-6` and the
same rating. -/
theorem incomparable_iff (a b : Document R) :
    (documentLess a b = false ∧ documentLess b a = false) ↔
      (|a.relevance - b.relevance| < 1 / 1000000 ∧ a.rating = b.rating) := by
  rw [documentLess_eq_false_iff, documentLess_eq_false_iff, abs_sub_comm b.relevance a.relevance]
  constructor
  · rintro ⟨h1 | h1, h2 | h2⟩
    · exact ⟨h1.1, le_antisymm h1.2 h2.2⟩
    · exact absurd h1.1 h2.1
    · exact absurd h2.1 h1.1
    · exfalso
      apply h1.1
      rw [le_antisymm h1.2 h2.2, sub_self, abs_zero]
      norm_num
  · rintro ⟨h, hr⟩
    exact ⟨Or.inl ⟨h, hr.le⟩, Or.inl ⟨h, hr.ge⟩⟩

/-- Where the relation of having relevances within `1e-6` is transitive, the comparison is a
strict weak ordering: the Documents fall into groups of near ties, ordered by relevance, and
inside a group they are ordered by rating. -/
theorem documentLess_swo_of_near (S : Document R → Prop) (h : NearTiesTransitiveOn S) :
    StrictWeakOrderingOn (documentLess : Document R → Document R → Bool) S := by
  refine ⟨fun a _ => documentLess_irrefl a, ?_, ?_⟩
  · intro a b c ha hb hc hab hbc
    rw [documentLess_true_iff] at hab hbc ⊢
    by_cases nac : |a.relevance - c.relevance| < 1 / 1000000
    · left
      refine ⟨nac, ?_⟩
      rcases hab with ⟨nab, rab⟩ | ⟨nab, rab⟩
      · rcases hbc with ⟨nbc, rbc⟩ | ⟨nbc, rbc⟩
        · omega
        · exfalso
          apply nbc
          have := h b a c hb ha hc (by rw [abs_sub_comm]; exact nab) nac
          exact this
      · exfalso
        rcases hbc with ⟨nbc, rbc⟩ | ⟨nbc, rbc⟩
        · apply nab
          have := h a c b ha hc hb nac (by rw [abs_sub_comm]; exact nbc)
          exact this
        · rw [abs_lt] at nac
          rw [abs_lt, not_and_or, not_lt, not_lt] at nab nbc
          rcases nab with nab | nab <;> rcases nbc with nbc | nbc <;> linarith [nac.1, nac.2]
    · right
      refine ⟨nac, ?_⟩
      rcases hab with ⟨nab, rab⟩ | ⟨nab, rab⟩
      · rcases hbc with ⟨nbc, rbc⟩ | ⟨nbc, rbc⟩
        · exact absurd (h a b c ha hb hc nab nbc) nac
        · rw [abs_lt] at nab
          rw [abs_lt, not_and_or, not_lt, not_lt] at nbc nac
          rcases nbc with nbc | nbc <;> rcases nac with nac | nac <;>
            linarith [nab.1, nab.2]
      · rcases hbc with ⟨nbc, rbc⟩ | ⟨nbc, rbc⟩
        · rw [abs_lt] at nbc
          rw [abs_lt, not_and_or, not_lt, not_lt] at nab nac
          rcases nab with nab | nab <;> rcases nac with nac | nac <;>
            linarith [nbc.1, nbc.2]
        · linarith
  · intro a b c ha hb hc hab hba hbc hcb
    have h1 := (incomparable_iff a b).mp ⟨hab, hba⟩
    have h2 := (incomparable_iff b c).mp ⟨hbc, hcb⟩
    exact (incomparable_iff a c).mpr ⟨h a b c ha hb hc h1.1 h2.1, h1.2.trans h2.2⟩

/-- For Documents of one rating the condition is also necessary: the comparison does not
separate two of them exactly when their relevances are within `1e-6`. -/
theorem near_of_swo_of_rating (S : Document R → Prop)
    (hr : ∀ a b, S a → S b → a.rating = b.rating)
    (h : StrictWeakOrderingOn (documentLess : Document R → Document R → Bool) S) :
    NearTiesTransitiveOn S := by
  intro a b c ha hb hc nab nbc
  have h1 := (incomparable_iff a b).mpr ⟨nab, hr a b ha hb⟩
  have h2 := (incomparable_iff b c).mpr ⟨nbc, hr b c hb hc⟩
  have h3 := h.2.2 a b c ha hb hc h1.1 h1.2 h2.1 h2.2
  exact ((incomparable_iff a c).mp h3).1

/-- Relevances that are all equal are near ties of each other. -/
theorem nearTies_of_const (S : Document R → Prop) (r : R) (h : ∀ a, S a → a.relevance = r) :
    NearTiesTransitiveOn S := by
  intro a b c ha hb hc _ _
  rw [h a ha, h c hc, sub_self, abs_zero]
  norm_num

/-- A comparison that is asymmetric and keeps "not after" transitive is a strict weak
ordering. -/
theorem swo_of_negTrans {α : Type} (less : α → α → Bool) (S : α → Prop)
    (hasymm : ∀ a b, S a → S b → less a b = true → less b a = false)
    (hneg : ∀ a b c, S a → S b → S c → less b a = false → less c b = false →
      less c a = false) : StrictWeakOrderingOn less S := by
  refine ⟨?_, ?_, ?_⟩
  · intro a ha
    cases h : less a a with
    | false => rfl
    | true => exact (hasymm a a ha ha h).symm.trans h ▸ rfl
  · intro a b c ha hb hc hab hbc
    cases hac : less a c with
    | true => rfl
    | false =>
      have hcb := hasymm b c hb hc hbc
      have := hneg b c a hb hc ha hcb hac
      rw [hab] at this
      exact Bool.noConfusion this
  · intro a b c ha hb hc hab hba hbc hcb
    exact ⟨hneg c b a hc hb ha hbc hab, hneg a b c ha hb hc hba hcb⟩

/-- The comparison is a strict weak ordering on a set of Documents exactly when the set has
no chain of near ties that the ratings do not put in order. -/
theorem documentLess_swo_iff (S : Document R → Prop) :
    StrictWeakOrderingOn (documentLess : Document R → Document R → Bool) S ↔
      NoTieChainOn S := by
  constructor
  · intro h x y z hx hy hz nxy nyz nxz hlt
    by_contra hcon
    rw [not_or, not_lt, not_lt] at hcon
    have hzy : documentLess z y = false :=
      (documentLess_eq_false_iff z y).mpr
        (Or.inl ⟨by rw [abs_sub_comm]; exact nyz, hcon.1⟩)
    have hyx : documentLess y x = false :=
      (documentLess_eq_false_iff y x).mpr
        (Or.inl ⟨by rw [abs_sub_comm]; exact nxy, hcon.2⟩)
    have hzx := StrictWeakOrderingOn_negTrans documentLess S h x y z hx hy hz hyx hzy
    rw [documentLess_eq_false_iff] at hzx
    rcases hzx with ⟨n, -⟩ | ⟨-, hle⟩
    · exact nxz (by rw [abs_sub_comm]; exact n)
    · exact absurd hlt (not_lt.mpr hle)
  · intro h
    apply swo_of_negTrans documentLess S (fun a b _ _ => documentLess_asymm a b)
    intro a b c ha hb hc hba hcb
    rw [documentLess_eq_false_iff] at hba hcb ⊢
    by_cases nca : |c.relevance - a.relevance| < 1 / 1000000
    · left
      refine ⟨nca, ?_⟩
      rcases hba with ⟨nba, rba⟩ | ⟨nba, rba⟩
      · rcases hcb with ⟨ncb, rcb⟩ | ⟨ncb, rcb⟩
        · exact le_trans rcb rba
        · have hlt : c.relevance < b.relevance := by
            rw [abs_lt, not_and_or, not_lt, not_lt] at ncb
            rcases ncb with ncb | ncb <;> linarith
          rcases h c a b hc ha hb nca (by rw [abs_sub_comm]; exact nba) ncb hlt with h1 | h1
          · omega
          · omega
      · rcases hcb with ⟨ncb, rcb⟩ | ⟨ncb, rcb⟩
        · have hlt : b.relevance < a.relevance := by
            rw [abs_lt, not_and_or, not_lt, not_lt] at nba
            rcases nba with nba | nba <;> linarith
          rcases h b c a hb hc ha (by rw [abs_sub_comm]; exact ncb) nca nba hlt with h1 | h1
          · omega
          · omega
        · exfalso
          rw [abs_lt] at nca
          rw [abs_lt, not_and_or, not_lt, not_lt] at nba ncb
          rcases nba with nba | nba <;> rcases ncb with ncb | ncb <;>
            linarith [nca.1, nca.2]
    · right
      refine ⟨nca, ?_⟩
      by_contra hgt
      rw [not_le] at hgt
      rcases hba with ⟨nba, rba⟩ | ⟨nba, rba⟩
      · rcases hcb with ⟨ncb, rcb⟩ | ⟨ncb, rcb⟩
        · have nac : ¬ |a.relevance - c.relevance| < 1 / 1000000 := by
            rw [abs_sub_comm]; exact nca
          rcases h a b c ha hb hc (by rw [abs_sub_comm]; exact nba)
            (by rw [abs_sub_comm]; exact ncb) nac hgt with h1 | h1
          · omega
          · omega
        · rw [abs_lt] at nba
          rw [abs_lt, not_and_or, not_lt, not_lt] at ncb nca
          rcases ncb with ncb | ncb <;> rcases nca with nca | nca <;>
            linarith [nba.1, nba.2]
      · rcases hcb with ⟨ncb, rcb⟩ | ⟨ncb, rcb⟩
        · rw [abs_lt] at ncb
          rw [abs_lt, not_and_or, not_lt, not_lt] at nba nca
          rcases nba with nba | nba <;> rcases nca with nca | nca <;>
            linarith [ncb.1, ncb.2]
        · linarith

/-- Where near ties are transitive there is no chain of near ties at all. -/
theorem noTieChain_of_near (S : Document R → Prop) (h : NearTiesTransitiveOn S) :
    NoTieChainOn S := by
  intro x y z hx hy hz nxy nyz nxz _
  exact absurd (h x y z hx hy hz nxy nyz) nxz

end Order

/-! ## The properties -/

section Claims

variable {R : Type} [LinearOrderedField R]

open SearchServer

/-- The words indexed by an `AddDocument` call have a posting for its id in every later
state. -/
theorem posting_of_added (pre post : List Call) (d : Int) (text : Str)
    (status : DocumentStatus) (ratings : List Int) (w : Str)
    (hw : w ∈ (run pre : SearchServer R).SplitIntoWordsNoStop text) :
    ((run (pre ++ Call.addDocument d text status ratings :: post) : SearchServer R).posting
      w d).isSome = true := by
  rw [run_append]
  show ((runFrom ((run pre : SearchServer R).AddDocument d text status ratings) post).posting
    w d).isSome = true
  apply posting_isSome_runFrom _ (WF_AddDocument _ (WF_run pre) _ _ _ _)
  rw [posting_AddDocument _ (WF_run pre)]
  simp [hw]

/-- C1 (amended). In every state reached by `SetStopWords` and `AddDocument` calls, for every
raw query and predicate, and whatever the library `sort` is among the functions that meet
`StdSort`, `FindTopDocuments` returns a list in which no document appears that
has a posting for a minus-word of the parsed query; in particular, when the query has a token
`-w` that is not itself a stop word, `w` is not empty and not a stop word, and the
stop-word-filtered text of an added document contains `w`, the id of that document is not
among the returned ids. -/
theorem C1_minus_words_excluded (sort : SortFn (Document R)) (hsort : StdSort sort) 
    (ln : R → R) (calls : List Call) (raw_query : Str)
    (predicate : Int → DocumentStatus → Int → Bool) :
    ∃ result, (run calls : SearchServer R).FindTopDocuments sort ln raw_query predicate =
        some result ∧
      (∀ w ∈ ((run calls : SearchServer R).ParseQuery raw_query).minus_words, ∀ d,
        ((run calls : SearchServer R).posting w d).isSome = true →
          d ∉ result.map Document.id) ∧
      (∀ pre post d text status ratings w,
        calls = pre ++ Call.addDocument d text status ratings :: post →
        w ∈ (run pre : SearchServer R).SplitIntoWordsNoStop text →
        ('-' :: w) ∈ SplitIntoWords raw_query →
        w ≠ [] →
        (run calls : SearchServer R).IsStopWord ('-' :: w) = false →
        (run calls : SearchServer R).IsStopWord w = false →
        d ∉ result.map Document.id) := by
  obtain ⟨rel, htop, hsorted, hfind⟩ :=
    FindTopDocuments_spec sort ln (run calls : SearchServer R) (WF_run calls) raw_query predicate
  have hmain : ∀ w ∈ ((run calls : SearchServer R).ParseQuery raw_query).minus_words, ∀ d,
      ((run calls : SearchServer R).posting w d).isSome = true →
        d ∉ ((sort documentLess (rel.map (run calls : SearchServer R).asDocument)).take
          MAX_RESULT_DOCUMENT_COUNT).map Document.id := by
    intro w hw d hpost hmem
    obtain ⟨doc, hdoc, hid⟩ := List.mem_map.mp hmem
    have hcand := take_sort_subset sort hsort _ _ _ hdoc
    obtain ⟨p, hp, hpd⟩ := List.mem_map.mp hcand
    have hkey : mapFind rel d = some p.2 := by
      have := mapFind_of_mem rel hsorted p.1 p.2 hp
      rw [← hid, ← hpd]
      exact this
    rw [hfind d] at hkey
    split_ifs at hkey with hc
    have hany : ((run calls : SearchServer R).ParseQuery raw_query).minus_words.any
        (fun t => ((run calls : SearchServer R).posting t d).isSome) = true :=
      List.any_eq_true.mpr ⟨w, hw, hpost⟩
    rw [hany] at hc
    exact Bool.noConfusion hc.2.2
  refine ⟨_, htop, hmain, ?_⟩
  intro pre post d text status ratings w hcalls hdoc htoken _ hstop hw
  apply hmain w _ d
  · rw [hcalls]
    exact posting_of_added pre post d text status ratings w hdoc
  · rw [mem_minus_ParseQuery]
    refine ⟨'-' :: w, ?_, rfl, hw, rfl⟩
    unfold SearchServer.SplitIntoWordsNoStop
    rw [List.mem_filter]
    exact ⟨htoken, by simp [hstop]⟩

/-- C1, on the test `MinusWordsAreNotParsed`: the query `box -cat` returns document 3 only;
documents 1 and 2 hold `cat`. -/
theorem C1_minus_words_excluded_witness :
    StdSort (insertionSort : SortFn (Document ℝ)) ∧
    ∃ result, (run minusWordsCalls : SearchServer ℝ).FindTopDocumentsDefault insertionSort
        Real.log "box -cat".toList = some result ∧
      (1 : Int) ∉ result.map Document.id ∧ (2 : Int) ∉ result.map Document.id ∧
      result.map Document.id = [3] := by
  obtain ⟨result, hres, -, h⟩ := C1_minus_words_excluded insertionSort insertionSort_StdSort
    Real.log minusWordsCalls
    "box -cat".toList (fun _ new_status _ => decide (new_status = DocumentStatus.ACTUAL))
  refine ⟨insertionSort_StdSort, result, hres, ?_, ?_, ?_⟩
  · exact h [] _ 1 "cat the city".toList DocumentStatus.ACTUAL [1, 2, 3] "cat".toList rfl
      (by decide) (by decide) (by decide) (by decide) (by decide)
  · exact h [Call.addDocument 1 "cat the city".toList DocumentStatus.ACTUAL [1, 2, 3]] _ 2
      " white cat in box".toList DocumentStatus.ACTUAL [2, 3, 8] "cat".toList rfl
      (by decide) (by decide) (by decide) (by decide) (by decide)
  · have hids : ((run minusWordsCalls : SearchServer ℝ).FindTopDocumentsDefault insertionSort
        Real.log "box -cat".toList).map (fun l => l.map Document.id) = some [3] := by
      rfl
    change (run minusWordsCalls : SearchServer ℝ).FindTopDocumentsDefault insertionSort
        Real.log "box -cat".toList = some result at hres
    rw [hres] at hids
    simpa using hids

/-- C1 as stated fails when the token `-w` is itself a stop word: with the stop word `-cat`,
the document `cat` and the query `cat -cat`, the token `-cat` is dropped before the minus-words
are read, and document 1, whose text contains `cat`, is returned, whatever the library `sort`
does with the one candidate. -/
theorem C1_counterexample :
    ('-' :: "cat".toList) ∈ SplitIntoWords "cat -cat".toList ∧
    "cat".toList ≠ [] ∧
    (run [Call.setStopWords "-cat".toList,
      Call.addDocument 1 "cat".toList DocumentStatus.ACTUAL []] : SearchServer ℝ).IsStopWord
        "cat".toList = false ∧
    "cat".toList ∈ (run [Call.setStopWords "-cat".toList] : SearchServer ℝ).SplitIntoWordsNoStop
      "cat".toList ∧
    ∀ sort : SortFn (Document ℝ), StdSort sort →
      ((run [Call.setStopWords "-cat".toList,
        Call.addDocument 1 "cat".toList DocumentStatus.ACTUAL []] :
          SearchServer ℝ).FindTopDocuments sort Real.log "cat -cat".toList
            (fun _ _ _ => true)).map (fun l => l.map Document.id) = some [1] := by
  refine ⟨by decide, by decide, by decide, by decide, ?_⟩
  intro sort hsort
  exact FindTopDocuments_map_of_one sort hsort Document.id _ _ _ _ 1 rfl

theorem accepts_iff (s : SearchServer R) (predicate : Int → DocumentStatus → Int → Bool)
    (d : Int) :
    s.accepts predicate d = true ↔
      ∃ data, mapFind s.documents_ d = some data ∧
        predicate d data.status data.rating = true := by
  unfold SearchServer.accepts
  cases mapFind s.documents_ d <;> simp

theorem any_posting_false_iff (s : SearchServer R) (ts : List Str) (d : Int) :
    ts.any (fun t => (s.posting t d).isSome) = false ↔ ∀ t ∈ ts, s.posting t d = none := by
  rw [← Bool.not_eq_true, List.any_eq_true]
  constructor
  · intro h t ht
    cases hp : s.posting t d with
    | none => rfl
    | some v => exact absurd ⟨t, ht, by simp [hp]⟩ h
  · rintro h ⟨t, ht, hp⟩
    simp [h t ht] at hp

theorem ratingOf_eq (s : SearchServer R) (d : Int) (data : DocumentData)
    (h : mapFind s.documents_ d = some data) : s.ratingOf d = data.rating := by
  simp [SearchServer.ratingOf, h]

theorem map_id_asDocument (s : SearchServer R) (rel : List (Int × R)) :
    (rel.map s.asDocument).map Document.id = rel.map Prod.fst := by
  rw [List.map_map]
  rfl

/-- The ids of the candidates of `FindAllDocuments_spec`. -/
theorem mem_candidates_iff (s : SearchServer R) (q : Query) (ln : R → R)
    (predicate : Int → DocumentStatus → Int → Bool) (rel : List (Int × R))
    (hfind : ∀ d, mapFind rel d =
      if s.accepts predicate d = true ∧
          q.plus_words.any (fun t => (s.posting t d).isSome) = true ∧
          q.minus_words.any (fun t => (s.posting t d).isSome) = false then
        some ((q.plus_words.map (s.termScore ln d)).sum)
      else none) (d : Int) :
    d ∈ rel.map Prod.fst ↔
      (∃ t ∈ q.plus_words, (s.posting t d).isSome = true) ∧
      (∃ data, mapFind s.documents_ d = some data ∧
        predicate d data.status data.rating = true) ∧
      (∀ t ∈ q.minus_words, s.posting t d = none) := by
  rw [← mapFind_isSome_iff, hfind d, ← accepts_iff, ← any_posting_false_iff, ← List.any_eq_true]
  split_ifs with hc
  · simp only [Option.isSome_some, true_iff]
    exact ⟨hc.2.1, hc.1, hc.2.2⟩
  · simp only [Option.isSome_none, Bool.false_eq_true, false_iff]
    intro h
    exact hc ⟨h.2.1, h.1, h.2.2⟩

theorem mem_matchingIds (s : SearchServer R) (q : Query)
    (predicate : Int → DocumentStatus → Int → Bool) (d : Int) :
    d ∈ s.matchingIds q predicate ↔
      (s.accepts predicate d = true ∧
        q.plus_words.any (fun t => (s.posting t d).isSome) = true ∧
        q.minus_words.any (fun t => (s.posting t d).isSome) = false) := by
  unfold SearchServer.matchingIds
  rw [List.mem_filter]
  simp only [Bool.and_eq_true, Bool.not_eq_eq_eq_not, Bool.not_true]
  constructor
  · rintro ⟨-, ⟨h1, h2⟩, h3⟩
    exact ⟨h1, h2, h3⟩
  · rintro ⟨h1, h2, h3⟩
    refine ⟨?_, ⟨h1, h2⟩, h3⟩
    rw [← mapFind_isSome_iff]
    unfold SearchServer.accepts at h1
    cases hd : mapFind s.documents_ d with
    | none => rw [hd] at h1; exact Bool.noConfusion h1
    | some data => rfl

/-- The ids of the candidates of `FindAllDocuments_spec` are the matching ids. -/
theorem candidates_eq_matchingIds (s : SearchServer R) (hs : s.WF) (q : Query) (ln : R → R)
    (predicate : Int → DocumentStatus → Int → Bool) (rel : List (Int × R))
    (hsorted : KeysSorted rel)
    (hfind : ∀ d, mapFind rel d =
      if s.accepts predicate d = true ∧
          q.plus_words.any (fun t => (s.posting t d).isSome) = true ∧
          q.minus_words.any (fun t => (s.posting t d).isSome) = false then
        some ((q.plus_words.map (s.termScore ln d)).sum)
      else none) :
    rel.map Prod.fst = s.matchingIds q predicate := by
  have hm : (s.matchingIds q predicate).Pairwise (· < ·) :=
    List.Pairwise.sublist (List.filter_sublist _) hs.documents
  have hperm : (rel.map Prod.fst).Perm (s.matchingIds q predicate) := by
    apply (List.perm_ext_iff_of_nodup (hsorted.imp (fun h => ne_of_lt h))
      (hm.imp (fun h => ne_of_lt h))).mpr
    intro d
    rw [mem_matchingIds, ← mapFind_isSome_iff, hfind d]
    split_ifs with hc
    · exact ⟨fun _ => hc, fun _ => rfl⟩
    · exact ⟨fun h => Bool.noConfusion h, fun h => absurd h hc⟩
  exact List.eq_of_perm_of_sorted hperm hsorted hm

/-- C2. In every state reached by `SetStopWords` and `AddDocument` calls, for every raw query
and predicate, `FindAllDocuments` returns a candidate list whose ids are exactly the ids `d`
such that some plus-word of the parsed query has a posting for `d`, the predicate holds of
`d` with its stored status and rating, and no minus-word has a posting for `d`; the ids are
strictly ascending, so each occurs once, and every candidate carries the rating stored for its
id. The relevance plays no part in the selection: on the test `TestAddDocument` the query
`city` returns exactly the document 42, whatever the library `sort` does. -/
theorem C2_candidates_exact (ln : R → R) (calls : List Call) (raw_query : Str)
    (predicate : Int → DocumentStatus → Int → Bool) :
    (∃ cands, FindAllDocuments ln (run calls : SearchServer R)
        ((run calls : SearchServer R).ParseQuery raw_query) predicate = some cands ∧
      (∀ d, d ∈ cands.map Document.id ↔
        (∃ t ∈ ((run calls : SearchServer R).ParseQuery raw_query).plus_words,
          ((run calls : SearchServer R).posting t d).isSome = true) ∧
        (∃ data, mapFind (run calls : SearchServer R).documents_ d = some data ∧
          predicate d data.status data.rating = true) ∧
        (∀ t ∈ ((run calls : SearchServer R).ParseQuery raw_query).minus_words,
          (run calls : SearchServer R).posting t d = none)) ∧
      (cands.map Document.id).Pairwise (· < ·) ∧
      (cands.map Document.id).Nodup ∧
      (∀ doc ∈ cands, ∃ data,
        mapFind (run calls : SearchServer R).documents_ doc.id = some data ∧
          doc.rating = data.rating)) ∧
    (∀ sort : SortFn (Document R), StdSort sort →
      ((run [Call.addDocument 42 "cat in the city".toList DocumentStatus.ACTUAL [1, 2, 3]] :
        SearchServer R).FindTopDocumentsDefault sort ln "city".toList).map
          (fun l => l.map Document.id) = some [42]) := by
  refine ⟨?_, fun sort hsort => FindTopDocuments_map_of_one sort hsort Document.id _ _ _ _ 42 rfl⟩
  obtain ⟨rel, hall, hsorted, hfind⟩ :=
    FindAllDocuments_spec ln (run calls : SearchServer R) (WF_run calls)
      ((run calls : SearchServer R).ParseQuery raw_query) predicate
  have hids := map_id_asDocument (run calls : SearchServer R) rel
  refine ⟨_, hall, ?_, ?_, ?_, ?_⟩
  · intro d
    rw [hids]
    exact mem_candidates_iff _ _ ln predicate rel hfind d
  · rw [hids]
    exact hsorted
  · rw [hids]
    exact (List.Pairwise.imp (fun h => ne_of_lt h) hsorted)
  · intro doc hdoc
    obtain ⟨p, hp, hpd⟩ := List.mem_map.mp hdoc
    have hmem : p.1 ∈ rel.map Prod.fst := List.mem_map.mpr ⟨p, hp, rfl⟩
    obtain ⟨-, ⟨data, hdata, -⟩, -⟩ := (mem_candidates_iff _ _ ln predicate rel hfind p.1).mp hmem
    refine ⟨data, ?_, ?_⟩
    · rw [← hpd]
      exact hdata
    · rw [← hpd]
      exact ratingOf_eq _ _ _ hdata

theorem take_length_take {α : Type} (n : Nat) (l : List α) :
    l.take n = l.take (l.take n).length := by
  rw [List.length_take]
  rcases le_total n l.length with h | h
  · rw [min_eq_left h]
  · rw [min_eq_right h, List.take_of_length_le h, List.take_of_length_le (le_refl _)]

/-- In a list in the order of the comparison, no element cut off by `take` is before an
element that is kept. -/
theorem take_drop_of_pairwise {α : Type} (less : α → α → Bool) (l : List α) (n : Nat)
    (h : l.Pairwise (fun a b => less b a = false)) :
    ∀ a ∈ l.take n, ∀ b ∈ l.drop n, less b a = false := by
  have h' := h
  rw [← List.take_append_drop n l, List.pairwise_append] at h'
  exact h'.2.2

/-- Every candidate whose relevance is made of terms with a zero IDF has the relevance 0. -/
theorem relevance_zero_of_idf_zero (ln : R → R) (s : SearchServer R) (hs : s.WF) (q : Query)
    (predicate : Int → DocumentStatus → Int → Bool) (cands : List (Document R))
    (hall : FindAllDocuments ln s q predicate = some cands)
    (hidf : ∀ t ∈ q.plus_words, ComputeIDF ln s (s.df t : Int) = 0) :
    ∀ a ∈ cands, a.relevance = 0 := by
  obtain ⟨rel, hall', hsorted, hfind⟩ := FindAllDocuments_spec ln s hs q predicate
  rw [hall] at hall'
  have hcands := Option.some.inj hall'
  intro a ha
  rw [hcands] at ha
  obtain ⟨p, hp, hpa⟩ := List.mem_map.mp ha
  have hkey := mapFind_of_mem rel hsorted p.1 p.2 hp
  rw [hfind p.1] at hkey
  split_ifs at hkey with hc
  simp only [Option.some.injEq] at hkey
  rw [← hpa]
  show p.2 = 0
  rw [← hkey]
  apply List.sum_eq_zero
  intro x hx
  obtain ⟨t, ht, rfl⟩ := List.mem_map.mp hx
  unfold SearchServer.termScore
  cases s.posting t p.1 with
  | none => rfl
  | some tf => simp [hidf t ht]

/-- A list of Documents of relevance 0 is given by its ids and its ratings. -/
theorem eq_of_relevance_zero (cands : List (Document R))
    (hz : ∀ a ∈ cands, a.relevance = 0) :
    cands = List.zipWith (fun i r => (⟨i, 0, r⟩ : Document R)) (cands.map Document.id)
      (cands.map Document.rating) := by
  induction cands with
  | nil => rfl
  | cons a l ih =>
    have ha := hz a (List.mem_cons_self _ _)
    have ih' := ih (fun x hx => hz x (List.mem_cons_of_mem _ hx))
    obtain ⟨i, r, t⟩ := a
    simp only at ha
    subst ha
    simp only [List.map_cons, List.zipWith_cons_cons, List.cons.injEq, true_and]
    exact ih'

/-- C6. In every state reached by `SetStopWords` and `AddDocument` calls, for every raw query
and predicate, and whatever the library `sort` is among the functions that meet `StdSort`,
`FindTopDocuments` returns at most 5 documents: the length of the result is the minimum of 5
and the number of candidates of `FindAllDocuments`, which are the matching documents, and
the result is the first that many elements of the sorted candidate list, the candidate list
as `sort` leaves it. That list is a rearrangement of the candidates; whenever the comparison
is a strict weak ordering on the candidates, as it is when their near ties are transitive, it
is in the order of the comparison, and no candidate that is cut off is ordered before one
that is returned. -/
theorem C6_result_cap (sort : SortFn (Document R)) (hsort : StdSort sort) (ln : R → R)
    (calls : List Call) (raw_query : Str) (predicate : Int → DocumentStatus → Int → Bool) :
    ∃ cands result,
      FindAllDocuments ln (run calls : SearchServer R)
        ((run calls : SearchServer R).ParseQuery raw_query) predicate = some cands ∧
      cands.map Document.id = (run calls : SearchServer R).matchingIds
        ((run calls : SearchServer R).ParseQuery raw_query) predicate ∧
      (run calls : SearchServer R).FindTopDocuments sort ln raw_query predicate = some result ∧
      result.length ≤ 5 ∧
      result.length = min 5 cands.length ∧
      result = (sort documentLess cands).take result.length ∧
      (sort documentLess cands).Perm cands ∧
      (StrictWeakOrderingOn documentLess (fun a => a ∈ cands) →
        (sort documentLess cands).Pairwise (fun a b => documentLess b a = false) ∧
        ∀ a ∈ result, ∀ b ∈ (sort documentLess cands).drop result.length,
          documentLess b a = false) ∧
      (NearTiesTransitiveOn (fun a => a ∈ cands) →
        StrictWeakOrderingOn documentLess (fun a => a ∈ cands)) := by
  obtain ⟨rel, hall, hkeys, hfind⟩ :=
    FindAllDocuments_spec ln (run calls : SearchServer R) (WF_run calls)
      ((run calls : SearchServer R).ParseQuery raw_query) predicate
  have hids : (rel.map (run calls : SearchServer R).asDocument).map Document.id =
      (run calls : SearchServer R).matchingIds
        ((run calls : SearchServer R).ParseQuery raw_query) predicate := by
    rw [map_id_asDocument]
    exact candidates_eq_matchingIds _ (WF_run calls) _ ln predicate rel hkeys hfind
  have hperm := (hsort documentLess (rel.map (run calls : SearchServer R).asDocument)).1
  have hlen : ((sort documentLess (rel.map (run calls : SearchServer R).asDocument)).take
      MAX_RESULT_DOCUMENT_COUNT).length =
      min 5 (rel.map (run calls : SearchServer R).asDocument).length := by
    rw [List.length_take, hperm.length_eq]
    rfl
  refine ⟨_, _, hall, hids, by rw [FindTopDocuments_eq, hall]; rfl, ?_, hlen, ?_, hperm, ?_,
    documentLess_swo_of_near _⟩
  · rw [hlen]
    exact min_le_left _ _
  · exact take_length_take _ _
  · intro hswo
    have hsorted := (hsort documentLess _).2 hswo
    refine ⟨hsorted, ?_⟩
    intro a ha b hb
    rw [take_length_take] at ha
    exact take_drop_of_pairwise documentLess _ _ hsorted a ha b hb

theorem cap_candidates :
    FindAllDocuments Real.log (run capCalls : SearchServer ℝ)
      ((run capCalls : SearchServer ℝ).ParseQuery "box".toList)
      (fun _ new_status _ => decide (new_status = DocumentStatus.ACTUAL)) =
      some [⟨1, 0, 3⟩, ⟨2, 0, 7⟩, ⟨3, 0, 1⟩, ⟨4, 0, 5⟩, ⟨5, 0, 2⟩, ⟨6, 0, 6⟩, ⟨7, 0, 4⟩] := by
  obtain ⟨rel, hall, -, -⟩ := FindAllDocuments_spec Real.log (run capCalls : SearchServer ℝ)
    (WF_run capCalls) ((run capCalls : SearchServer ℝ).ParseQuery "box".toList)
    (fun _ new_status _ => decide (new_status = DocumentStatus.ACTUAL))
  have hz := relevance_zero_of_idf_zero Real.log (run capCalls : SearchServer ℝ)
    (WF_run capCalls) _ _ _ hall (by
      intro t ht
      have hplus : ((run capCalls : SearchServer ℝ).ParseQuery "box".toList).plus_words =
          ["box".toList] := rfl
      rw [hplus, List.mem_singleton] at ht
      subst ht
      have hdf : (run capCalls : SearchServer ℝ).df "box".toList = 7 := rfl
      have hcount : (run capCalls : SearchServer ℝ).document_count_ = 7 := rfl
      unfold SearchServer.ComputeIDF
      rw [hdf, hcount]
      norm_num)
  have hid : (FindAllDocuments Real.log (run capCalls : SearchServer ℝ)
      ((run capCalls : SearchServer ℝ).ParseQuery "box".toList)
      (fun _ new_status _ => decide (new_status = DocumentStatus.ACTUAL))).map
      (fun l => l.map Document.id) = some [1, 2, 3, 4, 5, 6, 7] := rfl
  have hrating : (FindAllDocuments Real.log (run capCalls : SearchServer ℝ)
      ((run capCalls : SearchServer ℝ).ParseQuery "box".toList)
      (fun _ new_status _ => decide (new_status = DocumentStatus.ACTUAL))).map
      (fun l => l.map Document.rating) = some [3, 7, 1, 5, 2, 6, 4] := rfl
  rw [hall] at hid hrating ⊢
  simp only [Option.map_some', Option.some.injEq] at hid hrating
  have h := eq_of_relevance_zero _ hz
  rw [hid, hrating] at h
  rw [h]
  rfl

/-- What every `sort` that meets `StdSort` makes of the seven candidates: they have the same
relevance and pairwise different ratings, so their order is fixed. -/
theorem cap_sorted (sort : SortFn (Document ℝ)) (hsort : StdSort sort) :
    sort documentLess
      [⟨1, 0, 3⟩, ⟨2, 0, 7⟩, ⟨3, 0, 1⟩, ⟨4, 0, 5⟩, ⟨5, 0, 2⟩, ⟨6, 0, 6⟩, ⟨7, 0, 4⟩] =
      [⟨2, 0, 7⟩, ⟨6, 0, 6⟩, ⟨4, 0, 5⟩, ⟨7, 0, 4⟩, ⟨1, 0, 3⟩, ⟨5, 0, 2⟩, ⟨3, 0, 1⟩] := by
  apply sort_eq_of_strict sort hsort
  · apply documentLess_swo_of_near
    apply nearTies_of_const _ 0
    intro a ha
    simp only [List.mem_cons, List.mem_singleton, List.not_mem_nil, or_false] at ha
    rcases ha with rfl | rfl | rfl | rfl | rfl | rfl | rfl <;> rfl
  · have e : insertionSort documentLess
        ([⟨1, 0, 3⟩, ⟨2, 0, 7⟩, ⟨3, 0, 1⟩, ⟨4, 0, 5⟩, ⟨5, 0, 2⟩, ⟨6, 0, 6⟩, ⟨7, 0, 4⟩] :
          List (Document ℝ)) =
        [⟨2, 0, 7⟩, ⟨6, 0, 6⟩, ⟨4, 0, 5⟩, ⟨7, 0, 4⟩, ⟨1, 0, 3⟩, ⟨5, 0, 2⟩, ⟨3, 0, 1⟩] := by
      norm_num [insertionSort, insertByLess, SearchServer.documentLess]
    rw [← e]
    exact insertionSort_perm _ _
  · norm_num [SearchServer.documentLess]

theorem cap_result (sort : SortFn (Document ℝ)) (hsort : StdSort sort) :
    (run capCalls : SearchServer ℝ).FindTopDocumentsDefault sort Real.log "box".toList =
      some [⟨2, 0, 7⟩, ⟨6, 0, 6⟩, ⟨4, 0, 5⟩, ⟨7, 0, 4⟩, ⟨1, 0, 3⟩] := by
  show (run capCalls : SearchServer ℝ).FindTopDocuments sort Real.log "box".toList
    (fun _ new_status _ => decide (new_status = DocumentStatus.ACTUAL)) = _
  rw [FindTopDocuments_eq, cap_candidates, Option.map_some', cap_sorted sort hsort]
  rfl

/-- C6, on seven documents that all match the query `box` with the same relevance: the five
with the highest ratings are returned, in the order of their ratings, whatever the library
`sort` does. -/
theorem C6_result_cap_witness :
    StdSort (insertionSort : SortFn (Document ℝ)) ∧
    (∀ sort : SortFn (Document ℝ), StdSort sort →
      (run capCalls : SearchServer ℝ).FindTopDocumentsDefault sort Real.log "box".toList =
        some [⟨2, 0, 7⟩, ⟨6, 0, 6⟩, ⟨4, 0, 5⟩, ⟨7, 0, 4⟩, ⟨1, 0, 3⟩]) ∧
    ∃ cands result,
      FindAllDocuments Real.log (run capCalls : SearchServer ℝ)
        ((run capCalls : SearchServer ℝ).ParseQuery "box".toList)
        (fun _ new_status _ => decide (new_status = DocumentStatus.ACTUAL)) = some cands ∧
      (run capCalls : SearchServer ℝ).FindTopDocumentsDefault insertionSort Real.log
        "box".toList = some result ∧
      cands.length = 7 ∧ result.length = 5 ∧
      result.map Document.id = [2, 6, 4, 7, 1] ∧
      result.map Document.rating = [7, 6, 5, 4, 3] := by
  obtain ⟨cands, result, hall, -, htop, -, hlen, -⟩ := C6_result_cap insertionSort
    insertionSort_StdSort Real.log capCalls "box".toList
    (fun _ new_status _ => decide (new_status = DocumentStatus.ACTUAL))
  have hc := cap_candidates
  rw [hall] at hc
  have hcands := Option.some.inj hc
  have hr := cap_result insertionSort insertionSort_StdSort
  change (run capCalls : SearchServer ℝ).FindTopDocuments insertionSort Real.log "box".toList
    (fun _ new_status _ => decide (new_status = DocumentStatus.ACTUAL)) = _ at hr
  rw [htop] at hr
  have hres := Option.some.inj hr
  refine ⟨insertionSort_StdSort, cap_result, cands, result, hall, htop, ?_, ?_, ?_, ?_⟩
  · rw [hcands]
    rfl
  · rw [hlen, hcands]
    rfl
  · rw [hres]
    rfl
  · rw [hres]
    rfl

theorem document_count_runFrom (s : SearchServer R) (calls : List Call) :
    (runFrom s calls).document_count_ = s.document_count_ + ((addedIds calls).length : Int) := by
  induction calls generalizing s with
  | nil => simp [runFrom, addedIds]
  | cons c calls ih =>
    have h := ih (Call.apply s c)
    change (runFrom (Call.apply s c) calls).document_count_ = _
    rw [h]
    cases c with
    | setStopWords text => simp [Call.apply, SearchServer.SetStopWords, addedIds]
    | addDocument document_id document status ratings =>
      simp only [Call.apply, SearchServer.AddDocument, addedIds, List.length_cons]
      push_cast
      ring

theorem document_count_run (calls : List Call) :
    (run calls : SearchServer R).document_count_ = ((addedIds calls).length : Int) := by
  unfold run
  rw [document_count_runFrom]
  simp [SearchServer.empty]

/-- The sum of the shares of the query words is the sum, over the words that have a posting
for the document, of the stored term frequency times the IDF. -/
theorem termScore_sum_eq (ln : R → R) (s : SearchServer R) (d : Int) (ts : List Str) :
    (ts.map (s.termScore ln d)).sum =
      ((ts.filter (fun t => (s.posting t d).isSome)).map
        (fun t => (s.posting t d).getD 0 *
          ln ((s.document_count_ : R) / (s.df t : R)))).sum := by
  induction ts with
  | nil => rfl
  | cons t ts ih =>
    cases hp : s.posting t d with
    | none =>
      rw [List.map_cons, List.sum_cons, ih, List.filter_cons]
      simp [hp, SearchServer.termScore]
    | some tf =>
      rw [List.map_cons, List.sum_cons, ih, List.filter_cons]
      simp [hp, SearchServer.termScore, SearchServer.ComputeIDF, mul_comm]

theorem posting_runFrom_origin (s : SearchServer R) (hs : s.WF) (calls : List Call) (t : Str)
    (d : Int) (h : ((runFrom s calls).posting t d).isSome = true) :
    (s.posting t d).isSome = true ∨ d ∈ addedIds calls := by
  induction calls generalizing s with
  | nil => exact Or.inl h
  | cons c calls ih =>
    rcases ih _ (WF_apply s hs c) h with h1 | h1
    · cases c with
      | setStopWords text => exact Or.inl h1
      | addDocument document_id document status ratings =>
        change ((s.AddDocument document_id document status ratings).posting t d).isSome = true
          at h1
        rw [posting_AddDocument s hs] at h1
        split_ifs at h1 with hc
        · right
          simp [addedIds, hc.1]
        · exact Or.inl h1
    · right
      cases c with
      | setStopWords text => exact h1
      | addDocument document_id document status ratings =>
        exact List.mem_cons_of_mem _ h1

theorem posting_run_fresh (calls : List Call) (t : Str) (d : Int) (h : d ∉ addedIds calls) :
    (run calls : SearchServer R).posting t d = none := by
  cases hp : (run calls : SearchServer R).posting t d with
  | none => rfl
  | some v =>
    have hsome : ((runFrom (SearchServer.empty : SearchServer R) calls).posting t d).isSome =
        true := by
      change ((run calls : SearchServer R).posting t d).isSome = true
      rw [hp]
      rfl
    rcases posting_runFrom_origin _ WF_empty calls t d hsome with h1 | h1
    · simp [SearchServer.posting, lookup2, SearchServer.empty, mapFind] at h1
    · exact absurd h1 h

theorem addedIds_append (xs ys : List Call) :
    addedIds (xs ++ ys) = addedIds xs ++ addedIds ys := by
  induction xs with
  | nil => rfl
  | cons c xs ih => cases c <;> simp [addedIds, ih]

theorem posting_runFrom_of_not_added (s : SearchServer R) (hs : s.WF) (calls : List Call)
    (t : Str) (d : Int) (h : d ∉ addedIds calls) :
    (runFrom s calls).posting t d = s.posting t d := by
  induction calls generalizing s with
  | nil => rfl
  | cons c calls ih =>
    cases c with
    | setStopWords text => exact ih (s.SetStopWords text) (WF_SetStopWords s hs text) h
    | addDocument document_id document status ratings =>
      simp only [addedIds, List.mem_cons, not_or] at h
      have h1 := ih (s.AddDocument document_id document status ratings)
        (WF_AddDocument s hs _ _ _ _) h.2
      change (runFrom (s.AddDocument document_id document status ratings) calls).posting t d = _
      rw [h1, posting_AddDocument s hs]
      simp [h.1]

/-- With distinct ids the posting of a document is the share of the term among the words
indexed by its `AddDocument` call. -/
theorem posting_run_of_unique (pre post : List Call) (d : Int) (text : Str)
    (status : DocumentStatus) (ratings : List Int) (hpre : d ∉ addedIds pre)
    (hpost : d ∉ addedIds post) (t : Str) :
    (run (pre ++ Call.addDocument d text status ratings :: post) : SearchServer R).posting t d =
      if t ∈ (run pre : SearchServer R).SplitIntoWordsNoStop text then
        some ((((run pre : SearchServer R).SplitIntoWordsNoStop text).count t : R) /
          (((run pre : SearchServer R).SplitIntoWordsNoStop text).length : R))
      else none := by
  rw [run_append]
  change (runFrom ((run pre : SearchServer R).AddDocument d text status ratings) post).posting
    t d = _
  rw [posting_runFrom_of_not_added _ (WF_AddDocument _ (WF_run pre) _ _ _ _) post t d hpost,
    posting_AddDocument _ (WF_run pre), posting_run_fresh pre t d hpre]
  by_cases hmem : t ∈ (run pre : SearchServer R).SplitIntoWordsNoStop text
  · simp only [hmem, and_self, if_true, Option.getD_none, zero_add, Option.some.injEq]
    ring
  · simp [hmem]

/-- The ids `FindTopDocuments` returns: as many of the matching ids as the cap of 5 allows,
each once. -/
theorem FindTopDocuments_ids (sort : SortFn (Document R)) (hsort : StdSort sort) (ln : R → R)
    (s : SearchServer R) (hs : s.WF) (raw_query : Str)
    (predicate : Int → DocumentStatus → Int → Bool) (result : List (Document R))
    (hres : s.FindTopDocuments sort ln raw_query predicate = some result) :
    result.length = min 5 (s.matchingIds (s.ParseQuery raw_query) predicate).length ∧
    (result.map Document.id).Nodup ∧
    (∀ d ∈ result.map Document.id, d ∈ s.matchingIds (s.ParseQuery raw_query) predicate) ∧
    ((s.matchingIds (s.ParseQuery raw_query) predicate).length ≤ 5 →
      ∀ d ∈ s.matchingIds (s.ParseQuery raw_query) predicate, d ∈ result.map Document.id) := by
  obtain ⟨rel, htop, hsorted, hfind⟩ := FindTopDocuments_spec sort ln s hs raw_query predicate
  have hids := candidates_eq_matchingIds s hs _ ln predicate rel hsorted hfind
  rw [htop] at hres
  have hr := (Option.some.inj hres).symm
  have hperm := (hsort documentLess (rel.map s.asDocument)).1
  have hpermid : ((sort documentLess (rel.map s.asDocument)).map Document.id).Perm
      (s.matchingIds (s.ParseQuery raw_query) predicate) := by
    rw [← hids, ← map_id_asDocument]
    exact hperm.map _
  have hnodup : (s.matchingIds (s.ParseQuery raw_query) predicate).Nodup := by
    rw [← hids]
    exact hsorted.imp (fun h => ne_of_lt h)
  refine ⟨?_, ?_, ?_, ?_⟩
  · rw [hr, List.length_take, ← hpermid.length_eq, List.length_map]
    rfl
  · rw [hr, List.map_take]
    exact (hpermid.nodup_iff.mpr hnodup).sublist (List.take_sublist _ _)
  · intro d hd
    rw [hr, List.map_take] at hd
    exact hpermid.subset ((List.take_sublist _ _).subset hd)
  · intro hle d hd
    rw [hr, List.take_of_length_le]
    · exact hpermid.symm.subset hd
    · rw [← List.length_map (sort documentLess (rel.map s.asDocument)) Document.id,
        hpermid.length_eq]
      exact hle

/-- C4. With exact real arithmetic, in every state reached by adding documents with pairwise
distinct ids, for every raw query and predicate, and whatever the library `sort` is among the
functions that meet `StdSort`, `FindTopDocuments` returns a list in which the relevance of
each document `d` is the sum, over the plus-words `t` of the parsed query (a duplicate-free
list) that have a posting for `d`, of the term frequency of `t` in `d` times `ln (N / df t)`,
with `N` the number of documents added and `df t` the number of documents with a posting for
`t`. When every such plus-word has a posting for every added document, the relevance is 0.
The term frequency is the value of the posting, which is the number of occurrences of `t`
among the words indexed for `d` divided by their number. The documents returned are matching
documents, each once, as many as the cap of 5 allows: all of them when there are at most 5. -/
theorem C4_relevance_formula (sort : SortFn (Document ℝ)) (hsort : StdSort sort)
    (calls : List Call) (hids : (addedIds calls).Nodup)
    (raw_query : Str) (predicate : Int → DocumentStatus → Int → Bool) :
    ∃ result, (run calls : SearchServer ℝ).FindTopDocuments sort Real.log raw_query predicate =
        some result ∧
      ((run calls : SearchServer ℝ).ParseQuery raw_query).plus_words.Nodup ∧
      (∀ doc ∈ result,
        doc.relevance =
          ((((run calls : SearchServer ℝ).ParseQuery raw_query).plus_words.filter
            (fun t => ((run calls : SearchServer ℝ).posting t doc.id).isSome)).map
            (fun t => ((run calls : SearchServer ℝ).posting t doc.id).getD 0 *
              Real.log (((addedIds calls).length : ℝ) /
                ((run calls : SearchServer ℝ).df t : ℝ)))).sum ∧
        ((∀ t ∈ ((run calls : SearchServer ℝ).ParseQuery raw_query).plus_words,
            ((run calls : SearchServer ℝ).posting t doc.id).isSome = true →
              (run calls : SearchServer ℝ).df t = (addedIds calls).length) →
          doc.relevance = 0) ∧
        (∀ pre post text status ratings t,
          calls = pre ++ Call.addDocument doc.id text status ratings :: post →
          t ∈ (run pre : SearchServer ℝ).SplitIntoWordsNoStop text →
          (run calls : SearchServer ℝ).posting t doc.id =
            some ((((run pre : SearchServer ℝ).SplitIntoWordsNoStop text).count t : ℝ) /
              (((run pre : SearchServer ℝ).SplitIntoWordsNoStop text).length : ℝ)))) ∧
      result.length = min 5 ((run calls : SearchServer ℝ).matchingIds
        ((run calls : SearchServer ℝ).ParseQuery raw_query) predicate).length ∧
      (result.map Document.id).Nodup ∧
      (∀ d ∈ result.map Document.id, d ∈ (run calls : SearchServer ℝ).matchingIds
        ((run calls : SearchServer ℝ).ParseQuery raw_query) predicate) ∧
      (((run calls : SearchServer ℝ).matchingIds
          ((run calls : SearchServer ℝ).ParseQuery raw_query) predicate).length ≤ 5 →
        ∀ d ∈ (run calls : SearchServer ℝ).matchingIds
          ((run calls : SearchServer ℝ).ParseQuery raw_query) predicate,
          d ∈ result.map Document.id) := by
  obtain ⟨rel, htop, hsorted, hfind⟩ :=
    FindTopDocuments_spec sort Real.log (run calls : SearchServer ℝ) (WF_run calls) raw_query
      predicate
  have hrel : ∀ doc ∈ (sort documentLess
      (rel.map (run calls : SearchServer ℝ).asDocument)).take MAX_RESULT_DOCUMENT_COUNT,
      doc.relevance =
        ((((run calls : SearchServer ℝ).ParseQuery raw_query).plus_words.filter
          (fun t => ((run calls : SearchServer ℝ).posting t doc.id).isSome)).map
          (fun t => ((run calls : SearchServer ℝ).posting t doc.id).getD 0 *
            Real.log (((addedIds calls).length : ℝ) /
              ((run calls : SearchServer ℝ).df t : ℝ)))).sum := by
    intro doc hdoc
    obtain ⟨p, hp, hpd⟩ := List.mem_map.mp (take_sort_subset sort hsort _ _ _ hdoc)
    have hkey := mapFind_of_mem rel hsorted p.1 p.2 hp
    rw [hfind p.1] at hkey
    split_ifs at hkey with hc
    simp only [Option.some.injEq] at hkey
    rw [termScore_sum_eq, document_count_run] at hkey
    rw [← hpd]
    simpa [SearchServer.asDocument] using hkey.symm
  obtain ⟨h1, h2, h3, h4⟩ := FindTopDocuments_ids sort hsort Real.log
    (run calls : SearchServer ℝ) (WF_run calls) raw_query predicate _ htop
  refine ⟨_, htop, ((ParseQuery_sorted _ raw_query).1.imp (fun h => ne_of_lt h)), ?_, h1, h2,
    h3, h4⟩
  intro doc hdoc
  refine ⟨hrel doc hdoc, ?_, ?_⟩
  · intro hall
    rw [hrel doc hdoc]
    apply List.sum_eq_zero
    intro x hx
    obtain ⟨t, ht, rfl⟩ := List.mem_map.mp hx
    obtain ⟨htplus, htpost⟩ := List.mem_filter.mp ht
    rw [hall t htplus htpost]
    rcases eq_or_ne ((addedIds calls).length : ℝ) 0 with h0 | h0
    · simp [h0]
    · simp [div_self h0]
  · intro pre post text status ratings t hcalls ht
    subst hcalls
    rw [addedIds_append, List.nodup_append] at hids
    have hpost : doc.id ∉ addedIds post := (List.nodup_cons.mp hids.2.1).1
    have hpre : doc.id ∉ addedIds pre := fun h => hids.2.2 h (List.mem_cons_self _ _)
    rw [posting_run_of_unique pre post doc.id text status ratings hpre hpost, if_pos ht]

theorem rating_candidates :
    FindAllDocuments Real.log (run ratingCalls : SearchServer ℝ)
      ((run ratingCalls : SearchServer ℝ).ParseQuery "box".toList)
      (fun _ new_status _ => decide (new_status = DocumentStatus.ACTUAL)) =
      some [⟨10, 0, 2⟩, ⟨20, 0, 4⟩, ⟨30, 0, -1⟩] := by
  obtain ⟨rel, hall, -, -⟩ := FindAllDocuments_spec Real.log (run ratingCalls : SearchServer ℝ)
    (WF_run ratingCalls) ((run ratingCalls : SearchServer ℝ).ParseQuery "box".toList)
    (fun _ new_status _ => decide (new_status = DocumentStatus.ACTUAL))
  have hz := relevance_zero_of_idf_zero Real.log (run ratingCalls : SearchServer ℝ)
    (WF_run ratingCalls) _ _ _ hall (by
      intro t ht
      have hplus : ((run ratingCalls : SearchServer ℝ).ParseQuery "box".toList).plus_words =
          ["box".toList] := rfl
      rw [hplus, List.mem_singleton] at ht
      subst ht
      have hdf : (run ratingCalls : SearchServer ℝ).df "box".toList = 3 := rfl
      have hcount : (run ratingCalls : SearchServer ℝ).document_count_ = 3 := rfl
      unfold SearchServer.ComputeIDF
      rw [hdf, hcount]
      norm_num)
  have hid : (FindAllDocuments Real.log (run ratingCalls : SearchServer ℝ)
      ((run ratingCalls : SearchServer ℝ).ParseQuery "box".toList)
      (fun _ new_status _ => decide (new_status = DocumentStatus.ACTUAL))).map
      (fun l => l.map Document.id) = some [10, 20, 30] := rfl
  have hrating : (FindAllDocuments Real.log (run ratingCalls : SearchServer ℝ)
      ((run ratingCalls : SearchServer ℝ).ParseQuery "box".toList)
      (fun _ new_status _ => decide (new_status = DocumentStatus.ACTUAL))).map
      (fun l => l.map Document.rating) = some [2, 4, -1] := rfl
  rw [hall] at hid hrating ⊢
  simp only [Option.map_some', Option.some.injEq] at hid hrating
  have h := eq_of_relevance_zero _ hz
  rw [hid, hrating] at h
  rw [h]
  rfl

/-- What every `sort` that meets `StdSort` makes of the three candidates of the test
`TestRating`: they have the same relevance and the ratings 2, 4, -1. -/
theorem rating_sorted (sort : SortFn (Document ℝ)) (hsort : StdSort sort) :
    sort documentLess [⟨10, 0, 2⟩, ⟨20, 0, 4⟩, ⟨30, 0, -1⟩] =
      [⟨20, 0, 4⟩, ⟨10, 0, 2⟩, ⟨30, 0, -1⟩] := by
  apply sort_eq_of_strict sort hsort
  · apply documentLess_swo_of_near
    apply nearTies_of_const _ 0
    intro a ha
    simp only [List.mem_cons, List.mem_singleton, List.not_mem_nil, or_false] at ha
    rcases ha with rfl | rfl | rfl <;> rfl
  · exact List.Perm.swap _ _ _
  · norm_num [SearchServer.documentLess]

theorem rating_result (sort : SortFn (Document ℝ)) (hsort : StdSort sort) :
    (run ratingCalls : SearchServer ℝ).FindTopDocumentsDefault sort Real.log "box".toList =
      some [⟨20, 0, 4⟩, ⟨10, 0, 2⟩, ⟨30, 0, -1⟩] := by
  show (run ratingCalls : SearchServer ℝ).FindTopDocuments sort Real.log "box".toList
    (fun _ new_status _ => decide (new_status = DocumentStatus.ACTUAL)) = _
  rw [FindTopDocuments_eq, rating_candidates, Option.map_some', rating_sorted sort hsort]
  rfl

/-- C4, on the test `OversimplifiedRelevanceCalculation`: the three documents have distinct
ids and all hold `box`, so the query `box` returns the three of them, each with the relevance
`log(3/3) * 0.25 = 0`, whatever the library `sort` does. And on the documents of the test
`MinusWordsAreNotParsed`: the query `cat` returns the documents 1 and 2, which hold `cat`
once among 3 and among 4 words, with the relevances `1/3 * ln (3/2)` and `1/4 * ln (3/2)`. -/
theorem C4_relevance_formula_witness :
    StdSort (insertionSort : SortFn (Document ℝ)) ∧
    (addedIds ratingCalls).Nodup ∧
    (∀ sort : SortFn (Document ℝ), StdSort sort →
      (run ratingCalls : SearchServer ℝ).FindTopDocumentsDefault sort Real.log "box".toList =
        some [⟨20, 0, 4⟩, ⟨10, 0, 2⟩, ⟨30, 0, -1⟩]) ∧
    Real.log (3 / 3) * 0.25 = 0 ∧
    (∃ result, (run ratingCalls : SearchServer ℝ).FindTopDocumentsDefault insertionSort
        Real.log "box".toList = some result ∧
      result.length = 3 ∧ ∀ doc ∈ result, doc.relevance = 0) ∧
    (addedIds minusWordsCalls).Nodup ∧
    ∃ result, (run minusWordsCalls : SearchServer ℝ).FindTopDocumentsDefault insertionSort
        Real.log "cat".toList = some result ∧
      result.length = 2 ∧
      (1 : Int) ∈ result.map Document.id ∧ (2 : Int) ∈ result.map Document.id ∧
      ∀ doc ∈ result,
        (doc.id = 1 → doc.relevance = 1 / 3 * Real.log (3 / 2)) ∧
        (doc.id = 2 → doc.relevance = 1 / 4 * Real.log (3 / 2)) := by
  refine ⟨insertionSort_StdSort, by decide, rating_result, by norm_num, ?_, by decide, ?_⟩
  · obtain ⟨result, hres, -, h, hlen, -⟩ := C4_relevance_formula insertionSort
      insertionSort_StdSort ratingCalls (by decide) "box".toList
      (fun _ new_status _ => decide (new_status = DocumentStatus.ACTUAL))
    refine ⟨result, hres, ?_, ?_⟩
    · rw [hlen]
      rfl
    · intro doc hdoc
      apply (h doc hdoc).2.1
      intro t ht _
      have hplus : ((run ratingCalls : SearchServer ℝ).ParseQuery "box".toList).plus_words =
          ["box".toList] := by rfl
      rw [hplus, List.mem_singleton] at ht
      subst ht
      rfl
  · obtain ⟨result, hres, -, h, hlen, -, -, hall⟩ := C4_relevance_formula insertionSort
      insertionSort_StdSort minusWordsCalls (by decide) "cat".toList
      (fun _ new_status _ => decide (new_status = DocumentStatus.ACTUAL))
    have hm : (run minusWordsCalls : SearchServer ℝ).matchingIds
        ((run minusWordsCalls : SearchServer ℝ).ParseQuery "cat".toList)
        (fun _ new_status _ => decide (new_status = DocumentStatus.ACTUAL)) = [1, 2] := rfl
    rw [hm] at hlen hall
    have hplus : ((run minusWordsCalls : SearchServer ℝ).ParseQuery "cat".toList).plus_words =
        ["cat".toList] := rfl
    have hdf : (run minusWordsCalls : SearchServer ℝ).df "cat".toList = 2 := rfl
    have hn : (addedIds minusWordsCalls).length = 3 := rfl
    refine ⟨result, hres, hlen, hall (by decide) 1 (by decide), hall (by decide) 2 (by decide),
      ?_⟩
    intro doc hdoc
    obtain ⟨hrel, -, hpost⟩ := h doc hdoc
    rw [hplus, hn] at hrel
    constructor
    · intro hid
      have hp := hpost [] [Call.addDocument 2 " white cat in box".toList DocumentStatus.ACTUAL
          [2, 3, 8], Call.addDocument 3 "dog sleep in box".toList DocumentStatus.ACTUAL
          [-6, 3, 0]] "cat the city".toList DocumentStatus.ACTUAL [1, 2, 3] "cat".toList
        (by rw [hid]; rfl) (by decide)
      have hc : ((run [] : SearchServer ℝ).SplitIntoWordsNoStop "cat the city".toList).count
          "cat".toList = 1 := by decide
      have hl : ((run [] : SearchServer ℝ).SplitIntoWordsNoStop "cat the city".toList).length
          = 3 := by decide
      rw [hc, hl] at hp
      rw [hrel]
      simp only [List.filter_cons, List.filter_nil, hp, Option.isSome_some, if_true,
        List.map_cons, List.map_nil, List.sum_cons, List.sum_nil, Option.getD_some, hdf]
      norm_num
    · intro hid
      have hp := hpost [Call.addDocument 1 "cat the city".toList DocumentStatus.ACTUAL
          [1, 2, 3]] [Call.addDocument 3 "dog sleep in box".toList DocumentStatus.ACTUAL
          [-6, 3, 0]] " white cat in box".toList DocumentStatus.ACTUAL [2, 3, 8] "cat".toList
        (by rw [hid]; rfl) (by decide)
      have hc : ((run [Call.addDocument 1 "cat the city".toList DocumentStatus.ACTUAL
          [1, 2, 3]] : SearchServer ℝ).SplitIntoWordsNoStop " white cat in box".toList).count
          "cat".toList = 1 := by decide
      have hl : ((run [Call.addDocument 1 "cat the city".toList DocumentStatus.ACTUAL
          [1, 2, 3]] : SearchServer ℝ).SplitIntoWordsNoStop " white cat in box".toList).length
          = 4 := by decide
      rw [hc, hl] at hp
      rw [hrel]
      simp only [List.filter_cons, List.filter_nil, hp, Option.isSome_some, if_true,
        List.map_cons, List.map_nil, List.sum_cons, List.sum_nil, Option.getD_some, hdf]
      norm_num

theorem wrapInt_of_inRange (x : Int) (h1 : -2147483648 ≤ x) (h2 : x < 2147483648) :
    wrapInt x = x := by
  unfold wrapInt
  rw [Int.emod_eq_of_lt (by omega) (by omega)]
  omega

theorem foldl_wrapInt (ratings : List Int) (acc : Int) (h : sumsInRange acc ratings = true) :
    ratings.foldl (fun acc x => wrapInt (acc + x)) acc = acc + ratings.sum := by
  induction ratings generalizing acc with
  | nil => simp
  | cons x xs ih =>
    simp only [sumsInRange, Bool.and_eq_true, decide_eq_true_eq] at h
    rw [List.foldl_cons, wrapInt_of_inRange _ h.1.1 h.1.2, ih _ h.2, List.sum_cons]
    ring

theorem ComputeAverageRating_eq (ratings : List Int) (hsum : sumsInRange 0 ratings = true)
    (hlen : ratings.length < 2147483648) :
    ComputeAverageRating ratings =
      if ratings = [] then 0 else Int.tdiv ratings.sum (ratings.length : Int) := by
  unfold SearchServer.ComputeAverageRating
  cases ratings with
  | nil => rfl
  | cons x xs =>
    have hl : wrapInt (((x :: xs).length : Nat) : Int) = (((x :: xs).length : Nat) : Int) :=
      wrapInt_of_inRange _ (by omega) (by omega)
    simp only [List.isEmpty_cons, Bool.false_eq_true, if_false, reduceCtorEq]
    rw [foldl_wrapInt _ _ hsum, hl, zero_add]

theorem documents_run_of_added (calls : List Call) (d : Int) (h : d ∈ addedIds calls) :
    (mapFind (run calls : SearchServer R).documents_ d).isSome = true := by
  induction calls using List.reverseRecOn with
  | nil => simp [addedIds] at h
  | append_singleton calls c ih =>
    rw [run_append]
    by_cases hd : d ∈ addedIds calls
    · obtain ⟨data, hdata⟩ := Option.isSome_iff_exists.mp (ih hd)
      rw [documents_runFrom_of_some _ (WF_run calls) [c] d data hdata]
      rfl
    · cases c with
      | setStopWords text =>
        exfalso
        apply hd
        have : addedIds (calls ++ [Call.setStopWords text]) = addedIds calls := by
          clear h hd ih
          induction calls with
          | nil => rfl
          | cons c calls ih => cases c <;> simp [addedIds, ih]
        rwa [this] at h
      | addDocument document_id document status ratings =>
        have hnew : addedIds (calls ++ [Call.addDocument document_id document status ratings]) =
            addedIds calls ++ [document_id] := by
          clear h hd ih
          induction calls with
          | nil => rfl
          | cons c calls ih => cases c <;> simp [addedIds, ih]
        rw [hnew, List.mem_append, List.mem_singleton] at h
        rcases h with h | h
        · exact absurd h hd
        · subst h
          show (mapFind ((run calls : SearchServer R).AddDocument d document status
            ratings).documents_ d).isSome = true
          rw [documents_AddDocument _ (WF_run calls)]
          simp

theorem documents_run_fresh (calls : List Call) (d : Int) (h : d ∉ addedIds calls) :
    mapFind (run calls : SearchServer R).documents_ d = none := by
  cases hd : mapFind (run calls : SearchServer R).documents_ d with
  | none => rfl
  | some data =>
    obtain ⟨document, status, ratings, hmem, -⟩ := documents_run_origin calls d data hd
    exfalso
    apply h
    clear hd h
    induction calls with
    | nil => simp at hmem
    | cons c calls ih =>
      rcases List.mem_cons.mp hmem with heq | hmem'
      · subst heq
        simp [addedIds]
      · cases c with
        | setStopWords text => exact ih hmem'
        | addDocument document_id document status ratings =>
          exact List.mem_cons_of_mem _ (ih hmem')

/-- Every document returned by `FindTopDocuments` in a well-formed state has metadata, carries
the stored rating, and is accepted by the predicate. -/
theorem FindTopDocuments_mem (sort : SortFn (Document R)) (hsort : StdSort sort) 
    (ln : R → R) (s : SearchServer R) (hs : s.WF) (raw_query : Str)
    (predicate : Int → DocumentStatus → Int → Bool) :
    ∃ result, s.FindTopDocuments sort ln raw_query predicate = some result ∧
      ∀ doc ∈ result, ∃ data, mapFind s.documents_ doc.id = some data ∧
        doc.rating = data.rating ∧ predicate doc.id data.status data.rating = true := by
  obtain ⟨rel, htop, hsorted, hfind⟩ := FindTopDocuments_spec sort ln s hs raw_query predicate
  refine ⟨_, htop, ?_⟩
  intro doc hdoc
  obtain ⟨p, hp, hpd⟩ := List.mem_map.mp (take_sort_subset sort hsort _ _ _ hdoc)
  have hmem : p.1 ∈ rel.map Prod.fst := List.mem_map.mpr ⟨p, hp, rfl⟩
  obtain ⟨-, ⟨data, hdata, hpred⟩, -⟩ :=
    (mem_candidates_iff s (s.ParseQuery raw_query) ln predicate rel hfind p.1).mp hmem
  refine ⟨data, ?_, ?_, ?_⟩
  · rw [← hpd]
    exact hdata
  · rw [← hpd]
    exact ratingOf_eq _ _ _ hdata
  · rw [← hpd]
    exact hpred

/-- C7 (amended). For every list of ratings whose partial sums stay in the range of a 32-bit
`int` (and whose length does), `ComputeAverageRating` is 0 when the list is empty and
otherwise the sum of the ratings divided by their count, the quotient truncated toward zero;
this is the rating `AddDocument` stores for an id not added before, and the rating carried by
every `Document` with that id that `FindTopDocuments` returns in any later state, whatever
the library `sort` is among the functions that meet `StdSort`. -/
theorem C7_average_rating (sort : SortFn (Document R)) (hsort : StdSort sort) 
    (ln : R → R) (ratings : List Int)
    (hsum : sumsInRange 0 ratings = true) (hlen : ratings.length < 2147483648)
    (calls : List Call) (document_id : Int) (document : Str) (status : DocumentStatus)
    (hfresh : document_id ∉ addedIds calls) :
    ComputeAverageRating ratings =
      (if ratings = [] then 0 else Int.tdiv ratings.sum (ratings.length : Int)) ∧
    mapFind ((run calls : SearchServer R).AddDocument document_id document status
        ratings).documents_ document_id =
      some { rating := if ratings = [] then 0 else Int.tdiv ratings.sum (ratings.length : Int),
             status := status } ∧
    ∀ (later : List Call) (raw_query : Str) (predicate : Int → DocumentStatus → Int → Bool),
      ∃ result,
        (run (calls ++ Call.addDocument document_id document status ratings :: later) :
          SearchServer R).FindTopDocuments sort ln raw_query predicate = some result ∧
        ∀ doc ∈ result, doc.id = document_id →
          doc.rating = if ratings = [] then 0 else Int.tdiv ratings.sum (ratings.length : Int) := by
  have havg := ComputeAverageRating_eq ratings hsum hlen
  have hstored : mapFind ((run calls : SearchServer R).AddDocument document_id document status
      ratings).documents_ document_id =
      some { rating := if ratings = [] then 0 else Int.tdiv ratings.sum (ratings.length : Int),
             status := status } := by
    rw [documents_AddDocument _ (WF_run calls), documents_run_fresh calls _ hfresh, havg]
    simp
  refine ⟨havg, hstored, ?_⟩
  intro later raw_query predicate
  obtain ⟨result, hres, hmem⟩ := FindTopDocuments_mem sort hsort ln
    (run (calls ++ Call.addDocument document_id document status ratings :: later) :
      SearchServer R) (WF_run _) raw_query predicate
  refine ⟨result, hres, ?_⟩
  intro doc hdoc hid
  obtain ⟨data, hdata, hrating, -⟩ := hmem doc hdoc
  have hlater := documents_runFrom_of_some _
    (WF_AddDocument _ (WF_run (R := R) calls) document_id document status ratings) later
    document_id _ hstored
  rw [run_append, hid] at hdata
  change mapFind (runFrom ((run calls : SearchServer R).AddDocument document_id document status
    ratings) later).documents_ document_id = some data at hdata
  rw [hlater] at hdata
  rw [hrating, ← Option.some.inj hdata]

/-- C7, on the ratings of the tests: `{2, 3, 7}` gives 4, `{1, 2, 3}` gives 2,
`{-6, 3, 0}` gives -1 and the empty list gives 0. -/
theorem C7_average_rating_witness :
    StdSort (insertionSort : SortFn (Document ℚ)) ∧
    sumsInRange 0 [-6, 3, 0] = true ∧
    ComputeAverageRating [-6, 3, 0] = -1 ∧
    ComputeAverageRating [2, 3, 7] = 4 ∧
    ComputeAverageRating [1, 2, 3] = 2 ∧
    ComputeAverageRating [] = 0 ∧
    mapFind ((run [Call.addDocument 10 "rat in the box".toList DocumentStatus.ACTUAL
        [1, 2, 3]] : SearchServer ℚ).AddDocument 30 "dog sleep in box".toList
          DocumentStatus.ACTUAL [-6, 3, 0]).documents_ 30 =
      some { rating := -1, status := DocumentStatus.ACTUAL } := by
  have h := C7_average_rating (R := ℚ) insertionSort insertionSort_StdSort (fun x => x)
    [-6, 3, 0] (by decide) (by decide)
    [Call.addDocument 10 "rat in the box".toList DocumentStatus.ACTUAL [1, 2, 3]] 30
    "dog sleep in box".toList DocumentStatus.ACTUAL (by decide)
  refine ⟨insertionSort_StdSort, by decide, ?_, by decide, by decide, by decide, ?_⟩
  · rw [h.1]
    decide
  · rw [h.2.1]
    decide

/-- C7 as stated fails in two cases. When the sum of the ratings leaves the range of `int`:
for the ratings `{2147483647, 1}` the sum kept by `accumulate` wraps to -2147483648 and the
stored rating is -1073741824, not the truncated quotient 1073741824 of the sum by the count.
And when the id was added before: `emplace` keeps the first metadata, so after
`AddDocument(1, "cat", {1})` the call `AddDocument(1, "cat", {5})` stores no rating and the
document is still returned with the rating 1, whatever the library `sort` does. -/
theorem C7_counterexample :
    ComputeAverageRating [2147483647, 1] = -1073741824 ∧
    Int.tdiv ([2147483647, 1] : List Int).sum 2 = 1073741824 ∧
    mapFind ((SearchServer.empty : SearchServer ℝ).AddDocument 1 "cat".toList
        DocumentStatus.ACTUAL [2147483647, 1]).documents_ 1 =
      some { rating := -1073741824, status := DocumentStatus.ACTUAL } ∧
    mapFind ((run [Call.addDocument 1 "cat".toList DocumentStatus.ACTUAL [1]] :
        SearchServer ℝ).AddDocument 1 "cat".toList DocumentStatus.ACTUAL [5]).documents_ 1 =
      some { rating := 1, status := DocumentStatus.ACTUAL } ∧
    ∀ sort : SortFn (Document ℝ), StdSort sort →
      ((run [Call.addDocument 1 "cat".toList DocumentStatus.ACTUAL [1],
          Call.addDocument 1 "cat".toList DocumentStatus.ACTUAL [5]] :
          SearchServer ℝ).FindTopDocumentsDefault sort Real.log "cat".toList).map
        (fun l => l.map Document.rating) = some [1] := by
  refine ⟨by decide, by decide, rfl, rfl, ?_⟩
  intro sort hsort
  exact FindTopDocuments_map_of_one sort hsort Document.rating _ _ _ _ 1 rfl

theorem addDocument_unique (calls : List Call) (hids : (addedIds calls).Nodup) (d : Int)
    (document document' : Str) (status status' : DocumentStatus) (ratings ratings' : List Int)
    (h : Call.addDocument d document status ratings ∈ calls)
    (h' : Call.addDocument d document' status' ratings' ∈ calls) : status' = status := by
  have hmem : ∀ (cs : List Call) (doc : Str) (st : DocumentStatus) (rs : List Int),
      Call.addDocument d doc st rs ∈ cs → d ∈ addedIds cs := by
    intro cs
    induction cs with
    | nil => intro doc st rs hm; simp at hm
    | cons c cs ih =>
      intro doc st rs hm
      rcases List.mem_cons.mp hm with heq | hm'
      · subst heq
        simp [addedIds]
      · cases c with
        | setStopWords text => exact ih doc st rs hm'
        | addDocument document_id document status ratings =>
          exact List.mem_cons_of_mem _ (ih doc st rs hm')
  induction calls with
  | nil => simp at h
  | cons c calls ih =>
    cases c with
    | setStopWords text =>
      simp only [List.mem_cons, reduceCtorEq, false_or] at h h'
      exact ih hids h h'
    | addDocument document_id doc st rs =>
      simp only [addedIds, List.nodup_cons] at hids
      rcases List.mem_cons.mp h with heq | hm
      · rcases List.mem_cons.mp h' with heq' | hm'
        · simp only [Call.addDocument.injEq] at heq heq'
          rw [heq.2.2.1, heq'.2.2.1]
        · simp only [Call.addDocument.injEq] at heq
          exact absurd (hmem calls _ _ _ hm') (heq.1 ▸ hids.1)
      · rcases List.mem_cons.mp h' with heq' | hm'
        · simp only [Call.addDocument.injEq] at heq'
          exact absurd (hmem calls _ _ _ hm) (heq'.1 ▸ hids.1)
        · exact ih hids.2 hm hm'

/-- C8. In every state built by calls that add documents with pairwise distinct ids, for
every raw query and status `st`, and whatever the library `sort` is among the functions that
meet `StdSort`, `FindTopDocuments(query, st)` returns a list in which every
document was added with the status `st` (there is an `AddDocument` call with its id and the
status `st`, and every `AddDocument` call with its id has the status `st`); and
`FindTopDocuments(query)` with the status omitted is `FindTopDocuments(query, ACTUAL)`. -/
theorem C8_status_filter (sort : SortFn (Document R)) (hsort : StdSort sort) 
    (ln : R → R) (calls : List Call) (hids : (addedIds calls).Nodup)
    (raw_query : Str) (st : DocumentStatus) :
    (∃ result, (run calls : SearchServer R).FindTopDocumentsByStatus sort ln raw_query st =
        some result ∧
      ∀ doc ∈ result,
        (∃ document ratings, Call.addDocument doc.id document st ratings ∈ calls) ∧
        ∀ document status ratings,
          Call.addDocument doc.id document status ratings ∈ calls → status = st) ∧
    (run calls : SearchServer R).FindTopDocumentsDefault sort ln raw_query =
      (run calls : SearchServer R).FindTopDocumentsByStatus sort ln raw_query
        DocumentStatus.ACTUAL := by
  refine ⟨?_, rfl⟩
  obtain ⟨result, hres, hmem⟩ := FindTopDocuments_mem sort hsort ln (run calls : SearchServer R)
    (WF_run calls) raw_query (fun _ new_status _ => decide (new_status = st))
  refine ⟨result, hres, ?_⟩
  intro doc hdoc
  obtain ⟨data, hdata, -, hpred⟩ := hmem doc hdoc
  obtain ⟨document, status, ratings, hcall, hdata'⟩ := documents_run_origin calls _ _ hdata
  have hst : status = st := by
    have : data.status = st := by simpa using hpred
    rw [hdata'] at this
    exact this
  subst hst
  refine ⟨⟨document, ratings, hcall⟩, ?_⟩
  intro document' status' ratings' hcall'
  exact addDocument_unique calls hids doc.id document document' status status' ratings ratings'
    hcall hcall'

/-- C8, on the test `DocumentPredicateIsIgnored`: of the three documents holding `box`, a
query with the status BANNED returns document 30, one with IRRELEVANT document 20 and one with
ACTUAL, or with no status, document 10. -/
theorem C8_status_filter_witness :
    StdSort (insertionSort : SortFn (Document ℝ)) ∧
    (addedIds statusCalls).Nodup ∧
    (∃ result, (run statusCalls : SearchServer ℝ).FindTopDocumentsByStatus insertionSort Real.log
        "box".toList DocumentStatus.BANNED = some result ∧
      result.map Document.id = [30] ∧
      ∀ doc ∈ result, ∃ document ratings,
        Call.addDocument doc.id document DocumentStatus.BANNED ratings ∈ statusCalls) ∧
    ((run statusCalls : SearchServer ℝ).FindTopDocumentsByStatus insertionSort Real.log "box".toList
      DocumentStatus.IRRELEVANT).map (fun l => l.map Document.id) = some [20] ∧
    ((run statusCalls : SearchServer ℝ).FindTopDocumentsDefault insertionSort Real.log
      "box".toList).map
      (fun l => l.map Document.id) = some [10] := by
  obtain ⟨⟨result, hres, h⟩, -⟩ := C8_status_filter (R := ℝ) insertionSort
    insertionSort_StdSort Real.log statusCalls (by decide)
    "box".toList DocumentStatus.BANNED
  refine ⟨insertionSort_StdSort, by decide, ⟨result, hres, ?_, fun doc hdoc => (h doc hdoc).1⟩,
    rfl, rfl⟩
  have hids : ((run statusCalls : SearchServer ℝ).FindTopDocumentsByStatus insertionSort Real.log
      "box".toList DocumentStatus.BANNED).map (fun l => l.map Document.id) = some [30] := rfl
  rw [hres] at hids
  simpa using hids

theorem filter_wordHits (s : SearchServer R) (d : Int) (ts : List Str) :
    ts.filter (wordHits s d) = ts.filter (fun t => (s.posting t d).isSome) := by
  congr 1
  funext t
  exact wordHits_eq s d t

theorem any_wordHits (s : SearchServer R) (d : Int) (ts : List Str) :
    ts.any (wordHits s d) = ts.any (fun t => (s.posting t d).isSome) := by
  congr 1
  funext t
  exact wordHits_eq s d t

/-- C9. In every state reached by `SetStopWords` and `AddDocument` calls, for every raw query
and every id that was added, `MatchDocument(query, id)` returns the status stored for the id
together with a word list that is empty when some minus-word of the parsed query has a posting
for the id, and otherwise holds exactly the plus-words of the parsed query that have a posting
for the id; the list is strictly ascending in the order of strings, so it has no
duplicates. -/
theorem C9_match_document (calls : List Call) (raw_query : Str) (document_id : Int)
    (hadded : document_id ∈ addedIds calls) :
    ∃ data words,
      mapFind (run calls : SearchServer R).documents_ document_id = some data ∧
      (run calls : SearchServer R).MatchDocument raw_query document_id =
        some (words, data.status) ∧
      ((∃ t ∈ ((run calls : SearchServer R).ParseQuery raw_query).minus_words,
          ((run calls : SearchServer R).posting t document_id).isSome = true) →
        words = []) ∧
      ((∀ t ∈ ((run calls : SearchServer R).ParseQuery raw_query).minus_words,
          (run calls : SearchServer R).posting t document_id = none) →
        ∀ t, t ∈ words ↔
          t ∈ ((run calls : SearchServer R).ParseQuery raw_query).plus_words ∧
            ((run calls : SearchServer R).posting t document_id).isSome = true) ∧
      words.Pairwise (· < ·) ∧ words.Nodup := by
  obtain ⟨data, hdata⟩ := Option.isSome_iff_exists.mp
    (documents_run_of_added (R := R) calls document_id hadded)
  have hplus := (ParseQuery_sorted (run calls : SearchServer R) raw_query).1
  have hfilter : (((run calls : SearchServer R).ParseQuery raw_query).plus_words.filter
      (fun t => ((run calls : SearchServer R).posting t document_id).isSome)).Pairwise
      (· < ·) := hplus.sublist (List.filter_sublist _)
  cases hany : ((run calls : SearchServer R).ParseQuery raw_query).minus_words.any
      (fun t => ((run calls : SearchServer R).posting t document_id).isSome) with
  | true =>
    refine ⟨data, [], hdata, ?_, fun _ => rfl, ?_, List.Pairwise.nil, List.nodup_nil⟩
    · simp [SearchServer.MatchDocument, any_wordHits, hany, hdata]
    · intro hnone
      have := (any_posting_false_iff _ _ _).mpr hnone
      rw [hany] at this
      exact Bool.noConfusion this
  | false =>
    refine ⟨data, _, hdata, ?_, ?_, ?_, hfilter, hfilter.imp (fun h => ne_of_lt h)⟩
    · simp [SearchServer.MatchDocument, any_wordHits, filter_wordHits, hany, hdata]
    · rintro ⟨t, ht, hp⟩
      have hnone := (any_posting_false_iff _ _ _).mp hany t ht
      rw [hnone] at hp
      exact Bool.noConfusion hp
    · intro _ t
      exact List.mem_filter

/-- C9, on the test `MatchDocumentAlwaysReturnActualStatus`: document 4 `hello world` and the
query `hello -world` give an empty word list with the status ACTUAL, and the query `cat` gives
the statuses BANNED, IRRELEVANT and ACTUAL for the documents 1, 2 and 3. -/
theorem C9_match_document_witness :
    (4 : Int) ∈ addedIds matchCalls ∧
    (∃ data words,
      mapFind (run matchCalls : SearchServer ℚ).documents_ 4 = some data ∧
      (run matchCalls : SearchServer ℚ).MatchDocument "hello -world".toList 4 =
        some (words, data.status) ∧ words = []) ∧
    (run matchCalls : SearchServer ℚ).MatchDocument "hello -world".toList 4 =
      some ([], DocumentStatus.ACTUAL) ∧
    (run matchCalls : SearchServer ℚ).MatchDocument "cat".toList 1 =
      some (["cat".toList], DocumentStatus.BANNED) ∧
    (run matchCalls : SearchServer ℚ).MatchDocument "cat".toList 2 =
      some (["cat".toList], DocumentStatus.IRRELEVANT) ∧
    (run matchCalls : SearchServer ℚ).MatchDocument "cat".toList 3 =
      some ([], DocumentStatus.ACTUAL) := by
  obtain ⟨data, words, hdata, hmatch, hminus, -⟩ :=
    C9_match_document (R := ℚ) matchCalls "hello -world".toList 4 (by decide)
  refine ⟨by decide, ⟨data, words, hdata, hmatch, hminus ?_⟩, by decide, by decide, by decide,
    by decide⟩
  exact ⟨"world".toList, by decide, by decide⟩

/-- C10 (amended). `AddDocument` does not fail when the token list of the text is empty after
stop-word removal (empty text, spaces only, stop words only): in every reached state it leaves
the term-to-postings map as it was, stores the metadata of an id not added before, and counts
the document, in `document_count_` and in `GetDocumentCount`. -/
theorem C10_empty_document_added (calls : List Call) (document_id : Int) (document : Str)
    (status : DocumentStatus) (ratings : List Int)
    (hempty : (run calls : SearchServer R).SplitIntoWordsNoStop document = [])
    (hfresh : document_id ∉ addedIds calls) :
    ((run calls : SearchServer R).AddDocument document_id document status
        ratings).word_to_document_freqs_ = (run calls : SearchServer R).word_to_document_freqs_ ∧
    mapFind ((run calls : SearchServer R).AddDocument document_id document status
        ratings).documents_ document_id =
      some { rating := ComputeAverageRating ratings, status := status } ∧
    ((run calls : SearchServer R).AddDocument document_id document status
        ratings).document_count_ = (run calls : SearchServer R).document_count_ + 1 ∧
    ((run calls : SearchServer R).AddDocument document_id document status
        ratings).GetDocumentCount = (run calls : SearchServer R).GetDocumentCount + 1 := by
  have hnone := documents_run_fresh (R := R) calls document_id hfresh
  refine ⟨?_, ?_, rfl, ?_⟩
  · simp [SearchServer.AddDocument, hempty]
  · rw [documents_AddDocument _ (WF_run calls), hnone]
    simp
  · have hkeys : (((run calls : SearchServer R).AddDocument document_id document status
        ratings).documents_.map Prod.fst).Perm
        (document_id :: (run calls : SearchServer R).documents_.map Prod.fst) := by
      unfold SearchServer.AddDocument
      simp only
      rw [mapUpdate_keys]
      exact setInsert_perm _ _ ((mapFind_eq_none_iff _ _).mp hnone)
    have hlen := hkeys.length_eq
    simp only [List.length_map, List.length_cons] at hlen
    simp [SearchServer.GetDocumentCount, hlen]

/-- C10, on a text made of stop words only: after `SetStopWords("in the")` the document
`in the` with the id 7 is registered without postings. -/
theorem C10_empty_document_added_witness :
    (run [Call.setStopWords "in the".toList] : SearchServer ℚ).SplitIntoWordsNoStop
      " in  the ".toList = [] ∧
    (7 : Int) ∉ addedIds [Call.setStopWords "in the".toList] ∧
    ((run [Call.setStopWords "in the".toList] : SearchServer ℚ).AddDocument 7
      " in  the ".toList DocumentStatus.ACTUAL [5]).word_to_document_freqs_ = [] ∧
    mapFind ((run [Call.setStopWords "in the".toList] : SearchServer ℚ).AddDocument 7
      " in  the ".toList DocumentStatus.ACTUAL [5]).documents_ 7 =
        some { rating := 5, status := DocumentStatus.ACTUAL } ∧
    ((run [Call.setStopWords "in the".toList] : SearchServer ℚ).AddDocument 7
      " in  the ".toList DocumentStatus.ACTUAL [5]).GetDocumentCount = 1 := by
  have h := C10_empty_document_added (R := ℚ) [Call.setStopWords "in the".toList] 7
    " in  the ".toList DocumentStatus.ACTUAL [5] (by decide) (by decide)
  refine ⟨by decide, by decide, ?_, ?_, ?_⟩
  · rw [h.1]
    rfl
  · rw [h.2.1]
    rfl
  · rw [h.2.2.2]
    rfl

/-- C10 as stated fails: `AddDocument` has no error result. On a fresh server the empty text,
a text of spaces and, after `SetStopWords`, a text of stop words are all registered: the
document gets metadata, is counted, and `MatchDocument` then answers for it. -/
theorem C10_counterexample :
    (SearchServer.empty : SearchServer ℚ).SplitIntoWordsNoStop "".toList = [] ∧
    ((SearchServer.empty : SearchServer ℚ).AddDocument 1 "".toList DocumentStatus.ACTUAL
      [1, 2, 3]).documents_ = [(1, { rating := 2, status := DocumentStatus.ACTUAL })] ∧
    ((SearchServer.empty : SearchServer ℚ).AddDocument 1 "".toList DocumentStatus.ACTUAL
      [1, 2, 3]).document_count_ = 1 ∧
    ((SearchServer.empty : SearchServer ℚ).AddDocument 1 "".toList DocumentStatus.ACTUAL
      [1, 2, 3]).GetDocumentCount = 1 ∧
    ((SearchServer.empty : SearchServer ℚ).AddDocument 1 "".toList DocumentStatus.ACTUAL
      [1, 2, 3]).MatchDocument "cat".toList 1 = some ([], DocumentStatus.ACTUAL) ∧
    ((SearchServer.empty : SearchServer ℚ).AddDocument 2 "   ".toList DocumentStatus.BANNED
      []).documents_ = [(2, { rating := 0, status := DocumentStatus.BANNED })] ∧
    ((run [Call.setStopWords "in the".toList] : SearchServer ℚ).AddDocument 3
      "in the in".toList DocumentStatus.ACTUAL []).documents_ =
        [(3, { rating := 0, status := DocumentStatus.ACTUAL })] := by
  refine ⟨by decide, by decide, by decide, by decide, by decide, by decide, by decide⟩

/-- What the comparison not putting `b` before `a` says of `a` and `b`: when the relevances
differ by at least `1e-6` the relevance of `a` is the greater one, and when they differ by
less the rating of `a` is at least that of `b`. -/
theorem documentLess_false_iff (a b : Document R) :
    documentLess b a = false ↔
      ((1 / 1000000 ≤ |a.relevance - b.relevance| → a.relevance > b.relevance) ∧
       (|a.relevance - b.relevance| < 1 / 1000000 → a.rating ≥ b.rating)) := by
  unfold SearchServer.documentLess
  rw [abs_sub_comm b.relevance a.relevance]
  split_ifs with hc
  · simp only [decide_eq_false_iff_not, not_lt, ge_iff_le, gt_iff_lt]
    constructor
    · intro h
      exact ⟨fun h' => absurd hc (not_lt.mpr h'), fun _ => h⟩
    · intro h
      exact h.2 hc
  · simp only [decide_eq_false_iff_not, not_lt, ge_iff_le, gt_iff_lt]
    have hc' := not_lt.mp hc
    constructor
    · intro h
      refine ⟨fun _ => lt_of_le_of_ne h ?_, fun h' => absurd h' hc⟩
      intro heq
      rw [heq, sub_self, abs_zero] at hc'
      exact absurd hc' (by norm_num)
    · intro h
      exact (h.1 hc').le

/-- The order `RankedOrder` says that no document is put before an earlier one by the
comparison of `FindTopDocuments`. -/
theorem rankedOrder_iff (l : List (Document R)) :
    RankedOrder l ↔ l.Pairwise (fun a b => documentLess b a = false) := by
  rw [List.pairwise_iff_get]
  constructor
  · intro h i j hij
    exact (documentLess_false_iff _ _).mpr (h i.1 j.1 hij j.2)
  · intro h i j hij hj
    exact (documentLess_false_iff _ _).mp (h ⟨i, hij.trans hj⟩ ⟨j, hj⟩ hij)

/-- C3 (amended). In every state reached by `SetStopWords` and `AddDocument` calls, for every
raw query and predicate, and whatever the library `sort` is among the functions that meet
`StdSort`, `FindTopDocuments` returns a list, the first up to 5 elements of the sorted
candidates and as many as there are matching documents up to 5, such that, provided the
comparison of the sort is a strict weak ordering on the candidates of `FindAllDocuments`,
which is to say that the candidates have no chain of near ties that the ratings do not put in
order, and in particular provided the relation of having relevances that differ by less than
`1e-6` is transitive on the candidates, for every two positions `i < j` of the list: when the two
relevances differ by at least `1e-6` the document at `i` has the greater relevance, and when
they differ by less than `1e-6` the document at `i` has a rating greater than or equal to
that of the document at `j`. The proviso cannot be made weaker: when the comparison is not a
strict weak ordering on the candidates, some function that meets `StdSort` makes
`FindTopDocuments` return a list that is not in this order. -/
theorem C3_result_order (sort : SortFn (Document R)) (hsort : StdSort sort) (ln : R → R)
    (calls : List Call) (raw_query : Str) (predicate : Int → DocumentStatus → Int → Bool) :
    ∃ cands result,
      FindAllDocuments ln (run calls : SearchServer R)
        ((run calls : SearchServer R).ParseQuery raw_query) predicate = some cands ∧
      (run calls : SearchServer R).FindTopDocuments sort ln raw_query predicate = some result ∧
      result = (sort documentLess cands).take 5 ∧
      result.length = min 5 ((run calls : SearchServer R).matchingIds
        ((run calls : SearchServer R).ParseQuery raw_query) predicate).length ∧
      (StrictWeakOrderingOn documentLess (fun a => a ∈ cands) → RankedOrder result) ∧
      (NoTieChainOn (fun a => a ∈ cands) → RankedOrder result) ∧
      (NearTiesTransitiveOn (fun a => a ∈ cands) → RankedOrder result) ∧
      (¬ StrictWeakOrderingOn documentLess (fun a => a ∈ cands) →
        ∃ other : SortFn (Document R), StdSort other ∧ ∃ unranked,
          (run calls : SearchServer R).FindTopDocuments other ln raw_query predicate =
            some unranked ∧ ¬ RankedOrder unranked) := by
  obtain ⟨rel, hall, -, -⟩ :=
    FindAllDocuments_spec ln (run calls : SearchServer R) (WF_run calls)
      ((run calls : SearchServer R).ParseQuery raw_query) predicate
  have hswo : StrictWeakOrderingOn documentLess
      (fun a => a ∈ rel.map (run calls : SearchServer R).asDocument) →
      RankedOrder ((sort documentLess (rel.map (run calls : SearchServer R).asDocument)).take
        MAX_RESULT_DOCUMENT_COUNT) := by
    intro h
    rw [rankedOrder_iff]
    exact ((hsort documentLess _).2 h).sublist (List.take_sublist MAX_RESULT_DOCUMENT_COUNT _)
  have htop : ∀ other : SortFn (Document R),
      (run calls : SearchServer R).FindTopDocuments other ln raw_query predicate =
      some ((other documentLess (rel.map (run calls : SearchServer R).asDocument)).take
        MAX_RESULT_DOCUMENT_COUNT) := by
    intro other
    rw [FindTopDocuments_eq, hall]
    rfl
  refine ⟨_, _, hall, htop sort, rfl,
    (FindTopDocuments_ids sort hsort ln _ (WF_run calls) raw_query predicate _ (htop sort)).1,
    hswo, fun h => hswo ((documentLess_swo_iff _).mpr h),
    fun h => hswo (documentLess_swo_of_near _ h), ?_⟩
  intro h
  obtain ⟨other, hother, a, b, rest, heq, hab⟩ :=
    exists_sort_unsorted documentLess documentLess_irrefl _ h
  refine ⟨other, hother, _, htop other, ?_⟩
  rw [rankedOrder_iff, heq]
  intro hp
  have hba : documentLess a b = false :=
    List.rel_of_pairwise_cons hp (List.mem_cons_self a _)
  rw [hab] at hba
  exact Bool.noConfusion hba

end Claims

/-! ## Facts about `SplitIntoWords` -/

section Splitting

theorem foldl_splitStep_word (w : Str) (hw : ' ' ∉ w) (ws : List Str) (cur rest : Str) :
    (w ++ rest).foldl splitStep (ws, cur) = rest.foldl splitStep (ws, cur ++ w) := by
  induction w generalizing cur with
  | nil => simp
  | cons c w ih =>
    have hc : c ≠ ' ' := fun h => hw (h ▸ List.mem_cons_self _ _)
    have hw' : ' ' ∉ w := fun h => hw (List.mem_cons_of_mem _ h)
    rw [List.cons_append, List.foldl_cons]
    have hstep : splitStep (ws, cur) c = (ws, cur ++ [c]) := by simp [splitStep, hc]
    rw [hstep, ih hw']
    simp

theorem foldl_splitStep_repeatWord (w : Str) (hw : ' ' ∉ w) (hne : w ≠ []) (n : Nat)
    (ws : List Str) (rest : Str) :
    (repeatWord w n rest).foldl splitStep (ws, []) =
      rest.foldl splitStep (ws ++ List.replicate n w, []) := by
  induction n generalizing ws with
  | zero => simp [repeatWord]
  | succ n ih =>
    have hstep : splitStep (ws, w) ' ' = (ws ++ [w], []) := by simp [splitStep, hne]
    rw [repeatWord, foldl_splitStep_word w hw, List.foldl_cons, List.nil_append, hstep, ih,
      List.replicate_succ]
    simp

theorem SplitIntoWords_repeatWord (w v : Str) (hw : ' ' ∉ w) (hwne : w ≠ []) (hv : ' ' ∉ v)
    (hvne : v ≠ []) (n m : Nat) :
    SplitIntoWords (repeatWord w n (repeatWord v m [])) =
      List.replicate n w ++ List.replicate m v := by
  unfold SplitIntoWords
  rw [foldl_splitStep_repeatWord w hw hwne, foldl_splitStep_repeatWord v hv hvne]
  simp

end Splitting

/-! ## A state in which relevances differ by less than the tolerance -/

section NearTies

variable {R : Type} [LinearOrderedField R]

open SearchServer

/-- The documents counted by `df` are those with a posting. -/
theorem df_eq_of_keys (s : SearchServer R) (hs : s.WF) (t : Str) (ids : List Int)
    (hids : ids.Pairwise (· < ·)) (hmem : ∀ d, d ∈ ids ↔ (s.posting t d).isSome = true) :
    s.df t = ids.length := by
  unfold SearchServer.df
  have hkeys : ∀ d, d ∈ ((mapFind s.word_to_document_freqs_ t).getD []).map Prod.fst ↔
      (s.posting t d).isSome = true := by
    intro d
    rw [← mapFind_isSome_iff]
    unfold SearchServer.posting lookup2
    cases mapFind s.word_to_document_freqs_ t <;> simp [mapFind]
  have hsorted : (((mapFind s.word_to_document_freqs_ t).getD []).map Prod.fst).Pairwise
      (· < ·) := by
    cases hw : mapFind s.word_to_document_freqs_ t with
    | none => simp
    | some P => exact hs.index.2 t P hw
  have hperm : (((mapFind s.word_to_document_freqs_ t).getD []).map Prod.fst).Perm ids :=
    (List.perm_ext_iff_of_nodup (hsorted.imp (fun h => ne_of_lt h))
      (hids.imp (fun h => ne_of_lt h))).mpr (fun d => (hkeys d).trans (hmem d).symm)
  rw [← hperm.length_eq, List.length_map]

theorem SplitIntoWordsNoStop_of_no_stop (s : SearchServer R) (h : s.stop_words_ = [])
    (text : Str) : s.SplitIntoWordsNoStop text = SplitIntoWords text := by
  unfold SearchServer.SplitIntoWordsNoStop SearchServer.IsStopWord
  rw [h]
  simp

/-- No list is in order under a comparison that puts three of its elements in a cycle. -/
theorem not_pairwise_of_cycle {α : Type} (less : α → α → Bool)
    (hirr : ∀ x, less x x = false) (a b c : α) (hab : less a b = true)
    (hbc : less b c = true) (hca : less c a = true) (l : List α) (ha : a ∈ l) (hb : b ∈ l)
    (hc : c ∈ l) : ¬ l.Pairwise (fun x y => less y x = false) := by
  induction l with
  | nil => simp at ha
  | cons h t ih =>
    intro hp
    obtain ⟨hh, ht⟩ := List.pairwise_cons.mp hp
    have hne : ∀ x y, less x y = true → x ≠ y := by
      intro x y hxy heq
      rw [heq, hirr] at hxy
      exact Bool.noConfusion hxy
    rcases List.mem_cons.mp ha with rfl | ha'
    · rcases List.mem_cons.mp hc with rfl | hc'
      · exact hne _ _ hca rfl
      · rw [hh c hc'] at hca
        exact Bool.noConfusion hca
    · rcases List.mem_cons.mp hb with rfl | hb'
      · rw [hh a ha'] at hab
        exact Bool.noConfusion hab
      · rcases List.mem_cons.mp hc with rfl | hc'
        · rw [hh b hb'] at hbc
          exact Bool.noConfusion hbc
        · exact ih ha' hb' hc' ht

/-- The posting of the word `x` for a document made of `m` words `a` and `k` words `x`. -/
theorem posting_repeatWord (pre post : List Call) (d : Int) (m k : Nat) (hk : 0 < k)
    (status : DocumentStatus) (ratings : List Int)
    (hstop : (run pre : SearchServer R).stop_words_ = []) (hpre : d ∉ addedIds pre)
    (hpost : d ∉ addedIds post) :
    (run (pre ++ Call.addDocument d (repeatWord ['a'] m (repeatWord ['x'] k [])) status
      ratings :: post) : SearchServer R).posting ['x'] d =
        some ((k : R) / ((m + k : Nat) : R)) := by
  rw [posting_run_of_unique pre post d _ status ratings hpre hpost,
    SplitIntoWordsNoStop_of_no_stop _ hstop,
    SplitIntoWords_repeatWord ['a'] ['x'] (by decide) (by decide) (by decide) (by decide)]
  have hmem : ['x'] ∈ List.replicate m ['a'] ++ List.replicate k ['x'] := by
    rw [List.mem_append, List.mem_replicate, List.mem_replicate]
    exact Or.inr ⟨hk.ne', rfl⟩
  have hne : ((['a'] : Str) == ['x']) = false := by decide
  rw [if_pos hmem, List.count_append, List.count_replicate, List.count_replicate_self,
    List.length_append, List.length_replicate, List.length_replicate]
  simp [hne]

theorem nearTie_posting_1 :
    (run nearTieCalls : SearchServer ℝ).posting ['x'] 1 = some (1 / 1000000) := by
  have h := posting_repeatWord (R := ℝ) [] (nearTieCalls.drop 1) 1 999999 1 (by decide)
    DocumentStatus.ACTUAL [3] rfl (by decide) (by decide)
  rw [show (run nearTieCalls : SearchServer ℝ) = run ([] ++ Call.addDocument 1
    (repeatWord ['a'] 999999 (repeatWord ['x'] 1 [])) DocumentStatus.ACTUAL [3] ::
      nearTieCalls.drop 1) from rfl, h]
  norm_num

theorem nearTie_posting_2 :
    (run nearTieCalls : SearchServer ℝ).posting ['x'] 2 = some (3 / 1000000) := by
  have h := posting_repeatWord (R := ℝ) (nearTieCalls.take 1) (nearTieCalls.drop 2) 2 999997 3
    (by decide) DocumentStatus.ACTUAL [2] rfl (by decide) (by decide)
  rw [show (run nearTieCalls : SearchServer ℝ) = run (nearTieCalls.take 1 ++ Call.addDocument 2
    (repeatWord ['a'] 999997 (repeatWord ['x'] 3 [])) DocumentStatus.ACTUAL [2] ::
      nearTieCalls.drop 2) from rfl, h]
  norm_num

theorem nearTie_posting_3 :
    (run nearTieCalls : SearchServer ℝ).posting ['x'] 3 = some (5 / 1000000) := by
  have h := posting_repeatWord (R := ℝ) (nearTieCalls.take 2) (nearTieCalls.drop 3) 3 999995 5
    (by decide) DocumentStatus.ACTUAL [1] rfl (by decide) (by decide)
  rw [show (run nearTieCalls : SearchServer ℝ) = run (nearTieCalls.take 2 ++ Call.addDocument 3
    (repeatWord ['a'] 999995 (repeatWord ['x'] 5 [])) DocumentStatus.ACTUAL [1] ::
      nearTieCalls.drop 3) from rfl, h]
  norm_num

theorem nearTie_posting_4 : (run nearTieCalls : SearchServer ℝ).posting ['x'] 4 = none := by
  have h := posting_run_of_unique (R := ℝ) (nearTieCalls.take 3) [] 4 ['y']
    DocumentStatus.ACTUAL [] (by decide) (by decide) ['x']
  rw [show (run nearTieCalls : SearchServer ℝ) = run (nearTieCalls.take 3 ++
    [Call.addDocument 4 ['y'] DocumentStatus.ACTUAL []]) from rfl, h,
    SplitIntoWordsNoStop_of_no_stop _ rfl]
  have hw : SplitIntoWords ['y'] = [['y']] := by decide
  rw [hw]
  simp

theorem nearTie_posting_iff (d : Int) :
    d ∈ ([1, 2, 3] : List Int) ↔
      ((run nearTieCalls : SearchServer ℝ).posting ['x'] d).isSome = true := by
  by_cases h1 : d = 1
  · simp [h1, nearTie_posting_1]
  by_cases h2 : d = 2
  · simp [h2, nearTie_posting_2]
  by_cases h3 : d = 3
  · simp [h3, nearTie_posting_3]
  by_cases h4 : d = 4
  · simp [h4, nearTie_posting_4]
  have hfresh : d ∉ addedIds nearTieCalls := by
    simp [nearTieCalls, addedIds, h1, h2, h3, h4]
  simp [h1, h2, h3, posting_run_fresh nearTieCalls ['x'] d hfresh]

theorem nearTie_df : (run nearTieCalls : SearchServer ℝ).df ['x'] = 3 :=
  df_eq_of_keys _ (WF_run nearTieCalls) ['x'] [1, 2, 3] (by decide) nearTie_posting_iff

theorem nearTie_query :
    (run nearTieCalls : SearchServer ℝ).ParseQuery ['x'] =
      { plus_words := [['x']], minus_words := [] } := by
  unfold SearchServer.ParseQuery
  rw [SplitIntoWordsNoStop_of_no_stop _ rfl]
  rfl

theorem nearTie_log : (1 : ℝ) / 4 ≤ Real.log (4 / 3) ∧ Real.log (4 / 3) ≤ 1 / 3 := by
  have h1 := Real.one_sub_inv_le_log_of_pos (show (0 : ℝ) < 4 / 3 by norm_num)
  have h2 := Real.log_le_sub_one_of_pos (show (0 : ℝ) < 4 / 3 by norm_num)
  norm_num at h1 h2
  exact ⟨by linarith, by linarith⟩

theorem termScore_of_posting (ln : R → R) (s : SearchServer R) (d : Int) (t : Str) (tf : R)
    (h : s.posting t d = some tf) :
    s.termScore ln d t = ln ((s.document_count_ : R) / ((s.df t : Int) : R)) * tf := by
  unfold SearchServer.termScore SearchServer.ComputeIDF
  rw [h]

theorem nearTie_termScore (d : Int) (tf : ℝ)
    (h : (run nearTieCalls : SearchServer ℝ).posting ['x'] d = some tf) :
    (run nearTieCalls : SearchServer ℝ).termScore Real.log d ['x'] =
      Real.log (4 / 3) * tf := by
  rw [termScore_of_posting Real.log _ d ['x'] tf h, nearTie_df, document_count_run]
  have hn : (addedIds nearTieCalls).length = 4 := rfl
  rw [hn]
  norm_num

theorem nearTie_rating :
    (run nearTieCalls : SearchServer ℝ).ratingOf 1 = 3 ∧
    (run nearTieCalls : SearchServer ℝ).ratingOf 2 = 2 ∧
    (run nearTieCalls : SearchServer ℝ).ratingOf 3 = 1 :=
  ⟨rfl, rfl, rfl⟩

theorem nearTie_accepts (d : Int)
    (h : ((run nearTieCalls : SearchServer ℝ).posting ['x'] d).isSome = true) :
    (run nearTieCalls : SearchServer ℝ).accepts (fun _ _ _ => true) d = true := by
  rw [accepts_iff]
  obtain ⟨data, hdata⟩ := Option.isSome_iff_exists.mp ((WF_run nearTieCalls).known ['x'] d h)
  exact ⟨data, hdata, rfl⟩

theorem nearTie_candidates :
    FindAllDocuments Real.log (run nearTieCalls : SearchServer ℝ)
      ((run nearTieCalls : SearchServer ℝ).ParseQuery ['x']) (fun _ _ _ => true) =
      some [⟨1, Real.log (4 / 3) * (1 / 1000000), 3⟩, ⟨2, Real.log (4 / 3) * (3 / 1000000), 2⟩,
        ⟨3, Real.log (4 / 3) * (5 / 1000000), 1⟩] := by
  obtain ⟨rel, hall, hsorted, hfind⟩ := FindAllDocuments_spec Real.log
    (run nearTieCalls : SearchServer ℝ) (WF_run nearTieCalls)
    ((run nearTieCalls : SearchServer ℝ).ParseQuery ['x']) (fun _ _ _ => true)
  rw [hall]
  rw [nearTie_query] at hfind
  have hfind' : ∀ d, mapFind rel d =
      if d ∈ ([1, 2, 3] : List Int) then
        some ((run nearTieCalls : SearchServer ℝ).termScore Real.log d ['x'])
      else none := by
    intro d
    rw [hfind d]
    by_cases hd : d ∈ ([1, 2, 3] : List Int)
    · have hp := (nearTie_posting_iff d).mp hd
      rw [if_pos hd, if_pos]
      · simp only [List.map_cons, List.map_nil, List.sum_cons, List.sum_nil, add_zero]
      · refine ⟨nearTie_accepts d hp, ?_, rfl⟩
        simp only [List.any_cons, List.any_nil, hp, Bool.or_false]
    · have hp : ¬ ((run nearTieCalls : SearchServer ℝ).posting ['x'] d).isSome = true :=
        fun h => hd ((nearTie_posting_iff d).mpr h)
      rw [if_neg hd, if_neg]
      rintro ⟨-, h, -⟩
      apply hp
      simpa only [List.any_cons, List.any_nil, Bool.or_false] using h
  have hkeys : rel.map Prod.fst = [1, 2, 3] := by
    apply List.eq_of_perm_of_sorted (r := (· < ·)) _ hsorted (by decide)
    apply (List.perm_ext_iff_of_nodup (hsorted.imp (fun h => ne_of_lt h)) (by decide)).mpr
    intro d
    rw [← mapFind_isSome_iff, hfind' d]
    split_ifs with hd <;> simp [hd]
  match rel, hkeys, hfind' with
  | [(i, a), (j, b), (k, c)], hkeys, hfind' =>
    simp only [List.map_cons, List.map_nil, List.cons.injEq, and_true] at hkeys
    obtain ⟨rfl, rfl, rfl⟩ := hkeys
    have h1 := hfind' 1
    have h2 := hfind' 2
    have h3 := hfind' 3
    rw [nearTie_termScore 1 _ nearTie_posting_1] at h1
    rw [nearTie_termScore 2 _ nearTie_posting_2] at h2
    rw [nearTie_termScore 3 _ nearTie_posting_3] at h3
    simp [mapFind] at h1 h2 h3
    subst h1 h2 h3
    simp only [List.map_cons, List.map_nil, SearchServer.asDocument, nearTie_rating.1,
      nearTie_rating.2.1, nearTie_rating.2.2]
    norm_num
  | [], hkeys, _ => simp at hkeys
  | [_], hkeys, _ => simp at hkeys
  | [_, _], hkeys, _ => simp at hkeys
  | _ :: _ :: _ :: _ :: _, hkeys, _ => simp at hkeys

theorem nearTie_cycle :
    documentLess (⟨1, Real.log (4 / 3) * (1 / 1000000), 3⟩ : Document ℝ)
      ⟨2, Real.log (4 / 3) * (3 / 1000000), 2⟩ = true ∧
    documentLess (⟨2, Real.log (4 / 3) * (3 / 1000000), 2⟩ : Document ℝ)
      ⟨3, Real.log (4 / 3) * (5 / 1000000), 1⟩ = true ∧
    documentLess (⟨3, Real.log (4 / 3) * (5 / 1000000), 1⟩ : Document ℝ)
      ⟨1, Real.log (4 / 3) * (1 / 1000000), 3⟩ = true := by
  obtain ⟨h1, h2⟩ := nearTie_log
  refine ⟨?_, ?_, ?_⟩
  · have h : |Real.log (4 / 3) * (1 / 1000000) - Real.log (4 / 3) * (3 / 1000000)| <
        1 / 1000000 := by
      rw [abs_lt]
      constructor <;> linarith
    simp only [SearchServer.documentLess, h, if_true]
    decide
  · have h : |Real.log (4 / 3) * (3 / 1000000) - Real.log (4 / 3) * (5 / 1000000)| <
        1 / 1000000 := by
      rw [abs_lt]
      constructor <;> linarith
    simp only [SearchServer.documentLess, h, if_true]
    decide
  · have h : ¬ |Real.log (4 / 3) * (5 / 1000000) - Real.log (4 / 3) * (1 / 1000000)| <
        1 / 1000000 := by
      rw [not_lt, le_abs]
      left
      linarith
    simp only [SearchServer.documentLess, h, if_false, gt_iff_lt, decide_eq_true_eq]
    linarith

theorem nearTie_accepts_two (d : Int) :
    (run nearTieCalls : SearchServer ℝ).accepts (fun document_id _ _ => decide (document_id ≤ 2))
      d = true ↔ d ∈ addedIds nearTieCalls ∧ d ≤ 2 := by
  rw [accepts_iff]
  constructor
  · rintro ⟨data, hdata, hp⟩
    refine ⟨?_, by simpa using hp⟩
    by_contra hd
    rw [documents_run_fresh nearTieCalls d hd] at hdata
    exact Option.noConfusion hdata
  · rintro ⟨hd, hle⟩
    obtain ⟨data, hdata⟩ := Option.isSome_iff_exists.mp (documents_run_of_added (R := ℝ)
      nearTieCalls d hd)
    exact ⟨data, hdata, by simpa using hle⟩

/-- The candidates for the query `x` among the documents with an id up to 2: their relevances
differ by less than `1e-6` and are not equal. -/
theorem nearTie_candidates_two :
    FindAllDocuments Real.log (run nearTieCalls : SearchServer ℝ)
      ((run nearTieCalls : SearchServer ℝ).ParseQuery ['x'])
      (fun document_id _ _ => decide (document_id ≤ 2)) =
      some [⟨1, Real.log (4 / 3) * (1 / 1000000), 3⟩,
        ⟨2, Real.log (4 / 3) * (3 / 1000000), 2⟩] := by
  obtain ⟨rel, hall, hsorted, hfind⟩ := FindAllDocuments_spec Real.log
    (run nearTieCalls : SearchServer ℝ) (WF_run nearTieCalls)
    ((run nearTieCalls : SearchServer ℝ).ParseQuery ['x'])
    (fun document_id _ _ => decide (document_id ≤ 2))
  rw [hall]
  rw [nearTie_query] at hfind
  have hfind' : ∀ d, mapFind rel d =
      if d ∈ ([1, 2] : List Int) then
        some ((run nearTieCalls : SearchServer ℝ).termScore Real.log d ['x'])
      else none := by
    intro d
    rw [hfind d]
    by_cases hd : d ∈ ([1, 2] : List Int)
    · have hd3 : d ∈ ([1, 2, 3] : List Int) := by
        simp only [List.mem_cons, List.mem_singleton, List.not_mem_nil, or_false] at hd ⊢
        rcases hd with h | h
        · exact Or.inl h
        · exact Or.inr (Or.inl h)
      have hp := (nearTie_posting_iff d).mp hd3
      rw [if_pos hd, if_pos]
      · simp only [List.map_cons, List.map_nil, List.sum_cons, List.sum_nil, add_zero]
      · refine ⟨(nearTie_accepts_two d).mpr ?_, ?_, rfl⟩
        · simp only [List.mem_cons, List.mem_singleton, List.not_mem_nil, or_false] at hd
          rcases hd with rfl | rfl <;> exact ⟨by simp [nearTieCalls, addedIds], by decide⟩
        · simp only [List.any_cons, List.any_nil, hp, Bool.or_false]
    · rw [if_neg hd, if_neg]
      rintro ⟨hacc, h, -⟩
      apply hd
      have hp : ((run nearTieCalls : SearchServer ℝ).posting ['x'] d).isSome = true := by
        simpa only [List.any_cons, List.any_nil, Bool.or_false] using h
      have hd3 := (nearTie_posting_iff d).mpr hp
      have hle := ((nearTie_accepts_two d).mp hacc).2
      simp only [List.mem_cons, List.mem_singleton, List.not_mem_nil, or_false] at hd3 ⊢
      omega
  have hkeys : rel.map Prod.fst = [1, 2] := by
    apply List.eq_of_perm_of_sorted (r := (· < ·)) _ hsorted (by decide)
    apply (List.perm_ext_iff_of_nodup (hsorted.imp (fun h => ne_of_lt h)) (by decide)).mpr
    intro d
    rw [← mapFind_isSome_iff, hfind' d]
    split_ifs with hd <;> simp [hd]
  match rel, hkeys, hfind' with
  | [(i, a), (j, b)], hkeys, hfind' =>
    simp only [List.map_cons, List.map_nil, List.cons.injEq, and_true] at hkeys
    obtain ⟨rfl, rfl⟩ := hkeys
    have h1 := hfind' 1
    have h2 := hfind' 2
    rw [nearTie_termScore 1 _ nearTie_posting_1] at h1
    rw [nearTie_termScore 2 _ nearTie_posting_2] at h2
    simp [mapFind] at h1 h2
    subst h1 h2
    simp only [List.map_cons, List.map_nil, SearchServer.asDocument, nearTie_rating.1,
      nearTie_rating.2.1]
    norm_num
  | [], hkeys, _ => simp at hkeys
  | [_], hkeys, _ => simp at hkeys
  | _ :: _ :: _ :: _, hkeys, _ => simp at hkeys

theorem nearTie_two_near :
    |Real.log (4 / 3) * (1 / 1000000) - Real.log (4 / 3) * (3 / 1000000)| < 1 / 1000000 ∧
    |Real.log (4 / 3) * (3 / 1000000) - Real.log (4 / 3) * (1 / 1000000)| < 1 / 1000000 ∧
    Real.log (4 / 3) * (1 / 1000000) < Real.log (4 / 3) * (3 / 1000000) := by
  obtain ⟨h1, h2⟩ := nearTie_log
  refine ⟨?_, ?_, ?_⟩
  · rw [abs_lt]
    constructor <;> linarith
  · rw [abs_lt]
    constructor <;> linarith
  · linarith

theorem nearTie_two_transitive :
    NearTiesTransitiveOn (fun a : Document ℝ =>
      a ∈ [(⟨1, Real.log (4 / 3) * (1 / 1000000), 3⟩ : Document ℝ),
        ⟨2, Real.log (4 / 3) * (3 / 1000000), 2⟩]) := by
  obtain ⟨h1, h2, -⟩ := nearTie_two_near
  intro a b c ha hb hc _ _
  simp only [List.mem_cons, List.mem_singleton, List.not_mem_nil, or_false] at ha hc
  rcases ha with rfl | rfl <;> rcases hc with rfl | rfl
  · simp
  · exact h1
  · exact h2
  · simp

/-- What every `sort` that meets `StdSort` makes of the two candidates: the document with the
rating 3 comes first, although the other one has the greater relevance. -/
theorem nearTie_two_sorted (sort : SortFn (Document ℝ)) (hsort : StdSort sort) :
    sort documentLess [⟨1, Real.log (4 / 3) * (1 / 1000000), 3⟩,
        ⟨2, Real.log (4 / 3) * (3 / 1000000), 2⟩] =
      [⟨1, Real.log (4 / 3) * (1 / 1000000), 3⟩, ⟨2, Real.log (4 / 3) * (3 / 1000000), 2⟩] := by
  apply sort_eq_of_strict sort hsort
  · exact documentLess_swo_of_near _ nearTie_two_transitive
  · exact List.Perm.refl _
  · simp only [List.pairwise_cons, List.mem_singleton, List.not_mem_nil, false_imp_iff,
      implies_true, List.Pairwise.nil, and_true, forall_eq]
    exact nearTie_cycle.1

theorem nearTie_two_result (sort : SortFn (Document ℝ)) (hsort : StdSort sort) :
    (run nearTieCalls : SearchServer ℝ).FindTopDocuments sort Real.log ['x']
      (fun document_id _ _ => decide (document_id ≤ 2)) =
      some [⟨1, Real.log (4 / 3) * (1 / 1000000), 3⟩,
        ⟨2, Real.log (4 / 3) * (3 / 1000000), 2⟩] := by
  rw [FindTopDocuments_eq, nearTie_candidates_two, Option.map_some',
    nearTie_two_sorted sort hsort]
  rfl

/-- C3, on the test `TestRating`: the three documents have the same relevance for the query
`box`, and they are returned in the order of their ratings 4, 2, -1, whatever the library
`sort` does. And on two documents whose relevances differ by less than `1e-6` without being
equal: the one with the rating 3 is returned before the one with the rating 2, which has the
greater relevance. -/
theorem C3_result_order_witness :
    StdSort (insertionSort : SortFn (Document ℝ)) ∧
    (∃ cands result,
      FindAllDocuments Real.log (run ratingCalls : SearchServer ℝ)
        ((run ratingCalls : SearchServer ℝ).ParseQuery "box".toList)
        (fun _ new_status _ => decide (new_status = DocumentStatus.ACTUAL)) = some cands ∧
      (run ratingCalls : SearchServer ℝ).FindTopDocumentsDefault insertionSort Real.log
        "box".toList = some result ∧
      NearTiesTransitiveOn (fun a => a ∈ cands) ∧
      result.map Document.rating = [4, 2, -1] ∧
      RankedOrder result) ∧
    (∀ sort : SortFn (Document ℝ), StdSort sort →
      ((run ratingCalls : SearchServer ℝ).FindTopDocumentsDefault sort Real.log
        "box".toList).map (fun l => l.map Document.rating) = some [4, 2, -1]) ∧
    (∃ cands result,
      FindAllDocuments Real.log (run nearTieCalls : SearchServer ℝ)
        ((run nearTieCalls : SearchServer ℝ).ParseQuery ['x'])
        (fun document_id _ _ => decide (document_id ≤ 2)) = some cands ∧
      (run nearTieCalls : SearchServer ℝ).FindTopDocuments insertionSort Real.log ['x']
        (fun document_id _ _ => decide (document_id ≤ 2)) = some result ∧
      NearTiesTransitiveOn (fun a => a ∈ cands) ∧
      result = [⟨1, Real.log (4 / 3) * (1 / 1000000), 3⟩,
        ⟨2, Real.log (4 / 3) * (3 / 1000000), 2⟩] ∧
      Real.log (4 / 3) * (1 / 1000000) < Real.log (4 / 3) * (3 / 1000000) ∧
      |Real.log (4 / 3) * (1 / 1000000) - Real.log (4 / 3) * (3 / 1000000)| < 1 / 1000000 ∧
      RankedOrder result) ∧
    (∀ sort : SortFn (Document ℝ), StdSort sort →
      ((run nearTieCalls : SearchServer ℝ).FindTopDocuments sort Real.log ['x']
        (fun document_id _ _ => decide (document_id ≤ 2))).map
          (fun l => l.map Document.id) = some [1, 2]) := by
  refine ⟨insertionSort_StdSort, ?_, ?_, ?_, ?_⟩
  · obtain ⟨cands, result, hall, htop, -, -, -, -, horder, -⟩ := C3_result_order insertionSort
      insertionSort_StdSort Real.log ratingCalls "box".toList
      (fun _ new_status _ => decide (new_status = DocumentStatus.ACTUAL))
    have hc := rating_candidates
    rw [hall] at hc
    have hcands := Option.some.inj hc
    have hnear : NearTiesTransitiveOn (fun a : Document ℝ => a ∈ cands) := by
      apply nearTies_of_const _ 0
      intro a ha
      rw [hcands] at ha
      simp only [List.mem_cons, List.mem_singleton, List.not_mem_nil, or_false] at ha
      rcases ha with rfl | rfl | rfl <;> rfl
    have hr := rating_result insertionSort insertionSort_StdSort
    change (run ratingCalls : SearchServer ℝ).FindTopDocuments insertionSort Real.log
      "box".toList (fun _ new_status _ => decide (new_status = DocumentStatus.ACTUAL)) = _
      at hr
    rw [htop] at hr
    refine ⟨cands, result, hall, htop, hnear, ?_, horder hnear⟩
    rw [Option.some.inj hr]
    rfl
  · intro sort hsort
    rw [rating_result sort hsort]
    rfl
  · obtain ⟨cands, result, hall, htop, -, -, -, -, horder, -⟩ := C3_result_order insertionSort
      insertionSort_StdSort Real.log nearTieCalls ['x']
      (fun document_id _ _ => decide (document_id ≤ 2))
    have hc := nearTie_candidates_two
    rw [hall] at hc
    have hcands := Option.some.inj hc
    have hnear : NearTiesTransitiveOn (fun a : Document ℝ => a ∈ cands) := by
      rw [hcands]
      exact nearTie_two_transitive
    have hr := nearTie_two_result insertionSort insertionSort_StdSort
    rw [htop] at hr
    exact ⟨cands, result, hall, htop, hnear, Option.some.inj hr, nearTie_two_near.2.2,
      nearTie_two_near.1, horder hnear⟩
  · intro sort hsort
    rw [nearTie_two_result sort hsort]
    rfl

/-- C3 as stated fails when relevances differ by less than `1e-6` in a chain. In the
state reached by `nearTieCalls` the query `x` has three candidates, with relevances
`ln (4/3) / 10^6`, `3 ln (4/3) / 10^6`, `5 ln (4/3) / 10^6` and ratings 3, 2, 1: the first
two and the last two are within `1e-6` of each other, the first and the last are not. The
comparison is not a strict weak ordering on them, no arrangement of the three candidates is
in the order of the claim, and so the list `FindTopDocuments` returns is not, whatever the
library `sort` does. -/
theorem C3_counterexample :
    ∃ cands,
      FindAllDocuments Real.log (run nearTieCalls : SearchServer ℝ)
        ((run nearTieCalls : SearchServer ℝ).ParseQuery ['x']) (fun _ _ _ => true) =
        some cands ∧
      cands.map Document.id = [1, 2, 3] ∧
      cands.map Document.rating = [3, 2, 1] ∧
      ¬ StrictWeakOrderingOn documentLess (fun a => a ∈ cands) ∧
      (∀ l : List (Document ℝ), l.Perm cands → ¬ RankedOrder l) ∧
      ∀ sort : SortFn (Document ℝ), StdSort sort →
        ∃ result, (run nearTieCalls : SearchServer ℝ).FindTopDocuments sort Real.log ['x']
            (fun _ _ _ => true) = some result ∧
          result.Perm cands ∧ ¬ RankedOrder result := by
  have hcycle := nearTie_cycle
  have hall : ∀ l : List (Document ℝ),
      l.Perm [⟨1, Real.log (4 / 3) * (1 / 1000000), 3⟩,
        ⟨2, Real.log (4 / 3) * (3 / 1000000), 2⟩,
        ⟨3, Real.log (4 / 3) * (5 / 1000000), 1⟩] → ¬ RankedOrder l := by
    intro l hl
    rw [rankedOrder_iff]
    exact not_pairwise_of_cycle documentLess documentLess_irrefl _ _ _ hcycle.1 hcycle.2.1
      hcycle.2.2 l (hl.mem_iff.mpr (by simp)) (hl.mem_iff.mpr (by simp))
      (hl.mem_iff.mpr (by simp))
  refine ⟨_, nearTie_candidates, rfl, rfl, ?_, hall, ?_⟩
  · intro hswo
    have h13 := hswo.2.1 _ _ _ (by simp) (by simp) (by simp) hcycle.1 hcycle.2.1
    have h31 := documentLess_asymm _ _ hcycle.2.2
    rw [h13] at h31
    exact Bool.noConfusion h31
  · intro sort hsort
    have htop := FindTopDocuments_eq sort Real.log (run nearTieCalls : SearchServer ℝ) ['x']
      (fun _ _ _ => true)
    rw [nearTie_candidates, Option.map_some'] at htop
    have hperm := (hsort documentLess
      [(⟨1, Real.log (4 / 3) * (1 / 1000000), 3⟩ : Document ℝ),
        ⟨2, Real.log (4 / 3) * (3 / 1000000), 2⟩,
        ⟨3, Real.log (4 / 3) * (5 / 1000000), 1⟩]).1
    have htake : (sort documentLess
      [(⟨1, Real.log (4 / 3) * (1 / 1000000), 3⟩ : Document ℝ),
        ⟨2, Real.log (4 / 3) * (3 / 1000000), 2⟩,
        ⟨3, Real.log (4 / 3) * (5 / 1000000), 1⟩]).take MAX_RESULT_DOCUMENT_COUNT =
        sort documentLess [(⟨1, Real.log (4 / 3) * (1 / 1000000), 3⟩ : Document ℝ),
        ⟨2, Real.log (4 / 3) * (3 / 1000000), 2⟩,
        ⟨3, Real.log (4 / 3) * (5 / 1000000), 1⟩] := by
      apply List.take_of_length_le
      rw [hperm.length_eq]
      decide
    rw [htake] at htop
    exact ⟨_, htop, hperm, hall _ hperm⟩

end NearTies

/-! ## Facts about the tokenizer -/

section Tokenizer

theorem modifyHead_modifyHead' {α : Type} (f g : α → α) (l : List α) :
    (l.modifyHead g).modifyHead f = l.modifyHead (f ∘ g) := by
  cases l <;> rfl

theorem splitOn_space_cons (c : Char) (cs : Str) :
    (c :: cs).splitOn ' ' =
      if c = ' ' then [] :: cs.splitOn ' ' else (cs.splitOn ' ').modifyHead (List.cons c) := by
  unfold List.splitOn
  rw [List.splitOnP_cons]
  by_cases h : c = ' ' <;> simp [h]

theorem splitOn_space_ne_nil (text : Str) : text.splitOn ' ' ≠ [] :=
  List.splitOnP_ne_nil _ _

/-- The loop of `SplitIntoWords` from any state: the word under construction is completed by
the first piece of the rest of the text. -/
theorem foldl_splitStep_splitOn (text : Str) (ws : List Str) (cur : Str) :
    (if (text.foldl splitStep (ws, cur)).2 ≠ [] then
        (text.foldl splitStep (ws, cur)).1 ++ [(text.foldl splitStep (ws, cur)).2]
      else (text.foldl splitStep (ws, cur)).1) =
      ws ++ ((text.splitOn ' ').modifyHead (fun p => cur ++ p)).filter
        (fun piece => !piece.isEmpty) := by
  induction text generalizing ws cur with
  | nil =>
    cases cur <;> simp [List.splitOn, List.splitOnP_nil, List.modifyHead]
  | cons c cs ih =>
    rw [List.foldl_cons, splitOn_space_cons]
    by_cases hc : c = ' '
    · rw [if_pos hc]
      cases cur with
      | nil =>
        have hstep : splitStep (ws, []) c = (ws, []) := by simp [splitStep, hc]
        rw [hstep, ih]
        obtain ⟨p, ps, hps⟩ := List.exists_cons_of_ne_nil (splitOn_space_ne_nil cs)
        simp [hps, List.modifyHead]
      | cons x cur =>
        have hstep : splitStep (ws, x :: cur) c = (ws ++ [x :: cur], []) := by
          simp [splitStep, hc]
        rw [hstep, ih]
        obtain ⟨p, ps, hps⟩ := List.exists_cons_of_ne_nil (splitOn_space_ne_nil cs)
        simp [hps, List.modifyHead]
    · rw [if_neg hc]
      have hstep : splitStep (ws, cur) c = (ws, cur ++ [c]) := by simp [splitStep, hc]
      rw [hstep, ih, modifyHead_modifyHead']
      congr 3
      funext p
      simp

theorem SplitIntoWords_eq_splitAtSpaces (text : Str) :
    SplitIntoWords text = splitAtSpaces text := by
  have h := foldl_splitStep_splitOn text [] []
  unfold SplitIntoWords splitAtSpaces
  simp only [List.nil_append] at h
  rw [h]
  congr 1
  cases text.splitOn ' ' <;> simp [List.modifyHead]

theorem not_mem_of_mem_splitOn (text : Str) : ∀ p ∈ text.splitOn ' ', ' ' ∉ p := by
  induction text with
  | nil => simp [List.splitOn, List.splitOnP_nil]
  | cons c cs ih =>
    rw [splitOn_space_cons]
    by_cases hc : c = ' '
    · rw [if_pos hc]
      intro p hp
      rcases List.mem_cons.mp hp with rfl | hp'
      · simp
      · exact ih p hp'
    · rw [if_neg hc]
      obtain ⟨q, qs, hqs⟩ := List.exists_cons_of_ne_nil (splitOn_space_ne_nil cs)
      rw [hqs] at ih ⊢
      intro p hp
      simp only [List.modifyHead, List.mem_cons] at hp
      rcases hp with rfl | hp'
      · intro hmem
        rcases List.mem_cons.mp hmem with h | h
        · exact hc h.symm
        · exact ih q (List.mem_cons_self _ _) h
      · exact ih p (List.mem_cons_of_mem _ hp')

theorem SplitIntoWords_word (text : Str) : ∀ w ∈ SplitIntoWords text, w ≠ [] ∧ ' ' ∉ w := by
  intro w hw
  rw [SplitIntoWords_eq_splitAtSpaces] at hw
  unfold splitAtSpaces at hw
  obtain ⟨h1, h2⟩ := List.mem_filter.mp hw
  refine ⟨?_, not_mem_of_mem_splitOn text w h1⟩
  intro h
  simp [h] at h2

theorem SplitIntoWords_of_no_space (text : Str) (hne : text ≠ []) (h : ' ' ∉ text) :
    SplitIntoWords text = [text] := by
  unfold SplitIntoWords
  have := foldl_splitStep_word text h [] [] []
  simp only [List.append_nil, List.nil_append, List.foldl_nil] at this
  rw [this]
  simp [hne]

/-- C13. For every text, `SplitIntoWords` returns the pieces of the text split at every space,
without the empty pieces and in the order of the text: every word is non-empty and holds no
space, the pieces, joined again by single spaces, are the text, and none of them holds a
space, so every word is a maximal run of characters other than the space. No other character
separates words: a text without a space is one word, tab and newline included. -/
theorem C13_split_into_words (text : Str) :
    SplitIntoWords text = splitAtSpaces text ∧
    (∀ w ∈ SplitIntoWords text, w ≠ [] ∧ ' ' ∉ w) ∧
    [' '].intercalate (text.splitOn ' ') = text ∧
    (∀ p ∈ text.splitOn ' ', ' ' ∉ p) ∧
    (text ≠ [] → ' ' ∉ text → SplitIntoWords text = [text]) ∧
    SplitIntoWords "  ab\tc   d\ne ".toList = ["ab\tc".toList, "d\ne".toList] :=
  ⟨SplitIntoWords_eq_splitAtSpaces text, SplitIntoWords_word text,
    List.intercalate_splitOn text ' ', not_mem_of_mem_splitOn text,
    SplitIntoWords_of_no_space text, by decide⟩

/-- C13, on the text ` white cat in box` of the tests and on a text with a tab. -/
theorem C13_split_into_words_witness :
    SplitIntoWords " white cat in box".toList =
      ["white".toList, "cat".toList, "in".toList, "box".toList] ∧
    splitAtSpaces " white cat in box".toList =
      ["white".toList, "cat".toList, "in".toList, "box".toList] ∧
    "a\tb".toList ≠ [] ∧ ' ' ∉ "a\tb".toList ∧
    SplitIntoWords "a\tb".toList = ["a\tb".toList] := by
  have h := C13_split_into_words " white cat in box".toList
  have h' := C13_split_into_words "a\tb".toList
  exact ⟨by decide, h.1 ▸ (by decide), by decide, by decide,
    h'.2.2.2.2.1 (by decide) (by decide)⟩

end Tokenizer


/-! ## Lookups, empty queries and the document count -/

section Lookup

variable {R : Type} [LinearOrderedField R]

open SearchServer

theorem MatchDocument_eq_none_iff (s : SearchServer R) (raw_query : Str) (d : Int) :
    s.MatchDocument raw_query d = none ↔ mapFind s.documents_ d = none := by
  unfold SearchServer.MatchDocument
  cases mapFind s.documents_ d <;> simp

/-- C11. In every state reached by `SetStopWords` and `AddDocument` calls and for every raw
query, `MatchDocument(query, id)` fails with the not-found error of `documents_.at` exactly
when `id` was never passed to `AddDocument`, and returns a result for every id that was
added. -/
theorem C11_match_document_not_found (calls : List Call) (raw_query : Str)
    (document_id : Int) :
    ((run calls : SearchServer R).MatchDocument raw_query document_id = none ↔
      document_id ∉ addedIds calls) ∧
    (document_id ∈ addedIds calls →
      ∃ result, (run calls : SearchServer R).MatchDocument raw_query document_id =
        some result) := by
  have hiff : (run calls : SearchServer R).MatchDocument raw_query document_id = none ↔
      document_id ∉ addedIds calls := by
    rw [MatchDocument_eq_none_iff]
    constructor
    · intro h hmem
      have := documents_run_of_added (R := R) calls document_id hmem
      rw [h] at this
      exact Bool.noConfusion this
    · exact documents_run_fresh calls document_id
  refine ⟨hiff, ?_⟩
  intro hmem
  cases h : (run calls : SearchServer R).MatchDocument raw_query document_id with
  | none => exact absurd hmem (hiff.mp h)
  | some result => exact ⟨result, rfl⟩

/-- C11, on the test `MatchDocumentAlwaysReturnActualStatus`: the id 4 was added and the id 5
was not. -/
theorem C11_match_document_not_found_witness :
    (4 : Int) ∈ addedIds matchCalls ∧ (5 : Int) ∉ addedIds matchCalls ∧
    (run matchCalls : SearchServer ℚ).MatchDocument "hello -world".toList 5 = none ∧
    ∃ result, (run matchCalls : SearchServer ℚ).MatchDocument "hello -world".toList 4 =
      some result := by
  have h4 := C11_match_document_not_found (R := ℚ) matchCalls "hello -world".toList 4
  have h5 := C11_match_document_not_found (R := ℚ) matchCalls "hello -world".toList 5
  exact ⟨by decide, by decide, h5.1.mpr (by decide), h4.2 (by decide)⟩

theorem FindAllDocuments_empty_query (ln : R → R) (s : SearchServer R)
    (predicate : Int → DocumentStatus → Int → Bool) :
    FindAllDocuments ln s { plus_words := [], minus_words := [] } predicate = some [] := rfl

theorem ParseQuery_of_all_stop (s : SearchServer R) (raw_query : Str)
    (h : ∀ w ∈ SplitIntoWords raw_query, s.IsStopWord w = true) :
    s.ParseQuery raw_query = { plus_words := [], minus_words := [] } := by
  have hw : s.SplitIntoWordsNoStop raw_query = [] := by
    unfold SearchServer.SplitIntoWordsNoStop
    rw [List.filter_eq_nil_iff]
    intro w hw
    simp [h w hw]
  unfold SearchServer.ParseQuery
  rw [hw]
  rfl

/-- C12. In every server state, for every predicate and every raw query whose tokens are all
stop words (the empty query and a query of spaces have no token), `FindTopDocuments` returns
the empty list, with no error, whatever the library `sort` is among the functions that meet
`StdSort`. -/
theorem C12_stop_word_query (sort : SortFn (Document R)) (hsort : StdSort sort) (ln : R → R)
    (s : SearchServer R) (raw_query : Str) (predicate : Int → DocumentStatus → Int → Bool)
    (hstop : ∀ w ∈ SplitIntoWords raw_query, s.IsStopWord w = true) :
    s.FindTopDocuments sort ln raw_query predicate = some [] := by
  apply FindTopDocuments_of_none sort hsort
  rw [ParseQuery_of_all_stop s raw_query hstop, FindAllDocuments_empty_query]

/-- C12, on the test `TestExcludeStopWordsFromAddedDocumentContent`: with the stop words
`in the` the query `in` returns nothing for the document `cat in the city`, as do the empty
query and a query of spaces; without stop words the query `in` returns the document. -/
theorem C12_stop_word_query_witness :
    StdSort (insertionSort : SortFn (Document ℝ)) ∧
    (∀ w ∈ SplitIntoWords "in".toList,
      (run stopWordsCalls : SearchServer ℝ).IsStopWord w = true) ∧
    (run stopWordsCalls : SearchServer ℝ).FindTopDocumentsDefault insertionSort Real.log
      "in".toList = some [] ∧
    (run stopWordsCalls : SearchServer ℝ).FindTopDocumentsDefault insertionSort Real.log
      "".toList = some [] ∧
    (run stopWordsCalls : SearchServer ℝ).FindTopDocumentsDefault insertionSort Real.log
      "   ".toList = some [] ∧
    ((run [Call.addDocument 42 "cat in the city".toList DocumentStatus.ACTUAL [1, 2, 3]] :
      SearchServer ℝ).FindTopDocumentsDefault insertionSort Real.log "in".toList).map
        (fun l => l.map Document.id) = some [42] := by
  refine ⟨insertionSort_StdSort, by decide, ?_, ?_, ?_, rfl⟩
  · exact C12_stop_word_query insertionSort insertionSort_StdSort Real.log _ "in".toList _
      (by decide)
  · exact C12_stop_word_query insertionSort insertionSort_StdSort Real.log _ "".toList _
      (by decide)
  · exact C12_stop_word_query insertionSort insertionSort_StdSort Real.log _ "   ".toList _
      (by decide)

theorem documents_keys_perm (calls : List Call) :
    ((run calls : SearchServer R).documents_.map Prod.fst).Perm (addedIds calls).dedup := by
  apply (List.perm_ext_iff_of_nodup
    ((WF_run (R := R) calls).documents.imp (fun h => ne_of_lt h)) (List.nodup_dedup _)).mpr
  intro d
  rw [List.mem_dedup, ← mapFind_isSome_iff]
  constructor
  · intro h
    by_contra hd
    rw [documents_run_fresh calls d hd] at h
    exact Bool.noConfusion h
  · exact documents_run_of_added calls d

theorem documents_length_le (calls : List Call) :
    (run calls : SearchServer R).documents_.length ≤ (addedIds calls).length := by
  have h := (documents_keys_perm (R := R) calls).length_eq
  rw [List.length_map] at h
  rw [h]
  exact (List.dedup_sublist _).length_le

theorem documents_length_of_nodup (calls : List Call) (hids : (addedIds calls).Nodup) :
    (run calls : SearchServer R).documents_.length = (addedIds calls).length := by
  have h := (documents_keys_perm (R := R) calls).length_eq
  rw [List.length_map, hids.dedup] at h
  exact h

/-- C14. After any sequence of `SetStopWords` calls and `n` `AddDocument` calls with pairwise
distinct ids on a fresh server, `GetDocumentCount` returns `n`, and this is the value of
`document_count_`, the numerator of the quotient whose logarithm `ComputeIDF` returns. -/
theorem C14_document_count (calls : List Call) (hids : (addedIds calls).Nodup) :
    (run calls : SearchServer R).GetDocumentCount = ((addedIds calls).length : Int) ∧
    (run calls : SearchServer R).document_count_ = (run calls : SearchServer R).GetDocumentCount ∧
    ∀ (ln : R → R) (found_in_docs : Int),
      ComputeIDF ln (run calls : SearchServer R) found_in_docs =
        ln ((((run calls : SearchServer R).GetDocumentCount : Int) : R) / (found_in_docs : R)) := by
  have hcount : (run calls : SearchServer R).GetDocumentCount = ((addedIds calls).length : Int) := by
    unfold SearchServer.GetDocumentCount
    rw [documents_length_of_nodup calls hids]
  have hdc : (run calls : SearchServer R).document_count_ =
      (run calls : SearchServer R).GetDocumentCount := by
    rw [hcount, document_count_run]
  refine ⟨hcount, hdc, ?_⟩
  intro ln found_in_docs
  unfold SearchServer.ComputeIDF
  rw [hdc]

/-- C14, on the test `TestExcludeStopWordsFromAddedDocumentContent` and on the test
`MatchDocumentAlwaysReturnActualStatus`: one and four documents. -/
theorem C14_document_count_witness :
    (addedIds matchCalls).Nodup ∧
    (run matchCalls : SearchServer ℚ).GetDocumentCount = 4 ∧
    (run matchCalls : SearchServer ℚ).document_count_ = 4 ∧
    (run stopWordsCalls : SearchServer ℚ).GetDocumentCount = 1 := by
  have h := C14_document_count (R := ℚ) matchCalls (by decide)
  have h' := C14_document_count (R := ℚ) stopWordsCalls (by decide)
  refine ⟨by decide, ?_, ?_, ?_⟩
  · rw [h.1]
    rfl
  · rw [h.2.1, h.1]
    rfl
  · rw [h'.1]
    rfl

end Lookup

/-! ## More facts about `ParseQuery` -/

section Parsing2

variable {R : Type}

open SearchServer

theorem sorted_ext {K : Type} [LinearOrder K] (l₁ l₂ : List K) (h₁ : l₁.Pairwise (· < ·))
    (h₂ : l₂.Pairwise (· < ·)) (h : ∀ x, x ∈ l₁ ↔ x ∈ l₂) : l₁ = l₂ :=
  List.eq_of_perm_of_sorted
    ((List.perm_ext_iff_of_nodup (h₁.imp (fun h => ne_of_lt h))
      (h₂.imp (fun h => ne_of_lt h))).mpr h) h₁ h₂

theorem mem_SplitIntoWordsNoStop (s : SearchServer R) (text w : Str) :
    w ∈ s.SplitIntoWordsNoStop text ↔ w ∈ SplitIntoWords text ∧ s.IsStopWord w = false := by
  unfold SearchServer.SplitIntoWordsNoStop
  rw [List.mem_filter]
  simp

/-- The empty string enters the plus-words exactly through a token `-`. -/
theorem nil_mem_plus_iff (s : SearchServer R) (text : Str) :
    [] ∈ (s.ParseQuery text).plus_words ↔ ['-'] ∈ s.SplitIntoWordsNoStop text := by
  rw [mem_plus_ParseQuery]
  constructor
  · rintro ⟨word, hword, heq⟩
    have hne : word ≠ [] :=
      (SplitIntoWords_word text word ((mem_SplitIntoWordsNoStop s text word).mp hword).1).1
    cases word with
    | nil => exact absurd rfl hne
    | cons c cs =>
      by_cases hc : c = '-'
      · subst hc
        simp only [List.head?_cons, if_true, List.drop_succ_cons, List.drop_zero] at heq
        rw [← heq] at hword
        exact hword
      · have : ¬ (c :: cs).head? = some '-' := by simpa using hc
        rw [if_neg this] at heq
        exact absurd heq.symm hne
  · intro h
    exact ⟨['-'], h, by simp⟩

theorem nil_mem_minus_iff (s : SearchServer R) (text : Str) :
    [] ∈ (s.ParseQuery text).minus_words ↔
      ['-'] ∈ s.SplitIntoWordsNoStop text ∧ s.IsStopWord [] = false := by
  rw [mem_minus_ParseQuery]
  constructor
  · rintro ⟨word, hword, hhead, hstop, heq⟩
    cases word with
    | nil => simp at hhead
    | cons c cs =>
      simp only [List.head?_cons, Option.some.injEq] at hhead
      subst hhead
      simp only [List.drop_succ_cons, List.drop_zero] at heq hstop
      subst heq
      exact ⟨hword, hstop⟩
  · rintro ⟨h, hstop⟩
    exact ⟨['-'], h, rfl, hstop, rfl⟩

/-- C15 (amended). For every stop-word set and raw query, a query token that starts with `-`
and whose remainder after removing that `-` is a stop word adds nothing to the minus-words,
and its remainder enters the plus-words unless the token itself is a stop word: compared with
the query without the token, the minus-words are the same and the plus-words are the same
with the remainder inserted. -/
theorem C15_stripped_stop_word (s : SearchServer R) (text text' : Str) (ws₁ ws₂ : List Str)
    (w : Str) (htext : SplitIntoWords text = ws₁ ++ ('-' :: w) :: ws₂)
    (htext' : SplitIntoWords text' = ws₁ ++ ws₂) (hstop : s.IsStopWord w = true) :
    (s.ParseQuery text).minus_words = (s.ParseQuery text').minus_words ∧
    (s.ParseQuery text).plus_words =
      if s.IsStopWord ('-' :: w) = true then (s.ParseQuery text').plus_words
      else setInsert w (s.ParseQuery text').plus_words := by
  have hmem : ∀ word, word ∈ SplitIntoWords text ↔
      word ∈ SplitIntoWords text' ∨ word = '-' :: w := by
    intro word
    rw [htext, htext']
    simp only [List.mem_append, List.mem_cons]
    tauto
  constructor
  · apply sorted_ext _ _ (ParseQuery_sorted s text).2 (ParseQuery_sorted s text').2
    intro x
    rw [mem_minus_ParseQuery, mem_minus_ParseQuery]
    constructor
    · rintro ⟨word, hword, hhead, hns, hx⟩
      rw [mem_SplitIntoWordsNoStop, hmem] at hword
      rcases hword.1 with h | h
      · exact ⟨word, (mem_SplitIntoWordsNoStop s text' word).mpr ⟨h, hword.2⟩, hhead, hns, hx⟩
      · subst h
        simp only [List.drop_succ_cons, List.drop_zero] at hns
        rw [hstop] at hns
        exact Bool.noConfusion hns
    · rintro ⟨word, hword, hhead, hns, hx⟩
      rw [mem_SplitIntoWordsNoStop] at hword
      exact ⟨word, (mem_SplitIntoWordsNoStop s text word).mpr
        ⟨(hmem word).mpr (Or.inl hword.1), hword.2⟩, hhead, hns, hx⟩
  · have hplus : ∀ x, x ∈ (s.ParseQuery text).plus_words ↔
        x ∈ (s.ParseQuery text').plus_words ∨ (s.IsStopWord ('-' :: w) = false ∧ x = w) := by
      intro x
      rw [mem_plus_ParseQuery, mem_plus_ParseQuery]
      constructor
      · rintro ⟨word, hword, hx⟩
        rw [mem_SplitIntoWordsNoStop, hmem] at hword
        rcases hword.1 with h | h
        · exact Or.inl ⟨word, (mem_SplitIntoWordsNoStop s text' word).mpr ⟨h, hword.2⟩, hx⟩
        · subst h
          right
          refine ⟨hword.2, ?_⟩
          simpa using hx
      · rintro (⟨word, hword, hx⟩ | ⟨hns, hx⟩)
        · rw [mem_SplitIntoWordsNoStop] at hword
          exact ⟨word, (mem_SplitIntoWordsNoStop s text word).mpr
            ⟨(hmem word).mpr (Or.inl hword.1), hword.2⟩, hx⟩
        · refine ⟨'-' :: w, (mem_SplitIntoWordsNoStop s text _).mpr
            ⟨(hmem _).mpr (Or.inr rfl), hns⟩, ?_⟩
          simpa using hx
    cases hns : s.IsStopWord ('-' :: w) with
    | true =>
      rw [if_pos rfl]
      apply sorted_ext _ _ (ParseQuery_sorted s text).1 (ParseQuery_sorted s text').1
      intro x
      rw [hplus x, hns]
      simp
    | false =>
      rw [if_neg (by simp)]
      apply sorted_ext _ _ (ParseQuery_sorted s text).1
        (setInsert_sorted _ _ (ParseQuery_sorted s text').1)
      intro x
      rw [hplus x, hns, mem_setInsert]
      simp
      tauto

/-- C15, on the stop words `in the`: the token `-in` of the query `cat -in box` leaves the
minus-words empty and puts `in` into the plus-words. -/
theorem C15_stripped_stop_word_witness :
    SplitIntoWords "cat -in box".toList =
      ["cat".toList] ++ ('-' :: "in".toList) :: ["box".toList] ∧
    SplitIntoWords "cat box".toList = ["cat".toList] ++ ["box".toList] ∧
    (SearchServer.SetStopWords (SearchServer.empty : SearchServer ℚ) "in the".toList).IsStopWord
      "in".toList = true ∧
    ((SearchServer.SetStopWords (SearchServer.empty : SearchServer ℚ) "in the".toList).ParseQuery
      "cat -in box".toList).minus_words = [] ∧
    ((SearchServer.SetStopWords (SearchServer.empty : SearchServer ℚ) "in the".toList).ParseQuery
      "cat -in box".toList).plus_words = ["box".toList, "cat".toList, "in".toList] := by
  have h := C15_stripped_stop_word
    (SearchServer.SetStopWords (SearchServer.empty : SearchServer ℚ) "in the".toList)
    "cat -in box".toList "cat box".toList ["cat".toList] ["box".toList] "in".toList
    (by decide) (by decide) (by decide)
  refine ⟨by decide, by decide, by decide, ?_, ?_⟩
  · rw [h.1]
    decide
  · rw [h.2]
    decide

/-- C15 as stated fails: with the stop words `in the` the query `-in` is parsed into the
plus-words `in`, not into the empty query that the absence of the token gives. The
difference shows when the stop words are set after a document was added: the query `-in` then
returns the document `cat in the city`, which the empty query does not, whatever the library
`sort` does. -/
theorem C15_counterexample :
    (SearchServer.SetStopWords (SearchServer.empty : SearchServer ℝ) "in the".toList).IsStopWord
      "in".toList = true ∧
    (SearchServer.SetStopWords (SearchServer.empty : SearchServer ℝ) "in the".toList).ParseQuery
      "-in".toList = { plus_words := ["in".toList], minus_words := [] } ∧
    (SearchServer.SetStopWords (SearchServer.empty : SearchServer ℝ) "in the".toList).ParseQuery
      "".toList = { plus_words := [], minus_words := [] } ∧
    ∀ sort : SortFn (Document ℝ), StdSort sort →
      ((run [Call.addDocument 42 "cat in the city".toList DocumentStatus.ACTUAL [1, 2, 3],
          Call.setStopWords "in the".toList] : SearchServer ℝ).FindTopDocumentsDefault sort
        Real.log "-in".toList).map (fun l => l.map Document.id) = some [42] ∧
      (run [Call.addDocument 42 "cat in the city".toList DocumentStatus.ACTUAL [1, 2, 3],
          Call.setStopWords "in the".toList] : SearchServer ℝ).FindTopDocumentsDefault sort
        Real.log "".toList = some [] := by
  refine ⟨by decide, by decide, by decide, ?_⟩
  intro sort hsort
  exact ⟨FindTopDocuments_map_of_one sort hsort Document.id _ _ _ _ 42 rfl,
    FindTopDocuments_of_none sort hsort _ _ _ _ rfl⟩

end Parsing2

/-! ## Facts about the keys of the index and the empty string -/

section Parsing3

variable {R : Type} [LinearOrderedField R]

open SearchServer

theorem isSome_mapFind_foldl_indexWord (document_id : Int) (freq : R) (words : List Str)
    (m : List (Str × List (Int × R))) (hm : IndexSorted m) (t : Str) :
    (mapFind (words.foldl (indexWord document_id freq) m) t).isSome = true ↔
      (mapFind m t).isSome = true ∨ t ∈ words := by
  induction words generalizing m with
  | nil => simp
  | cons w words ih =>
    rw [List.foldl_cons, ih _ (indexWord_sorted _ _ _ hm w), mapFind_indexWord _ _ _ hm.1]
    by_cases h : t = w
    · simp [h]
    · simp [h]

/-- The keys of the term-to-postings map after `AddDocument`: the keys before and the words
left by the stop-word filter. -/
theorem isSome_mapFind_AddDocument (s : SearchServer R) (hs : s.WF) (document_id : Int)
    (document : Str) (status : DocumentStatus) (ratings : List Int) (t : Str) :
    (mapFind (s.AddDocument document_id document status ratings).word_to_document_freqs_
        t).isSome = true ↔
      (mapFind s.word_to_document_freqs_ t).isSome = true ∨
        t ∈ s.SplitIntoWordsNoStop document := by
  unfold SearchServer.AddDocument
  exact isSome_mapFind_foldl_indexWord _ _ _ _ hs.index t

/-- A property of words that holds of the keys of a state and of every word of every text
holds of the keys of every later state. -/
theorem keys_runFrom (P : Str → Prop) (hP : ∀ text, ∀ w ∈ SplitIntoWords text, P w)
    (s : SearchServer R) (hs : s.WF)
    (h : ∀ t, (mapFind s.word_to_document_freqs_ t).isSome = true → P t) (calls : List Call) :
    ∀ t, (mapFind (runFrom s calls).word_to_document_freqs_ t).isSome = true → P t := by
  induction calls generalizing s with
  | nil => exact h
  | cons c calls ih =>
    apply ih (Call.apply s c) (WF_apply s hs c)
    cases c with
    | setStopWords text => exact h
    | addDocument document_id document status ratings =>
      intro t ht
      change (mapFind (s.AddDocument document_id document status
        ratings).word_to_document_freqs_ t).isSome = true at ht
      rw [isSome_mapFind_AddDocument s hs] at ht
      rcases ht with ht | ht
      · exact h t ht
      · exact hP document t ((mem_SplitIntoWordsNoStop s document t).mp ht).1

theorem posting_nil (calls : List Call) (d : Int) :
    (run calls : SearchServer R).posting [] d = none := by
  have h := keys_runFrom (R := R) (fun w => w ≠ []) (fun text w hw => (SplitIntoWords_word text w hw).1)
    SearchServer.empty WF_empty (by simp [SearchServer.empty, mapFind]) calls []
  unfold SearchServer.posting lookup2
  cases hf : mapFind (run calls : SearchServer R).word_to_document_freqs_ [] with
  | none => rfl
  | some P =>
    exfalso
    apply h _ rfl
    change (mapFind (run calls : SearchServer R).word_to_document_freqs_ []).isSome = true
    rw [hf]
    rfl

theorem stop_words_runFrom (P : Str → Prop) (hP : ∀ text, ∀ w ∈ SplitIntoWords text, P w)
    (s : SearchServer R) (h : ∀ w ∈ s.stop_words_, P w) (calls : List Call) :
    ∀ w ∈ (runFrom s calls).stop_words_, P w := by
  induction calls generalizing s with
  | nil => exact h
  | cons c calls ih =>
    apply ih (Call.apply s c)
    cases c with
    | setStopWords text =>
      intro w hw
      change w ∈ (SplitIntoWords text).foldl (fun stop word => setInsert word stop)
        s.stop_words_ at hw
      rw [mem_foldl_setInsert] at hw
      rcases hw with hw | hw
      · exact hP text w hw
      · exact h w hw
    | addDocument document_id document status ratings => exact h

theorem IsStopWord_nil (calls : List Call) :
    (run calls : SearchServer R).IsStopWord [] = false := by
  have h := stop_words_runFrom (R := R) (fun w => w ≠ [])
    (fun text w hw => (SplitIntoWords_word text w hw).1) SearchServer.empty
    (by simp [SearchServer.empty]) calls
  unfold SearchServer.IsStopWord
  rw [decide_eq_false_iff_not]
  intro hmem
  exact h [] hmem rfl

/-- C17 (amended). For every stop-word set built by `SetStopWords` calls and every raw query,
the plus-words and the minus-words of `ParseQuery` both hold the empty string exactly when
the query has a token `-` that is not a stop word: such a token is not skipped. No document
has a posting for the empty string. -/
theorem C17_empty_string_in_query (calls : List Call) (raw_query : Str) :
    ([] ∈ ((run calls : SearchServer R).ParseQuery raw_query).plus_words ↔
      ['-'] ∈ SplitIntoWords raw_query ∧
        (run calls : SearchServer R).IsStopWord ['-'] = false) ∧
    ([] ∈ ((run calls : SearchServer R).ParseQuery raw_query).minus_words ↔
      ['-'] ∈ SplitIntoWords raw_query ∧
        (run calls : SearchServer R).IsStopWord ['-'] = false) ∧
    ∀ d, (run calls : SearchServer R).posting [] d = none := by
  refine ⟨?_, ?_, posting_nil calls⟩
  · rw [nil_mem_plus_iff, mem_SplitIntoWordsNoStop]
  · rw [nil_mem_minus_iff, mem_SplitIntoWordsNoStop, IsStopWord_nil]
    simp

/-- C17, on the queries `cat - dog` and `cat -dog` with the stop words `in the`. -/
theorem C17_empty_string_in_query_witness :
    ['-'] ∈ SplitIntoWords "cat - dog".toList ∧
    (run stopWordsCalls : SearchServer ℚ).IsStopWord ['-'] = false ∧
    [] ∈ ((run stopWordsCalls : SearchServer ℚ).ParseQuery "cat - dog".toList).plus_words ∧
    [] ∈ ((run stopWordsCalls : SearchServer ℚ).ParseQuery "cat - dog".toList).minus_words ∧
    [] ∉ ((run stopWordsCalls : SearchServer ℚ).ParseQuery "cat -dog".toList).plus_words ∧
    [] ∉ ((run stopWordsCalls : SearchServer ℚ).ParseQuery "cat -dog".toList).minus_words := by
  have h := C17_empty_string_in_query (R := ℚ) stopWordsCalls "cat - dog".toList
  have h' := C17_empty_string_in_query (R := ℚ) stopWordsCalls "cat -dog".toList
  refine ⟨by decide, by decide, h.1.mpr ⟨by decide, by decide⟩,
    h.2.1.mpr ⟨by decide, by decide⟩, ?_, ?_⟩
  · rw [h'.1]
    decide
  · rw [h'.2.1]
    decide

/-- C17 as stated fails: on a fresh server the query `-` is parsed into plus-words and
minus-words that both hold the empty string, and so is the query `cat - dog`. -/
theorem C17_counterexample :
    (SearchServer.empty : SearchServer ℚ).ParseQuery "-".toList =
      { plus_words := [[]], minus_words := [[]] } ∧
    (SearchServer.empty : SearchServer ℚ).ParseQuery "cat - dog".toList =
      { plus_words := [[], "cat".toList, "dog".toList], minus_words := [[]] } := by
  refine ⟨by decide, by decide⟩

end Parsing3

/-! ## Stop words set before the documents -/

section Frozen

variable {R : Type} [LinearOrderedField R]

open SearchServer

theorem NoStopKey_AddDocument (s : SearchServer R) (hs : s.WF) (h : NoStopKey s)
    (document_id : Int) (document : Str) (status : DocumentStatus) (ratings : List Int) :
    NoStopKey (s.AddDocument document_id document status ratings) := by
  intro w hw
  have hw' : s.IsStopWord w = true := hw
  cases hf : mapFind (s.AddDocument document_id document status
      ratings).word_to_document_freqs_ w with
  | none => rfl
  | some P =>
    exfalso
    have hsome := (isSome_mapFind_AddDocument s hs document_id document status ratings w).mp
      (by rw [hf]; rfl)
    rcases hsome with h1 | h1
    · rw [h w hw'] at h1
      exact Bool.noConfusion h1
    · rw [mem_SplitIntoWordsNoStop, hw'] at h1
      exact Bool.noConfusion h1.2

theorem runFrom_setStopWords_index (s : SearchServer R) (stops : List Str) :
    (runFrom s (stops.map Call.setStopWords)).word_to_document_freqs_ =
      s.word_to_document_freqs_ := by
  induction stops generalizing s with
  | nil => rfl
  | cons t stops ih => exact ih (s.SetStopWords t)

theorem NoStopKey_runFrom_adds (s : SearchServer R) (hs : s.WF) (h : NoStopKey s)
    (adds : List (Int × Str × DocumentStatus × List Int)) :
    NoStopKey (runFrom s (adds.map (fun a => Call.addDocument a.1 a.2.1 a.2.2.1 a.2.2.2))) := by
  induction adds generalizing s with
  | nil => exact h
  | cons a adds ih =>
    exact ih _ (WF_AddDocument s hs _ _ _ _) (NoStopKey_AddDocument s hs h _ _ _ _)

theorem NoStopKey_setupThenAdd (stops : List Str)
    (adds : List (Int × Str × DocumentStatus × List Int)) :
    NoStopKey (run (setupThenAdd stops adds) : SearchServer R) := by
  unfold setupThenAdd
  rw [run_append]
  apply NoStopKey_runFrom_adds _ (WF_run _)
  intro w _
  unfold run
  rw [runFrom_setStopWords_index]
  rfl

theorem posting_of_NoStopKey (s : SearchServer R) (h : NoStopKey s) (w : Str)
    (hw : s.IsStopWord w = true) (d : Int) : s.posting w d = none := by
  unfold SearchServer.posting lookup2
  rw [h w hw]
  rfl

theorem MatchDocument_words (s : SearchServer R) (raw_query : Str) (d : Int)
    (words : List Str) (status : DocumentStatus)
    (h : s.MatchDocument raw_query d = some (words, status)) :
    ∀ w ∈ words, (s.posting w d).isSome = true := by
  unfold SearchServer.MatchDocument at h
  cases hd : mapFind s.documents_ d with
  | none => simp [hd] at h
  | some data =>
    simp only [hd, Option.bind_eq_bind, Option.some_bind, Option.pure_def, Option.some.injEq,
      Prod.mk.injEq] at h
    intro w hw
    rw [← h.1] at hw
    split_ifs at hw with hany
    · simp at hw
    · rw [← wordHits_eq]
      exact (List.mem_filter.mp hw).2

theorem sum_map_filter_of_zero {α : Type} (l : List α) (p : α → Bool) (f : α → R)
    (h : ∀ x ∈ l, p x = false → f x = 0) : (l.map f).sum = ((l.filter p).map f).sum := by
  induction l with
  | nil => rfl
  | cons a l ih =>
    have ih' := ih (fun x hx => h x (List.mem_cons_of_mem _ hx))
    cases hp : p a with
    | true => simp [List.filter_cons, hp, ih']
    | false => simp [List.filter_cons, hp, ih', h a (List.mem_cons_self _ _) hp]

/-- C18. In every state reached by `SetStopWords` calls followed by `AddDocument` calls, no
stop word is a key of the term-to-postings map: a stop word has no posting for any document,
is never among the words `MatchDocument` returns, has a zero share in every relevance, and
the relevance of every document `FindTopDocuments` returns, whatever the library `sort` is
among the functions that meet `StdSort`, is the sum of the shares of the plus-words that are
not stop words. -/
theorem C18_stop_words_not_indexed (ln : R → R) (stops : List Str)
    (adds : List (Int × Str × DocumentStatus × List Int)) :
    (∀ w, (run (setupThenAdd stops adds) : SearchServer R).IsStopWord w = true →
      mapFind (run (setupThenAdd stops adds) : SearchServer R).word_to_document_freqs_ w =
        none) ∧
    (∀ w d, (run (setupThenAdd stops adds) : SearchServer R).IsStopWord w = true →
      (run (setupThenAdd stops adds) : SearchServer R).posting w d = none) ∧
    (∀ raw_query d words status,
      (run (setupThenAdd stops adds) : SearchServer R).MatchDocument raw_query d =
        some (words, status) →
      ∀ w ∈ words, (run (setupThenAdd stops adds) : SearchServer R).IsStopWord w = false) ∧
    (∀ w d, (run (setupThenAdd stops adds) : SearchServer R).IsStopWord w = true →
      (run (setupThenAdd stops adds) : SearchServer R).termScore ln d w = 0) ∧
    ∀ sort : SortFn (Document R), StdSort sort → ∀ raw_query predicate, ∃ result,
      (run (setupThenAdd stops adds) : SearchServer R).FindTopDocuments sort ln raw_query
        predicate = some result ∧
      ∀ doc ∈ result, doc.relevance =
        ((((run (setupThenAdd stops adds) : SearchServer R).ParseQuery
            raw_query).plus_words.filter
          (fun t => !(run (setupThenAdd stops adds) : SearchServer R).IsStopWord t)).map
          ((run (setupThenAdd stops adds) : SearchServer R).termScore ln doc.id)).sum := by
  have hkey := NoStopKey_setupThenAdd (R := R) stops adds
  have hpost := posting_of_NoStopKey _ hkey
  have hscore : ∀ w d, (run (setupThenAdd stops adds) : SearchServer R).IsStopWord w = true →
      (run (setupThenAdd stops adds) : SearchServer R).termScore ln d w = 0 :=
    fun w d hw => termScore_of_none ln _ d w (hpost w hw d)
  refine ⟨hkey, fun w d hw => hpost w hw d, ?_, hscore, ?_⟩
  · intro raw_query d words status hmatch w hw
    have hsome := MatchDocument_words _ raw_query d words status hmatch w hw
    cases hstop : (run (setupThenAdd stops adds) : SearchServer R).IsStopWord w with
    | false => rfl
    | true =>
      rw [hpost w hstop d] at hsome
      exact Bool.noConfusion hsome
  · intro sort hsort raw_query predicate
    obtain ⟨rel, htop, hsorted, hfind⟩ := FindTopDocuments_spec sort ln
      (run (setupThenAdd stops adds) : SearchServer R) (WF_run _) raw_query predicate
    refine ⟨_, htop, ?_⟩
    intro doc hdoc
    obtain ⟨p, hp, hpd⟩ := List.mem_map.mp (take_sort_subset sort hsort _ _ _ hdoc)
    have hkeyp := mapFind_of_mem rel hsorted p.1 p.2 hp
    rw [hfind p.1] at hkeyp
    split_ifs at hkeyp with hc
    simp only [Option.some.injEq] at hkeyp
    rw [← hpd]
    show p.2 = _
    rw [← hkeyp]
    apply sum_map_filter_of_zero
    intro t _ ht
    apply hscore
    simpa using ht

/-- C18, on the test `TestExcludeStopWordsFromAddedDocumentContent`: with the stop words
`in the` the document `cat in the city` is indexed under `cat` and `city` only. -/
theorem C18_stop_words_not_indexed_witness :
    stopWordsCalls = setupThenAdd ["in the".toList]
      [(42, "cat in the city".toList, DocumentStatus.ACTUAL, [1, 2, 3])] ∧
    (run stopWordsCalls : SearchServer ℚ).IsStopWord "in".toList = true ∧
    (run stopWordsCalls : SearchServer ℚ).posting "in".toList 42 = none ∧
    (run stopWordsCalls : SearchServer ℚ).word_to_document_freqs_.map Prod.fst =
      ["cat".toList, "city".toList] := by
  have h := C18_stop_words_not_indexed (R := ℚ) (fun x => x) ["in the".toList]
    [(42, "cat in the city".toList, DocumentStatus.ACTUAL, [1, 2, 3])]
  exact ⟨rfl, by decide, h.2.1 "in".toList 42 (by decide), by decide⟩

end Frozen

/-! ## Minus-terms in the plus set -/

section MinusOnly

variable {R : Type} [LinearOrderedField R]

open SearchServer

end MinusOnly

/-! ## Bounds on the document frequency, the term frequency and the relevance -/

section Bounds

variable {R : Type} [LinearOrderedField R]

open SearchServer

/-- No key of the term-to-postings map has an empty map of postings. -/
theorem postings_ne_nil_foldl_indexWord (document_id : Int) (freq : R) (words : List Str)
    (m : List (Str × List (Int × R))) (hm : IndexSorted m)
    (h : ∀ t P, mapFind m t = some P → P ≠ []) :
    ∀ t P, mapFind (words.foldl (indexWord document_id freq) m) t = some P → P ≠ [] := by
  induction words generalizing m with
  | nil => exact h
  | cons w words ih =>
    rw [List.foldl_cons]
    apply ih _ (indexWord_sorted document_id freq m hm w)
    intro t P hfind
    rw [mapFind_indexWord _ _ _ hm.1] at hfind
    split_ifs at hfind with ht
    · simp only [Option.some.injEq] at hfind
      intro hnil
      have hkeys := mapUpdate_keys document_id (fun o' : Option R => o'.getD 0 + freq)
        ((mapFind m w).getD [])
      rw [hfind, hnil] at hkeys
      have hmem : document_id ∈ setInsert document_id
          (((mapFind m w).getD []).map Prod.fst) := (mem_setInsert _ _ _).mpr (Or.inl rfl)
      rw [← hkeys] at hmem
      simp at hmem
    · exact h t P hfind

theorem postings_ne_nil_runFrom (s : SearchServer R) (hs : s.WF)
    (h : ∀ t P, mapFind s.word_to_document_freqs_ t = some P → P ≠ []) (calls : List Call) :
    ∀ t P, mapFind (runFrom s calls).word_to_document_freqs_ t = some P → P ≠ [] := by
  induction calls generalizing s with
  | nil => exact h
  | cons c calls ih =>
    apply ih (Call.apply s c) (WF_apply s hs c)
    cases c with
    | setStopWords text => exact h
    | addDocument document_id document status ratings =>
      exact postings_ne_nil_foldl_indexWord _ _ _ _ hs.index h

theorem postings_ne_nil_run (calls : List Call) (t : Str) (P : List (Int × R))
    (h : mapFind (run calls : SearchServer R).word_to_document_freqs_ t = some P) : P ≠ [] :=
  postings_ne_nil_runFrom SearchServer.empty WF_empty
    (by simp [SearchServer.empty, mapFind]) calls t P h

/-- Every stored term frequency is positive. -/
theorem posting_pos_runFrom (s : SearchServer R) (hs : s.WF)
    (h : ∀ t d tf, s.posting t d = some tf → 0 < tf) (calls : List Call) :
    ∀ t d tf, (runFrom s calls).posting t d = some tf → 0 < tf := by
  induction calls generalizing s with
  | nil => exact h
  | cons c calls ih =>
    apply ih (Call.apply s c) (WF_apply s hs c)
    cases c with
    | setStopWords text => exact h
    | addDocument document_id document status ratings =>
      intro t d tf hp
      change (s.AddDocument document_id document status ratings).posting t d = some tf at hp
      rw [posting_AddDocument s hs] at hp
      split_ifs at hp with hc
      · simp only [Option.some.injEq] at hp
        rw [← hp]
        have hold : (0 : R) ≤ (s.posting t d).getD 0 := by
          cases hq : s.posting t d with
          | none => simp
          | some v => exact le_of_lt (h t d v hq)
        have hcount : 0 < (s.SplitIntoWordsNoStop document).count t :=
          List.count_pos_iff.mpr hc.2
        have hlen : 0 < (s.SplitIntoWordsNoStop document).length :=
          List.length_pos_of_mem hc.2
        have hcount' : (0 : R) < ((s.SplitIntoWordsNoStop document).count t : R) :=
          Nat.cast_pos.mpr hcount
        have hlen' : (0 : R) < ((s.SplitIntoWordsNoStop document).length : R) :=
          Nat.cast_pos.mpr hlen
        have : (0 : R) < ((s.SplitIntoWordsNoStop document).count t : R) *
            (1 / ((s.SplitIntoWordsNoStop document).length : R)) :=
          mul_pos hcount' (one_div_pos.mpr hlen')
        linarith
      · exact h t d tf hp

theorem posting_pos_run (calls : List Call) (t : Str) (d : Int) (tf : R)
    (h : (run calls : SearchServer R).posting t d = some tf) : 0 < tf :=
  posting_pos_runFrom SearchServer.empty WF_empty
    (by intro t d tf h; simp [SearchServer.posting, lookup2, SearchServer.empty, mapFind] at h)
    calls t d tf h

/-- The posting of an entry of the map of postings of a term. -/
theorem posting_of_mem (s : SearchServer R) (hs : s.WF) (t : Str) (P : List (Int × R))
    (hP : mapFind s.word_to_document_freqs_ t = some P) (p : Int × R) (hp : p ∈ P) :
    s.posting t p.1 = some p.2 := by
  unfold SearchServer.posting lookup2
  rw [hP]
  exact mapFind_of_mem P (hs.index.2 t P hP) p.1 p.2 hp

/-- The number of documents in the postings of a term is at most the number of documents
with metadata. -/
theorem df_le_documents (s : SearchServer R) (hs : s.WF) (t : Str) :
    s.df t ≤ s.documents_.length := by
  unfold SearchServer.df
  cases hP : mapFind s.word_to_document_freqs_ t with
  | none => simp
  | some P =>
    have hnodup : (P.map Prod.fst).Nodup := (hs.index.2 t P hP).imp (fun h => ne_of_lt h)
    have hsub : P.map Prod.fst ⊆ s.documents_.map Prod.fst := by
      intro d hd
      obtain ⟨p, hp, rfl⟩ := List.mem_map.mp hd
      rw [← mapFind_isSome_iff]
      apply hs.known t p.1
      rw [posting_of_mem s hs t P hP p hp]
      rfl
    have := (List.subperm_of_subset hnodup hsub).length_le
    simpa using this

theorem df_bounds_run (calls : List Call) (t : Str)
    (ht : (mapFind (run calls : SearchServer R).word_to_document_freqs_ t).isSome = true) :
    1 ≤ (run calls : SearchServer R).df t ∧
      ((run calls : SearchServer R).df t : Int) ≤ (run calls : SearchServer R).document_count_ := by
  constructor
  · unfold SearchServer.df
    cases hP : mapFind (run calls : SearchServer R).word_to_document_freqs_ t with
    | none => rw [hP] at ht; exact Bool.noConfusion ht
    | some P =>
      have := postings_ne_nil_run calls t P hP
      exact List.length_pos.mpr this
  · rw [document_count_run]
    exact_mod_cast (df_le_documents _ (WF_run calls) t).trans (documents_length_le calls)

theorem ComputeIDF_nonneg (calls : List Call) (t : Str)
    (ht : (mapFind (run calls : SearchServer ℝ).word_to_document_freqs_ t).isSome = true) :
    0 ≤ ComputeIDF Real.log (run calls : SearchServer ℝ)
      ((run calls : SearchServer ℝ).df t : Int) := by
  obtain ⟨h1, h2⟩ := df_bounds_run (R := ℝ) calls t ht
  unfold SearchServer.ComputeIDF
  apply Real.log_nonneg
  have hpos : (0 : ℝ) < (((run calls : SearchServer ℝ).df t : Int) : ℝ) := by
    exact_mod_cast h1
  rw [one_le_div hpos]
  exact_mod_cast h2

theorem termScore_nonneg (calls : List Call) (d : Int) (t : Str) :
    0 ≤ (run calls : SearchServer ℝ).termScore Real.log d t := by
  cases hp : (run calls : SearchServer ℝ).posting t d with
  | none => rw [termScore_of_none _ _ _ _ hp]
  | some tf =>
    have hkey : (mapFind (run calls : SearchServer ℝ).word_to_document_freqs_ t).isSome
        = true := by
      unfold SearchServer.posting lookup2 at hp
      cases hq : mapFind (run calls : SearchServer ℝ).word_to_document_freqs_ t with
      | none => rw [hq] at hp; simp at hp
      | some P => rfl
    have h := ComputeIDF_nonneg calls t hkey
    unfold SearchServer.termScore
    rw [hp]
    exact mul_nonneg h (le_of_lt (posting_pos_run calls t d tf hp))

/-- C19. In every state reached by `SetStopWords` and `AddDocument` calls (duplicate ids and
empty documents included), every key `t` of the term-to-postings map has
`1 ≤ df(t) ≤ document_count_`, where `df(t)` is the number of the (pairwise distinct) document
ids of its postings, and every stored term frequency is positive; so the divisor of
`ComputeIDF` is not zero, the IDF is at least 0, and over the reals every relevance that
`FindTopDocuments` returns is at least 0, whatever the library `sort` is among the functions
that meet `StdSort`. -/
theorem C19_df_tf_idf_bounds (calls : List Call) :
    (∀ t postings, mapFind (run calls : SearchServer ℝ).word_to_document_freqs_ t =
        some postings →
      (run calls : SearchServer ℝ).df t = postings.length ∧
      (postings.map Prod.fst).Nodup ∧
      1 ≤ (run calls : SearchServer ℝ).df t ∧
      ((run calls : SearchServer ℝ).df t : Int) ≤ (run calls : SearchServer ℝ).document_count_ ∧
      (((run calls : SearchServer ℝ).df t : Int) : ℝ) ≠ 0 ∧
      (∀ p ∈ postings, 0 < p.2) ∧
      0 ≤ ComputeIDF Real.log (run calls : SearchServer ℝ)
        ((run calls : SearchServer ℝ).df t : Int)) ∧
    (∀ t d tf, (run calls : SearchServer ℝ).posting t d = some tf → 0 < tf) ∧
    (∀ sort : SortFn (Document ℝ), StdSort sort →
      ∀ (raw_query : Str) (predicate : Int → DocumentStatus → Int → Bool),
        ∃ result, (run calls : SearchServer ℝ).FindTopDocuments sort Real.log raw_query
            predicate = some result ∧
          ∀ doc ∈ result, 0 ≤ doc.relevance) := by
  refine ⟨?_, fun t d tf h => posting_pos_run calls t d tf h, ?_⟩
  · intro t postings hP
    have hkey : (mapFind (run calls : SearchServer ℝ).word_to_document_freqs_ t).isSome
        = true := by rw [hP]; rfl
    obtain ⟨h1, h2⟩ := df_bounds_run (R := ℝ) calls t hkey
    refine ⟨?_, ?_, h1, h2, ?_, ?_, ComputeIDF_nonneg calls t hkey⟩
    · unfold SearchServer.df
      rw [hP]
      rfl
    · exact ((WF_run (R := ℝ) calls).index.2 t postings hP).imp (fun h => ne_of_lt h)
    · have : (0 : ℝ) < (((run calls : SearchServer ℝ).df t : Int) : ℝ) := by exact_mod_cast h1
      exact ne_of_gt this
    · intro p hp
      exact posting_pos_run calls t p.1 p.2 (posting_of_mem _ (WF_run calls) t postings hP p hp)
  · intro sort hsort raw_query predicate
    obtain ⟨rel, htop, hsorted, hfind⟩ :=
      FindTopDocuments_spec sort Real.log (run calls : SearchServer ℝ) (WF_run calls) raw_query
        predicate
    refine ⟨_, htop, ?_⟩
    intro doc hdoc
    obtain ⟨p, hp, hpd⟩ := List.mem_map.mp (take_sort_subset sort hsort _ _ _ hdoc)
    have hval := mapFind_of_mem rel hsorted p.1 p.2 hp
    rw [hfind p.1] at hval
    split_ifs at hval with hc
    simp only [Option.some.injEq] at hval
    rw [← hpd]
    show 0 ≤ p.2
    rw [← hval]
    apply List.sum_nonneg
    intro x hx
    obtain ⟨t, -, rfl⟩ := List.mem_map.mp hx
    exact termScore_nonneg calls p.1 t

/-- C19 on a run with a duplicate id and an empty document: the term `cat` has
`1 ≤ df = 1 ≤ document_count_ = 3`, and the query `cat` returns no negative relevance. -/
theorem C19_df_tf_idf_bounds_witness :
    ((mapFind (run [Call.addDocument 1 "cat dog".toList DocumentStatus.ACTUAL [1],
        Call.addDocument 1 "cat".toList DocumentStatus.ACTUAL [2],
        Call.addDocument 2 "".toList DocumentStatus.ACTUAL []] :
          SearchServer ℝ).word_to_document_freqs_ "cat".toList).getD []).map Prod.fst = [1] ∧
    (run [Call.addDocument 1 "cat dog".toList DocumentStatus.ACTUAL [1],
        Call.addDocument 1 "cat".toList DocumentStatus.ACTUAL [2],
        Call.addDocument 2 "".toList DocumentStatus.ACTUAL []] :
          SearchServer ℝ).df "cat".toList = 1 ∧
    (run [Call.addDocument 1 "cat dog".toList DocumentStatus.ACTUAL [1],
        Call.addDocument 1 "cat".toList DocumentStatus.ACTUAL [2],
        Call.addDocument 2 "".toList DocumentStatus.ACTUAL []] :
          SearchServer ℝ).document_count_ = 3 ∧
    0 ≤ ComputeIDF Real.log (run [Call.addDocument 1 "cat dog".toList DocumentStatus.ACTUAL [1],
        Call.addDocument 1 "cat".toList DocumentStatus.ACTUAL [2],
        Call.addDocument 2 "".toList DocumentStatus.ACTUAL []] : SearchServer ℝ)
      ((run [Call.addDocument 1 "cat dog".toList DocumentStatus.ACTUAL [1],
        Call.addDocument 1 "cat".toList DocumentStatus.ACTUAL [2],
        Call.addDocument 2 "".toList DocumentStatus.ACTUAL []] :
          SearchServer ℝ).df "cat".toList : Int) := by
  have h := (C19_df_tf_idf_bounds
    [Call.addDocument 1 "cat dog".toList DocumentStatus.ACTUAL [1],
      Call.addDocument 1 "cat".toList DocumentStatus.ACTUAL [2],
      Call.addDocument 2 "".toList DocumentStatus.ACTUAL []]).1 "cat".toList _ rfl
  exact ⟨rfl, rfl, rfl, h.2.2.2.2.2.2⟩

end Bounds

/-! ## The comparison of the sort -/

section Comparator

variable {R : Type} [LinearOrderedField R]

open SearchServer

/-- C20 (amended). The comparison that `FindTopDocuments` passes to `sort` is irreflexive and
asymmetric for all relevances and ratings. It is a strict weak ordering (irreflexive,
transitive, with transitive incomparability) on a set of Documents exactly when the set has
no chain of near ties that the ratings do not put in order: no `x`, `y`, `z` with the
relevances of `x` and `z` at least `1e-6` apart, `x` the lower one, both within `1e-6` of the
relevance of `y`, and neither the rating of `z` greater than that of `y` nor the rating of
`y` greater than that of `x`. In particular it is a strict weak ordering on every set on
which the relation of having relevances that differ by less than `1e-6` is transitive, and
for Documents of one rating on no other set. -/
theorem C20_comparator_strict_weak_ordering :
    (∀ a : Document R, documentLess a a = false) ∧
    (∀ a b : Document R, documentLess a b = true → documentLess b a = false) ∧
    (∀ S : Document R → Prop,
      StrictWeakOrderingOn (documentLess : Document R → Document R → Bool) S ↔
        NoTieChainOn S) ∧
    (∀ S : Document R → Prop, NearTiesTransitiveOn S →
      StrictWeakOrderingOn (documentLess : Document R → Document R → Bool) S) ∧
    (∀ S : Document R → Prop, (∀ a b, S a → S b → a.rating = b.rating) →
      StrictWeakOrderingOn (documentLess : Document R → Document R → Bool) S →
      NearTiesTransitiveOn S) :=
  ⟨documentLess_irrefl, documentLess_asymm, documentLess_swo_iff, documentLess_swo_of_near,
    near_of_swo_of_rating⟩

/-- The amended C20 on four Documents with the relevances 0, `3e-7`, `6e-7` and 5 and the
ratings 1, 5, 4 and 2: the first three are near ties of each other without being equal, and
the comparison orders them by rating, after the fourth. And on the chain of near ties 0,
`6e-7`, `12e-7` with the ratings 1, 2, 3, which the ratings put in order: the comparison is a
strict weak ordering there although the near ties are not transitive. -/
theorem C20_comparator_strict_weak_ordering_witness :
    NearTiesTransitiveOn (fun a : Document ℚ =>
      a ∈ [(⟨1, 0, 1⟩ : Document ℚ), ⟨2, 3 / 10000000, 5⟩, ⟨3, 6 / 10000000, 4⟩, ⟨4, 5, 2⟩]) ∧
    StrictWeakOrderingOn (documentLess : Document ℚ → Document ℚ → Bool)
      (fun a => a ∈ [(⟨1, 0, 1⟩ : Document ℚ), ⟨2, 3 / 10000000, 5⟩, ⟨3, 6 / 10000000, 4⟩,
        ⟨4, 5, 2⟩]) ∧
    documentLess (⟨2, 3 / 10000000, 5⟩ : Document ℚ) ⟨3, 6 / 10000000, 4⟩ = true ∧
    documentLess (⟨3, 6 / 10000000, 4⟩ : Document ℚ) ⟨1, 0, 1⟩ = true ∧
    documentLess (⟨4, 5, 2⟩ : Document ℚ) ⟨2, 3 / 10000000, 5⟩ = true ∧
    NoTieChainOn (fun a : Document ℚ =>
      a ∈ [(⟨1, 0, 1⟩ : Document ℚ), ⟨2, 6 / 10000000, 2⟩, ⟨3, 12 / 10000000, 3⟩]) ∧
    ¬ NearTiesTransitiveOn (fun a : Document ℚ =>
      a ∈ [(⟨1, 0, 1⟩ : Document ℚ), ⟨2, 6 / 10000000, 2⟩, ⟨3, 12 / 10000000, 3⟩]) ∧
    StrictWeakOrderingOn (documentLess : Document ℚ → Document ℚ → Bool)
      (fun a => a ∈ [(⟨1, 0, 1⟩ : Document ℚ), ⟨2, 6 / 10000000, 2⟩,
        ⟨3, 12 / 10000000, 3⟩]) := by
  have h : NearTiesTransitiveOn (fun a : Document ℚ =>
      a ∈ [(⟨1, 0, 1⟩ : Document ℚ), ⟨2, 3 / 10000000, 5⟩, ⟨3, 6 / 10000000, 4⟩,
        ⟨4, 5, 2⟩]) := by
    intro a b c ha hb hc
    simp only [List.mem_cons, List.mem_singleton, List.not_mem_nil, or_false] at ha hb hc
    rcases ha with rfl | rfl | rfl | rfl <;> rcases hb with rfl | rfl | rfl | rfl <;>
      rcases hc with rfl | rfl | rfl | rfl <;> norm_num [abs_lt]
  have hc : NoTieChainOn (fun a : Document ℚ =>
      a ∈ [(⟨1, 0, 1⟩ : Document ℚ), ⟨2, 6 / 10000000, 2⟩, ⟨3, 12 / 10000000, 3⟩]) := by
    intro x y z hx hy hz
    simp only [List.mem_cons, List.mem_singleton, List.not_mem_nil, or_false] at hx hy hz
    rcases hx with rfl | rfl | rfl <;> rcases hy with rfl | rfl | rfl <;>
      rcases hz with rfl | rfl | rfl <;> norm_num [abs_lt]
  have hn : ¬ NearTiesTransitiveOn (fun a : Document ℚ =>
      a ∈ [(⟨1, 0, 1⟩ : Document ℚ), ⟨2, 6 / 10000000, 2⟩, ⟨3, 12 / 10000000, 3⟩]) := by
    intro hnear
    have := hnear ⟨1, 0, 1⟩ ⟨2, 6 / 10000000, 2⟩ ⟨3, 12 / 10000000, 3⟩ (by simp) (by simp)
      (by simp) (by norm_num [abs_lt]) (by norm_num [abs_lt])
    norm_num [abs_lt] at this
  refine ⟨h, (C20_comparator_strict_weak_ordering (R := ℚ)).2.2.2.1 _ h, ?_, ?_, ?_, hc, hn,
    ((C20_comparator_strict_weak_ordering (R := ℚ)).2.2.1 _).mpr hc⟩
  · norm_num [SearchServer.documentLess, abs_lt]
  · norm_num [SearchServer.documentLess, abs_lt]
  · norm_num [SearchServer.documentLess, abs_lt]

/-- C20 as stated fails: with relevances `0`, `6e-7`, `12e-7` and ratings 3, 2, 1 the
comparison puts the first Document before the second and the second before the third, but
the third before the first, so it is not transitive; and with equal ratings the first is
incomparable with the second and the second with the third, but the third is before the
first. The comparison is not a strict weak ordering on all Documents. -/
theorem C20_counterexample :
    documentLess (⟨1, 0, 3⟩ : Document ℝ) ⟨2, 6 / 10000000, 2⟩ = true ∧
    documentLess (⟨2, 6 / 10000000, 2⟩ : Document ℝ) ⟨3, 12 / 10000000, 1⟩ = true ∧
    documentLess (⟨1, 0, 3⟩ : Document ℝ) ⟨3, 12 / 10000000, 1⟩ = false ∧
    documentLess (⟨3, 12 / 10000000, 1⟩ : Document ℝ) ⟨1, 0, 3⟩ = true ∧
    documentLess (⟨1, 0, 1⟩ : Document ℝ) ⟨2, 6 / 10000000, 1⟩ = false ∧
    documentLess (⟨2, 6 / 10000000, 1⟩ : Document ℝ) ⟨1, 0, 1⟩ = false ∧
    documentLess (⟨2, 6 / 10000000, 1⟩ : Document ℝ) ⟨3, 12 / 10000000, 1⟩ = false ∧
    documentLess (⟨3, 12 / 10000000, 1⟩ : Document ℝ) ⟨2, 6 / 10000000, 1⟩ = false ∧
    documentLess (⟨3, 12 / 10000000, 1⟩ : Document ℝ) ⟨1, 0, 1⟩ = true ∧
    ¬ StrictWeakOrderingOn (documentLess : Document ℝ → Document ℝ → Bool) (fun _ => True) := by
  have e1 : |(0 : ℝ) - 6 / 10000000| < 1 / 1000000 := by rw [abs_lt]; constructor <;> norm_num
  have e2 : |(6 / 10000000 : ℝ) - 12 / 10000000| < 1 / 1000000 := by
    rw [abs_lt]; constructor <;> norm_num
  have e3 : ¬ |(0 : ℝ) - 12 / 10000000| < 1 / 1000000 := by
    rw [abs_lt]; norm_num
  have e4 : ¬ |(12 / 10000000 : ℝ) - 0| < 1 / 1000000 := by
    rw [abs_lt]; norm_num
  have e5 : |(6 / 10000000 : ℝ) - 0| < 1 / 1000000 := by rw [abs_lt]; constructor <;> norm_num
  have e6 : |(12 / 10000000 : ℝ) - 6 / 10000000| < 1 / 1000000 := by
    rw [abs_lt]; constructor <;> norm_num
  have h1 : documentLess (⟨1, 0, 3⟩ : Document ℝ) ⟨2, 6 / 10000000, 2⟩ = true := by
    simp only [SearchServer.documentLess, e1, if_true]
    decide
  have h2 : documentLess (⟨2, 6 / 10000000, 2⟩ : Document ℝ) ⟨3, 12 / 10000000, 1⟩ = true := by
    simp only [SearchServer.documentLess, e2, if_true]
    decide
  have h3 : documentLess (⟨1, 0, 3⟩ : Document ℝ) ⟨3, 12 / 10000000, 1⟩ = false := by
    simp only [SearchServer.documentLess, e3, if_false]
    norm_num
  refine ⟨h1, h2, h3, ?_, ?_, ?_, ?_, ?_, ?_, ?_⟩
  · simp only [SearchServer.documentLess, e4, if_false]
    norm_num
  · simp only [SearchServer.documentLess, e1, if_true]
    decide
  · simp only [SearchServer.documentLess, e5, if_true]
    decide
  · simp only [SearchServer.documentLess, e2, if_true]
    decide
  · simp only [SearchServer.documentLess, e6, if_true]
    decide
  · simp only [SearchServer.documentLess, e4, if_false]
    norm_num
  · intro h
    have := h.2.1 _ _ _ trivial trivial trivial h1 h2
    rw [h3] at this
    exact Bool.noConfusion this

end Comparator

/-! ## Metadata of the documents of the postings -/

section Metadata

variable {R : Type} [LinearOrderedField R]

open SearchServer

/-- The loop over the postings of a plus-word returns when every id of the postings has
metadata. -/
theorem accumulateWord_isSome (s : SearchServer R)
    (predicate : Int → DocumentStatus → Int → Bool) (IDF : R) (tempFreq : List (Int × R))
    (hknown : ∀ p ∈ tempFreq, (mapFind s.documents_ p.1).isSome = true)
    (rel : List (Int × R)) :
    ∃ rel', accumulateWord s predicate IDF tempFreq rel = some rel' := by
  induction tempFreq generalizing rel with
  | nil => exact ⟨rel, rfl⟩
  | cons p P ih =>
    obtain ⟨data, hdata⟩ := Option.isSome_iff_exists.mp (hknown p (List.mem_cons_self _ _))
    have ih' := fun rel₁ => ih (fun q hq => hknown q (List.mem_cons_of_mem _ hq)) rel₁
    unfold accumulateWord at ih' ⊢
    rw [List.foldlM_cons]
    simp only [hdata, Option.bind_eq_bind, Option.some_bind, Option.pure_def]
    exact ih' _

/-- C21. In every state reached by `SetStopWords` and `AddDocument` calls, every document id
in the postings of any term was passed to `AddDocument` and has a metadata entry in
`documents_`; so the lookups `documents_.at(id)` of `FindAllDocuments` do not fail, in the
loop over the postings of a plus-word and in the loop that builds the result, and
`FindAllDocuments` and every overload of `FindTopDocuments` return a result for every query
and every predicate, whatever the library `sort` does. -/
theorem C21_postings_have_metadata (ln : R → R) (calls : List Call) :
    (∀ t postings, mapFind (run calls : SearchServer R).word_to_document_freqs_ t =
        some postings →
      ∀ p ∈ postings, p.1 ∈ addedIds calls ∧
        ∃ data, mapFind (run calls : SearchServer R).documents_ p.1 = some data) ∧
    (∀ t d, ((run calls : SearchServer R).posting t d).isSome = true →
      ∃ data, mapFind (run calls : SearchServer R).documents_ d = some data) ∧
    (∀ t postings (predicate : Int → DocumentStatus → Int → Bool) (IDF : R)
        (document_to_relevance : List (Int × R)),
      mapFind (run calls : SearchServer R).word_to_document_freqs_ t = some postings →
      ∃ rel, accumulateWord (run calls : SearchServer R) predicate IDF postings
        document_to_relevance = some rel) ∧
    (∀ (query_words : Query) (predicate : Int → DocumentStatus → Int → Bool),
      ∃ matched, FindAllDocuments ln (run calls : SearchServer R) query_words predicate =
        some matched) ∧
    (∀ (sort : SortFn (Document R)) (raw_query : Str)
        (predicate : Int → DocumentStatus → Int → Bool),
      ∃ result, (run calls : SearchServer R).FindTopDocuments sort ln raw_query predicate =
        some result) ∧
    (∀ (sort : SortFn (Document R)) (raw_query : Str) (status : DocumentStatus),
      ∃ result, (run calls : SearchServer R).FindTopDocumentsByStatus sort ln raw_query
        status = some result) ∧
    (∀ (sort : SortFn (Document R)) (raw_query : Str),
      ∃ result, (run calls : SearchServer R).FindTopDocumentsDefault sort ln raw_query =
        some result) := by
  have hs : (run calls : SearchServer R).WF := WF_run calls
  have hmeta : ∀ t postings, mapFind (run calls : SearchServer R).word_to_document_freqs_ t =
      some postings → ∀ p ∈ postings,
        (mapFind (run calls : SearchServer R).documents_ p.1).isSome = true := by
    intro t postings hP p hp
    apply hs.known t p.1
    rw [posting_of_mem _ hs t postings hP p hp]
    rfl
  have htop : ∀ (sort : SortFn (Document R)) (raw_query : Str)
      (predicate : Int → DocumentStatus → Int → Bool),
      ∃ result, (run calls : SearchServer R).FindTopDocuments sort ln raw_query predicate =
        some result := by
    intro sort raw_query predicate
    obtain ⟨rel, h, -, -⟩ := FindTopDocuments_spec sort ln _ hs raw_query predicate
    exact ⟨_, h⟩
  refine ⟨?_, ?_, ?_, ?_, htop, fun sort raw_query status => htop sort raw_query _,
    fun sort raw_query => htop sort raw_query _⟩
  · intro t postings hP p hp
    have h := hmeta t postings hP p hp
    refine ⟨?_, Option.isSome_iff_exists.mp h⟩
    by_contra hd
    rw [documents_run_fresh calls p.1 hd] at h
    exact Bool.noConfusion h
  · intro t d h
    exact Option.isSome_iff_exists.mp (hs.known t d h)
  · intro t postings predicate IDF rel hP
    exact accumulateWord_isSome _ predicate IDF postings (hmeta t postings hP) rel
  · intro query_words predicate
    obtain ⟨rel, h, -, -⟩ := FindAllDocuments_spec ln _ hs query_words predicate
    exact ⟨_, h⟩

/-- C21 on the test `MatchDocumentAlwaysReturnActualStatus`: the postings of `cat` hold the
ids 1 and 2, both with metadata, and the query `cat box` returns a result for every status.
In a state that no run reaches, with a posting for the id 7 and no metadata, the lookup
fails. -/
theorem C21_postings_have_metadata_witness :
    ((mapFind (run matchCalls : SearchServer ℚ).word_to_document_freqs_
      "cat".toList).getD []).map Prod.fst = [1, 2] ∧
    (∃ data, mapFind (run matchCalls : SearchServer ℚ).documents_ 1 = some data) ∧
    (∃ result, (run matchCalls : SearchServer ℚ).FindTopDocumentsByStatus insertionSort
      (fun x => x) "cat box".toList DocumentStatus.BANNED = some result) ∧
    ((run matchCalls : SearchServer ℚ).FindTopDocumentsByStatus insertionSort (fun x => x)
      "cat box".toList DocumentStatus.BANNED).map (fun l => l.map Document.id) = some [1] ∧
    ∀ sort : SortFn (Document ℚ),
      ({ word_to_document_freqs_ := [("cat".toList, [(7, 1)])], documents_ := [],
         document_count_ := 1, stop_words_ := [] } : SearchServer ℚ).FindTopDocuments sort
        (fun x => x) "cat".toList (fun _ _ _ => true) = none := by
  have h := C21_postings_have_metadata (R := ℚ) (fun x => x) matchCalls
  exact ⟨rfl, h.2.1 "cat".toList 1 rfl,
    h.2.2.2.2.2.1 insertionSort "cat box".toList DocumentStatus.BANNED, rfl, fun _ => rfl⟩

end Metadata
